import Mathlib

/-!
# gotm: collapsed Gibbs sampler for LDA

A shallow embedding of `corpus/corpus.go`, `table/table.go` and `model/lda.go`.

* Go's `uint32` values are natural numbers; the conversions the source performs
  (`uint32(i)`, `int32(topicNum)`) are written out with their wrap-around.
* `float32` arithmetic is idealised as exact arithmetic over `ℚ`; the `float64` running
  sum of `Likelihood` rounds every addition to the nearest `float64` (`addFloat64`).
* The process-wide tables of package `sstable` are one record, `sstable`, passed
  explicitly; a panic is the result `none`.
* Go's map iteration order and the pseudo-random generator are supplied by an
  environment `Env`, over which the theorems quantify.
-/

namespace Gotm

/-! ## Machine integers -/

/-- Number of values of Go's `uint32`. -/
def uint32Size : Nat := 4294967296

/-- The conversion `uint32(i)` of a non-negative `int`. -/
def toUint32 (i : Nat) : Nat := i % uint32Size

/-- The conversion `int32(x)` of a `uint32`: values from `2^31` on become negative. -/
def toInt32 (x : Nat) : Int :=
  if x % uint32Size < 2147483648 then ((x % uint32Size : Nat) : Int)
  else ((x % uint32Size : Nat) : Int) - 4294967296

/-! ## Addition of `float64` values -/

/-- The auxiliary loop of `floorLog2`: halve `n` until it is below 2, at most `fuel` times. -/
def log2Aux : Nat → Nat → Nat
  | 0, _ => 0
  | fuel + 1, n => if n < 2 then 0 else log2Aux fuel (n / 2) + 1

/-- The position of the leading binary digit of `n`: `⌊log₂ n⌋`, and 0 for `n = 0`. -/
def floorLog2 (n : Nat) : Nat := log2Aux n n

/-- The integer nearest to the quotient `n / d` of two natural numbers, a tie going to the
even neighbour. -/
def roundHalfEven (n d : Nat) : Nat :=
  if 2 * (n % d) < d then n / d
  else if d < 2 * (n % d) then n / d + 1
  else if (n / d) % 2 = 0 then n / d else n / d + 1

/-- The exponent `u` for which the `float64` values around `n / d > 0` are the multiples of
`2^u`: 52 below the binary exponent `⌊log₂ (n / d)⌋`, and never below `-1074` (the spacing of
the subnormal numbers). -/
def ulpExp (n d : Nat) : Int :=
  let e0 : Int := (floorLog2 n : Int) - (floorLog2 d : Int)
  let e : Int := if d * 2 ^ e0.toNat ≤ n * 2 ^ (-e0).toNat then e0 else e0 - 1
  max (e - 52) (-1074)

/-- The `float64` nearest to an exact value, ties going to the even significand: the rounding
every `float64` operation of Go applies to its exact result. The model has no infinities: a
value beyond the largest `float64` is rounded as if the exponent range had no upper end. -/
def roundFloat64 (x : ℚ) : ℚ :=
  let n := x.num.natAbs
  let u := ulpExp n x.den
  let m := roundHalfEven (n * 2 ^ (-u).toNat) (x.den * 2 ^ u.toNat)
  mkRat (x.num.sign * m * 2 ^ u.toNat) (2 ^ (-u).toNat)

/-- The sum `a + b` of two `float64` values as Go computes it. -/
def addFloat64 (a b : ℚ) : ℚ := roundFloat64 (a + b)

/-! ## Package corpus -/

/-- The struct `corpus.WordCount`. -/
structure WordCount where
  WordId : Nat
  Count : Nat
deriving DecidableEq, Repr

/-- The inner loop of `ExpandWords`: `for i := 0; i < Count; i += 1 { words = append(words, WordId) }`. -/
def appendCopies (words : List Nat) (wordId : Nat) : Nat → List Nat
  | 0 => words
  | n + 1 => appendCopies (words ++ [wordId]) wordId n

/-- The function `corpus.ExpandWords`. -/
def ExpandWords (wcs : List WordCount) : List Nat :=
  wcs.foldl (fun words wc => appendCopies words wc.WordId wc.Count) []

/-- A Go `map[uint32][]*WordCount` that is not nil: its entries, with pairwise distinct keys
(see `DocMapOK`), in no particular order. -/
abbrev DocMap := List (Nat × List WordCount)

/-- The keys of a Go map are pairwise distinct. -/
def DocMapOK (docs : DocMap) : Prop := (docs.map Prod.fst).Nodup

/-- The struct `corpus.Corpus`; `Docs = none` is the nil map. -/
structure Corpus where
  VocabSize : Nat
  DocNum : Nat
  Docs : Option DocMap

/-- The entries of `Docs`; ranging over a nil map visits nothing. -/
def Corpus.entries (c : Corpus) : DocMap := c.Docs.getD []

/-- The expression `Docs[d]` of a Go map read: the nil slice when `d` is not a key. -/
def docsGet : DocMap → Nat → List WordCount
  | [], _ => []
  | (d0, wcs) :: rest, d => if d0 = d then wcs else docsGet rest d

/-! ## Package matrix (not among the sources) -/

/-- Modelled from the spec: the package `matrix` (`NewUint32Matrix`, `NewFloat32Matrix`, `Incr`,
`Decr`, `Get`, `Set`, `GetRow`, `GetCol`) is missing from the sources. A matrix is a dense
`rowNum × colNum` table of cells; cell contents are counts without a width limit. -/
structure DenseMatrix (α : Type) where
  rowNum : Nat
  colNum : Nat
  cell : Nat → Nat → α

namespace DenseMatrix

variable {α : Type}

/-- Modelled from the spec: the missing constructors allocate a zeroed table of the given size. -/
def New [Zero α] (rowNum colNum : Nat) : DenseMatrix α := ⟨rowNum, colNum, fun _ _ => 0⟩

/-- Index check shared by the accessors: an index outside the table panics. -/
def inBounds (m : DenseMatrix α) (r c : Nat) : Prop := r < m.rowNum ∧ c < m.colNum

instance (m : DenseMatrix α) (r c : Nat) : Decidable (m.inBounds r c) := by
  unfold inBounds; infer_instance

/-- Modelled from the spec: the missing read accessor `Get`. -/
def Get (m : DenseMatrix α) (r c : Nat) : Option α :=
  if m.inBounds r c then some (m.cell r c) else none

/-- Modelled from the spec: the missing `Set`, overwriting one cell. -/
def Set (m : DenseMatrix α) (r c : Nat) (v : α) : Option (DenseMatrix α) :=
  if m.inBounds r c then
    some ⟨m.rowNum, m.colNum, fun i j => if i = r ∧ j = c then v else m.cell i j⟩
  else none

/-- Modelled from the spec: the missing `Incr`, which mutates one count by the given amount. -/
def Incr (m : DenseMatrix Nat) (r c delta : Nat) : Option (DenseMatrix Nat) :=
  if m.inBounds r c then m.Set r c (m.cell r c + delta) else none

/-- Modelled from the spec: the missing `Decr`; decrementing below zero fails loudly and does
not wrap. -/
def Decr (m : DenseMatrix Nat) (r c delta : Nat) : Option (DenseMatrix Nat) :=
  if m.inBounds r c ∧ delta ≤ m.cell r c then m.Set r c (m.cell r c - delta) else none

/-- Modelled from the spec: the missing read accessor `GetRow`. -/
def GetRow (m : DenseMatrix α) (r : Nat) : Option (List α) :=
  if r < m.rowNum then some ((List.range m.colNum).map (fun c => m.cell r c)) else none

/-- Modelled from the spec: the missing read accessor `GetCol`. -/
def GetCol (m : DenseMatrix α) (c : Nat) : Option (List α) :=
  if c < m.colNum then some ((List.range m.rowNum).map (fun r => m.cell r c)) else none

/-- The cells of the table, row by row. -/
def toLists (m : DenseMatrix α) : List (List α) :=
  (List.range m.rowNum).map (fun r => (List.range m.colNum).map (fun c => m.cell r c))

end DenseMatrix

/-- Modelled from the spec: `util.VectorSum` is missing from the sources; it adds up the
entries of a vector. -/
def VectorSum (xs : List Nat) : Nat := xs.sum

/-! ## Package sstable (table/table.go) -/

/-- The struct `DocWord`: key of the assignment table. -/
structure DocWord where
  DocId : Nat
  WordIdx : Nat
deriving DecidableEq, Repr

/-- A Go `map[DocWord]uint32` as its list of entries, keys pairwise distinct. -/
abbrev TopicMap := List (DocWord × Nat)

/-- Lookup of a key with the "comma ok" result. -/
def mapLookup : TopicMap → DocWord → Option Nat
  | [], _ => none
  | (key, v) :: rest, dw => if key = dw then some v else mapLookup rest dw

/-- The read `DocWordTopic[dw]`: a missing key reads as the zero value. -/
def mapGet (m : TopicMap) (dw : DocWord) : Nat := (mapLookup m dw).getD 0

/-- The write `DocWordTopic[dw] = k`: replaces the entry of `dw` or adds one. -/
def mapSet : TopicMap → DocWord → Nat → TopicMap
  | [], dw, k => [(dw, k)]
  | (key, v) :: rest, dw, k =>
    if key = dw then (dw, k) :: rest else (key, v) :: mapSet rest dw k

/-- The package-level variables of `sstable`. -/
structure sstable where
  WordTopic : DenseMatrix Nat
  DocTopic : DenseMatrix Nat
  WordTopicSum : DenseMatrix Nat
  DocWordTopic : TopicMap

/-! ## Package model (model/lda.go) -/

/-- The struct `lda`. -/
structure lda where
  data : Corpus
  alpha : ℚ
  beta : ℚ
  topicNum : Nat

/-- What `Run` and `Likelihood` take from outside the program: the wall clock, the generator of
`math/rand` as a function of the seed and of the number of draws made so far, the logarithm, and
the order in which the `p`-th `range` loop over the map `Docs` visits its entries. -/
structure Env where
  now : Nat
  rawInt31 : Nat → Nat → Nat
  rawFloat32 : Nat → Nat → ℚ
  log : ℚ → ℚ
  order : Nat → DocMap

/-- An order is admissible when each `range` loop visits every entry of the map once. -/
def Env.OrderOK (env : Env) (c : Corpus) : Prop := ∀ p, (env.order p).Perm c.entries

/-- The call `rand.Int31n(n)`: panics unless `n > 0`, else a value in `[0, n)`. -/
def Int31n (raw : Nat) (n : Int) : Option Nat :=
  if n ≤ 0 then none else some (raw % n.toNat)

/-- The function `NewLDA`: replaces the package-level tables and returns the model. -/
def NewLDA (dat : Corpus) (topicNum : Nat) (alpha beta : ℚ) : lda × sstable :=
  (⟨dat, alpha, beta, topicNum⟩,
   ⟨DenseMatrix.New dat.VocabSize topicNum, DenseMatrix.New dat.DocNum topicNum,
    DenseMatrix.New topicNum 1, []⟩)

/-- One column of `Phi`: the body of the loop over `k`. The tables are read and handed on. -/
def phiCol (this : lda) (acc : DenseMatrix ℚ × sstable) (k : Nat) :
    Option (DenseMatrix ℚ × sstable) := do
  let col ← acc.2.WordTopic.GetCol k
  let sum := VectorSum col
  (List.range this.data.VocabSize).foldlM (fun (a : DenseMatrix ℚ × sstable) v => do
    let x ← a.2.WordTopic.Get v k
    let result : ℚ := ((x : ℚ) + this.beta) / ((sum : ℚ) + (this.data.VocabSize : ℚ) * this.beta)
    let phi ← a.1.Set v k result
    pure (phi, a.2)) acc

/-- The method `Phi`: the estimate together with the tables it leaves behind. -/
def Phi (this : lda) (s : sstable) : Option (DenseMatrix ℚ × sstable) :=
  (List.range this.topicNum).foldlM (phiCol this)
    (DenseMatrix.New this.data.VocabSize this.topicNum, s)

/-- One row of `Theta`: the body of the loop over `d`. -/
def thetaRow (this : lda) (acc : DenseMatrix ℚ × sstable) (d : Nat) :
    Option (DenseMatrix ℚ × sstable) := do
  let row ← acc.2.DocTopic.GetRow d
  let sum := VectorSum row
  (List.range this.topicNum).foldlM (fun (a : DenseMatrix ℚ × sstable) k => do
    let x ← a.2.DocTopic.Get d k
    let result : ℚ := ((x : ℚ) + this.alpha) / ((sum : ℚ) + (this.topicNum : ℚ) * this.alpha)
    let theta ← a.1.Set d k result
    pure (theta, a.2)) acc

/-- The method `Theta`. -/
def Theta (this : lda) (s : sstable) : Option (DenseMatrix ℚ × sstable) :=
  (List.range this.data.DocNum).foldlM (thetaRow this)
    (DenseMatrix.New this.data.DocNum this.topicNum, s)

/-- The innermost loop of `Likelihood`: `topicSum += phi.Get(w, k) * theta.Get(doc, k)`. -/
def topicSum (this : lda) (phi theta : DenseMatrix ℚ) (doc w : Nat) : Option ℚ :=
  (List.range this.topicNum).foldlM (fun (acc : ℚ) k => do
    let p ← phi.Get w k
    let t ← theta.Get doc k
    pure (acc + p * t)) 0

/-- The loop of `Likelihood` over the words of one document:
`sum += math.Log(float64(topicSum))` on the `float64` variable `sum`. -/
def likelihoodDoc (this : lda) (env : Env) (phi theta : DenseMatrix ℚ) (sum : ℚ)
    (d : Nat × List WordCount) : Option ℚ :=
  (ExpandWords d.2).foldlM (fun (acc : ℚ) w => do
    let ts ← topicSum this phi theta d.1 w
    pure (addFloat64 acc (env.log ts))) sum

/-- The method `Likelihood`; `p` numbers the `range` loop over `Docs` it performs. -/
def Likelihood (this : lda) (env : Env) (p : Nat) (s : sstable) : Option (ℚ × sstable) := do
  let r1 ← Phi this s
  let r2 ← Theta this r1.2
  let sum ← (env.order p).foldlM (likelihoodDoc this env r1.1 r2.1) 0
  pure (sum, r2.2)

/-- The state `Run` works on: the tables and the number of draws made since `rand.Seed`. -/
structure RunState where
  tab : sstable
  calls : Nat

/-- Body of the initialisation loop for the `i`-th word `w` of document `doc`. -/
def initToken (this : lda) (env : Env) (doc : Nat) (st : RunState) (iw : Nat × Nat) :
    Option RunState := do
  let k ← Int31n (env.rawInt31 env.now st.calls) (toInt32 this.topicNum)
  let wt ← st.tab.WordTopic.Incr iw.2 k 1
  let dt ← st.tab.DocTopic.Incr doc k 1
  let wts ← st.tab.WordTopicSum.Incr k 0 1
  pure ⟨⟨wt, dt, wts, mapSet st.tab.DocWordTopic ⟨doc, toUint32 iw.1⟩ k⟩, st.calls + 1⟩

/-- The initialisation pass of `Run`. -/
def initPass (this : lda) (env : Env) (st : RunState) : Option RunState :=
  (env.order 0).foldlM (fun st d => (ExpandWords d.2).enum.foldlM (initToken this env d.1) st) st

/-- The unnormalised weight `docPart * wordPart` of topic `kidx`. -/
def weight (this : lda) (s : sstable) (doc w kidx : Nat) : Option ℚ := do
  let dt ← s.DocTopic.Get doc kidx
  let docPart : ℚ := this.alpha + (dt : ℚ)
  let wt ← s.WordTopic.Get w kidx
  let wts ← s.WordTopicSum.Get kidx 0
  let wordPart : ℚ := (this.beta + (wt : ℚ)) / ((wts : ℚ) + this.beta * (this.data.VocabSize : ℚ))
  pure (docPart * wordPart)

/-- The loop filling `cumsum`. Entry `kidx` is written before it is read, so the slice is
built up entry by entry. -/
def fillCumsum (this : lda) (s : sstable) (doc w : Nat) : Option (List ℚ) :=
  (List.range this.topicNum).foldlM (fun (cumsum : List ℚ) kidx => do
    let x ← weight this s doc w kidx
    if kidx = 0 then pure (cumsum ++ [x])
    else pure (cumsum ++ [cumsum.getD (kidx - 1) 0 + x])) []

/-- The selection loop: the first `kidx` with `u < cumsum[kidx]`, else `k` keeps its value. -/
def selectTopic (topicNum : Nat) (cumsum : List ℚ) (u : ℚ) (k : Nat) : Nat :=
  ((List.range topicNum).find? (fun kidx => decide (u < cumsum.getD kidx 0))).getD k

/-- Body of the sampling loop for the `i`-th word `w` of document `doc`. -/
def resampleToken (this : lda) (env : Env) (doc : Nat) (st : RunState) (iw : Nat × Nat) :
    Option RunState := do
  let dw : DocWord := ⟨doc, toUint32 iw.1⟩
  let k := mapGet st.tab.DocWordTopic dw
  let wt ← st.tab.WordTopic.Decr iw.2 k 1
  let dt ← st.tab.DocTopic.Decr doc k 1
  let wts ← st.tab.WordTopicSum.Decr k 0 1
  let cumsum ← fillCumsum this ⟨wt, dt, wts, st.tab.DocWordTopic⟩ doc iw.2
  let last ← cumsum.get? (toUint32 (this.topicNum + (uint32Size - 1)))
  let u : ℚ := env.rawFloat32 env.now st.calls * last
  let k1 := selectTopic this.topicNum cumsum u k
  let wt1 ← wt.Incr iw.2 k1 1
  let dt1 ← dt.Incr doc k1 1
  let wts1 ← wts.Incr k1 0 1
  pure ⟨⟨wt1, dt1, wts1, mapSet st.tab.DocWordTopic dw k1⟩, st.calls + 1⟩

/-- One sweep: the sampling loop over all documents and their words; the `range` loop over
`Docs` of iteration `iterIdx` is loop number `2 * iterIdx + 2` of the run. -/
def sweep (this : lda) (env : Env) (iterIdx : Nat) (st : RunState) : Option RunState :=
  (env.order (2 * iterIdx + 2)).foldlM
    (fun st d => (ExpandWords d.2).enum.foldlM (resampleToken this env d.1) st) st

/-- The report `log.Printf(..., this.Likelihood())` made when `iterIdx % 10 == 0`. -/
def logLikelihood (this : lda) (env : Env) (iterIdx : Nat) (st : RunState) : Option RunState :=
  if iterIdx % 10 = 0 then
    (Likelihood this env (2 * iterIdx + 1) st.tab).map (fun r => ⟨r.2, st.calls⟩)
  else some st

/-- Body of the loop over `iterIdx`. -/
def iteration (this : lda) (env : Env) (st : RunState) (iterIdx : Nat) : Option RunState :=
  (logLikelihood this env iterIdx st).bind (sweep this env iterIdx)

/-- The method `Run`; `rand.Seed` restarts the generator, so the draw counter starts at 0. -/
def Run (this : lda) (env : Env) (iter : Int) (s : sstable) : Option sstable :=
  ((initPass this env ⟨s, 0⟩).bind
    (fun st => (List.range iter.toNat).foldlM (iteration this env) st)).map RunState.tab

/-! ## Derived notions used to state the properties -/

/-- A table with one cell raised by one (what a successful `Incr(r, c, 1)` leaves). -/
def bump (m : DenseMatrix Nat) (r c : Nat) : DenseMatrix Nat :=
  ⟨m.rowNum, m.colNum, fun i j => if i = r ∧ j = c then m.cell r c + 1 else m.cell i j⟩

/-- A table with one cell lowered by one (what a successful `Decr(r, c, 1)` leaves). -/
def drop (m : DenseMatrix Nat) (r c : Nat) : DenseMatrix Nat :=
  ⟨m.rowNum, m.colNum, fun i j => if i = r ∧ j = c then m.cell r c - 1 else m.cell i j⟩

/-- Sum of column `c` over the rows of the table. -/
def colSum (m : DenseMatrix Nat) (c : Nat) : Nat := ∑ r ∈ Finset.range m.rowNum, m.cell r c

/-- Sum of row `r` over the columns of the table. -/
def rowSum (m : DenseMatrix Nat) (r : Nat) : Nat := ∑ c ∈ Finset.range m.colNum, m.cell r c

/-- The tables have the sizes `NewLDA` gives them for the model `this`. -/
def Sized (this : lda) (s : sstable) : Prop :=
  s.WordTopic.rowNum = this.data.VocabSize ∧ s.WordTopic.colNum = this.topicNum ∧
  s.DocTopic.rowNum = this.data.DocNum ∧ s.DocTopic.colNum = this.topicNum ∧
  s.WordTopicSum.rowNum = this.topicNum ∧ s.WordTopicSum.colNum = 1

/-- A token instance as the loops of `Run` meet it: document id, then position and word id. -/
abbrev Token := Nat × (Nat × Nat)

/-- The key under which `Run` files a token in the assignment table. -/
def Token.key (t : Token) : DocWord := ⟨t.1, toUint32 t.2.1⟩

/-- The token instances of one entry of `Docs`, in position order. -/
def docTokens (d : Nat × List WordCount) : List Token :=
  (ExpandWords d.2).enum.map (fun iw => (d.1, iw))

/-- The token instances met by a `range` loop that visits the documents in the given order. -/
def tokensOf (order : DocMap) : List Token := order.flatMap docTokens

/-- The atomic steps `Run` performs after the initialisation pass. -/
inductive Action where
  | report (iterIdx : Nat)
  | resample (t : Token)

/-- Effect of one atomic step. -/
def exec (this : lda) (env : Env) (st : RunState) : Action → Option RunState
  | .report iterIdx => logLikelihood this env iterIdx st
  | .resample t => resampleToken this env t.1 st t.2

/-- The steps of iteration `iterIdx`, in program order. -/
def sweepActions (env : Env) (iterIdx : Nat) : List Action :=
  Action.report iterIdx :: (tokensOf (env.order (2 * iterIdx + 2))).map Action.resample

/-- The steps of all iterations of `Run(iter)`, in program order. -/
def runActions (env : Env) (iter : Int) : List Action :=
  (List.range iter.toNat).flatMap (sweepActions env)

/-- The tables after the initialisation pass and the first `n` atomic steps of `Run(iter)`. -/
def RunUpTo (this : lda) (env : Env) (iter : Int) (n : Nat) (s : sstable) : Option sstable :=
  ((initPass this env ⟨s, 0⟩).bind
    (fun st => ((runActions env iter).take n).foldlM (exec this env) st)).map RunState.tab

/-- The table `Phi` fills in, written as a closed formula. -/
def phiTable (this : lda) (s : sstable) (cols : Nat) : DenseMatrix ℚ :=
  ⟨this.data.VocabSize, this.topicNum, fun v k =>
    if v < this.data.VocabSize ∧ k < cols then
      ((s.WordTopic.cell v k : ℚ) + this.beta) /
        ((colSum s.WordTopic k : ℚ) + (this.data.VocabSize : ℚ) * this.beta)
    else 0⟩

/-- The table `Theta` fills in, written as a closed formula. -/
def thetaTable (this : lda) (s : sstable) (rows : Nat) : DenseMatrix ℚ :=
  ⟨this.data.DocNum, this.topicNum, fun d k =>
    if d < rows ∧ k < this.topicNum then
      ((s.DocTopic.cell d k : ℚ) + this.alpha) /
        ((rowSum s.DocTopic d : ℚ) + (this.topicNum : ℚ) * this.alpha)
    else 0⟩

/-- The table `Phi` holds after `k` full columns and the first `i` cells of column `k`. -/
def phiPartial (this : lda) (s : sstable) (k i : Nat) : DenseMatrix ℚ :=
  ⟨this.data.VocabSize, this.topicNum, fun v j =>
    if v < this.data.VocabSize ∧ (j < k ∨ (j = k ∧ v < i)) then
      ((s.WordTopic.cell v j : ℚ) + this.beta) /
        ((colSum s.WordTopic j : ℚ) + (this.data.VocabSize : ℚ) * this.beta)
    else 0⟩

/-- The table `Theta` holds after `d` full rows and the first `i` cells of row `d`. -/
def thetaPartial (this : lda) (s : sstable) (d i : Nat) : DenseMatrix ℚ :=
  ⟨this.data.DocNum, this.topicNum, fun r k =>
    if k < this.topicNum ∧ (r < d ∨ (r = d ∧ k < i)) then
      ((s.DocTopic.cell r k : ℚ) + this.alpha) /
        ((rowSum s.DocTopic r : ℚ) + (this.topicNum : ℚ) * this.alpha)
    else 0⟩

/-- The three per-topic totals agree (for every column index; beyond the tables all are 0). -/
def TotalsOK (s : sstable) : Prop :=
  ∀ k, colSum s.WordTopic k = s.WordTopicSum.cell k 0 ∧
    s.WordTopicSum.cell k 0 = colSum s.DocTopic k

/-- Every topic stored in the assignment table is below `K`. -/
def ValuesBelow (K : Nat) (m : TopicMap) : Prop := ∀ e ∈ m, e.2 < K

/-- The word at a key of the assignment table: the token of document `DocId` at position
`WordIdx`, if the corpus has one. -/
def wordAt (docs : DocMap) (dw : DocWord) : Option Nat :=
  (ExpandWords (docsGet docs dw.DocId))[dw.WordIdx]?

/-- Number of entries of the assignment table whose token is word `w` and whose topic is `k`. -/
def entriesWordTopic (docs : DocMap) (m : TopicMap) (w k : Nat) : Nat :=
  m.countP (fun e => decide (wordAt docs e.1 = some w ∧ e.2 = k))

/-- Number of entries of the assignment table that belong to document `d` and have topic `k`. -/
def entriesDocTopic (m : TopicMap) (d k : Nat) : Nat :=
  m.countP (fun e => decide (e.1.DocId = d ∧ e.2 = k))

/-- Number of entries of the assignment table with topic `k`. -/
def entriesTopic (m : TopicMap) (k : Nat) : Nat :=
  m.countP (fun e => decide (e.2 = k))

/-- The three count tables are what one gets by counting the assignment table. -/
def Derivable (docs : DocMap) (s : sstable) : Prop :=
  (∀ w k, s.WordTopic.cell w k = entriesWordTopic docs s.DocWordTopic w k) ∧
  (∀ d k, s.DocTopic.cell d k = entriesDocTopic s.DocWordTopic d k) ∧
  (∀ k, s.WordTopicSum.cell k 0 = entriesTopic s.DocWordTopic k)

/-- The keys of the assignment table are exactly the keys of the token instances of the
corpus. -/
def KeysAre (docs : DocMap) (m : TopicMap) : Prop :=
  ∀ dw, mapLookup m dw ≠ none ↔ dw ∈ (tokensOf docs).map Token.key

/-- Document ids are below `DocNum` and word ids below `VocabSize`. -/
def InRange (c : Corpus) : Prop :=
  ∀ d ∈ c.entries, d.1 < c.DocNum ∧ ∀ wc ∈ d.2, wc.WordId < c.VocabSize

/-- No document has more token instances than a `uint32` position can tell apart. -/
def ShortDocs (docs : DocMap) : Prop :=
  ∀ d ∈ docs, (ExpandWords d.2).length ≤ uint32Size

/-- A small corpus used to instantiate the theorems: two documents over three words. -/
def sampleCorpus : Corpus :=
  ⟨3, 2, some [(0, [⟨0, 2⟩, ⟨2, 1⟩]), (1, [⟨1, 1⟩])]⟩

/-- An environment for `sampleCorpus`: the `c`-th draw is `c`, resp. `1/2`, and every `range`
loop visits document 0 before document 1. -/
def sampleEnv : Env :=
  ⟨0, fun _ c => c, fun _ _ => 1 / 2, fun x => x, fun _ => [(0, [⟨0, 2⟩, ⟨2, 1⟩]), (1, [⟨1, 1⟩])]⟩

/-- A corpus whose only document has `2^32 + 1` token instances of word 0. -/
def longCorpus : Corpus :=
  ⟨1, 1, some [(0, [⟨0, 4294967295⟩, ⟨0, 2⟩])]⟩

/-- An environment for `longCorpus`: every draw is 0. -/
def longEnv : Env :=
  ⟨0, fun _ _ => 0, fun _ _ => 0, fun x => x, fun _ => [(0, [⟨0, 4294967295⟩, ⟨0, 2⟩])]⟩

/-- The keys of the assignment table are pairwise distinct, belong to the documents `ids` and
carry a position that fits a `uint32`. -/
def KeysTidy (ids : List Nat) (m : TopicMap) : Prop :=
  (m.map Prod.fst).Nodup ∧ ∀ e ∈ m, e.1.DocId ∈ ids ∧ e.1.WordIdx < uint32Size

/-- A corpus of one document holding one token of word 0. -/
def tinyCorpus : Corpus := ⟨1, 1, some [(0, [⟨0, 1⟩])]⟩

/-- An environment for a first call of `Run` on `tinyCorpus`: every draw yields topic 0. -/
def tinyEnv : Env := ⟨0, fun _ _ => 0, fun _ _ => 0, fun x => x, fun _ => [(0, [⟨0, 1⟩])]⟩

/-- An environment for a later call of `Run` on `tinyCorpus`: the clock has advanced and every
draw yields topic 1. -/
def laterEnv : Env := ⟨1, fun _ _ => 1, fun _ _ => 0, fun x => x, fun _ => [(0, [⟨0, 1⟩])]⟩

/-- The corpus of the degenerate case: one document, id 0, holding word 0 `N` times. -/
def oneWordCorpus (N : Nat) : Corpus := ⟨1, 1, some [(0, [⟨0, N⟩])]⟩

/-- The write `Docs[docId] = wcs` on a map that is not nil: replaces the entry of `docId` or
adds one. -/
def docsSet : DocMap → Nat → List WordCount → DocMap
  | [], docId, wcs => [(docId, wcs)]
  | (d0, old) :: rest, docId, wcs =>
    if d0 = docId then (docId, wcs) :: rest else (d0, old) :: docsSet rest docId wcs

/-- The method `Corpus.AddDoc`; the warning it logs for an existing id has no effect. -/
def AddDoc (this : Corpus) (docId : Nat) (wcs : List WordCount) : Corpus :=
  let docs : DocMap := match this.Docs with
    | none => []
    | some m => m
  { this with Docs := some (docsSet docs docId wcs) }

/-- The call `strings.Split(s, sep)` for a separator of one character, on the characters of
`s`: a string with `n` separators has `n + 1` pieces. -/
def Split (sep : Char) : List Char → List (List Char)
  | [] => [[]]
  | c :: cs =>
    if c = sep then [] :: Split sep cs
    else match Split sep cs with
      | [] => [[c]]
      | piece :: pieces => (c :: piece) :: pieces

/-- The value of a decimal digit. -/
def digitValue (c : Char) : Option Nat :=
  if 48 ≤ c.toNat ∧ c.toNat ≤ 57 then some (c.toNat - 48) else none

/-- The call `strconv.ParseUint(s, 10, 32)`: `none` is the error result (empty string, a
character that is no digit, or a value that does not fit 32 bits). -/
def ParseUint (s : List Char) : Option Nat :=
  if s = [] then none
  else (s.foldlM (fun (acc : Nat) c => (digitValue c).map (fun d => acc * 10 + d)) 0).bind
    (fun n => if n < uint32Size then some n else none)

/-- What the loop of `Load` carries along: the corpus being filled and `vocabMaxId`. -/
structure LoadState where
  corpus : Corpus
  vocabMaxId : Nat

/-- Body of the loop of `Load` over the fields `kv` of one line. -/
def loadToken (docId : Nat) (st : LoadState) (kv : List Char) : Option LoadState :=
  let wc := Split ':' kv
  if wc.length ≠ 2 then some st
  else do
    let wordId ← ParseUint (wc.getD 0 [])
    let count ← ParseUint (wc.getD 1 [])
    let docs ← st.corpus.Docs
    let entry := docsGet docs (toUint32 docId) ++ [⟨toUint32 wordId, toUint32 count⟩]
    pure ⟨{ st.corpus with Docs := some (docsSet docs (toUint32 docId) entry) },
      if toUint32 wordId > st.vocabMaxId then toUint32 wordId else st.vocabMaxId⟩

/-- Body of the loop of `Load` over the lines the scanner delivers. -/
def loadLine (st : LoadState) (doc : String) : Option LoadState :=
  let vals := Split ' ' doc.data
  if vals.length < 2 then some st
  else do
    let docId ← ParseUint (vals.headD [])
    let st1 : LoadState :=
      ⟨{ st.corpus with DocNum := toUint32 (st.corpus.DocNum + 1) }, st.vocabMaxId⟩
    vals.tail.foldlM (loadToken docId) st1

/-- The method `Corpus.Load`, on the lines `scanner.Text()` delivers for the opened file;
`none` is a panic. -/
def Load (this : Corpus) (lines : List String) : Option Corpus :=
  let docs : DocMap := match this.Docs with
    | none => []
    | some m => m
  (lines.foldlM loadLine ⟨{ this with Docs := some docs }, 0⟩).map
    (fun st => { st.corpus with VocabSize := toUint32 (st.vocabMaxId + 1) })

/-- The zero value `Corpus{}`. -/
def emptyCorpus : Corpus := ⟨0, 0, none⟩

/-- The number `docPart * wordPart` the loop over `kidx` adds for topic `j`, read off the
tables `s`. -/
def weightValue (this : lda) (s : sstable) (doc w j : Nat) : ℚ :=
  (this.alpha + (s.DocTopic.cell doc j : ℚ)) *
    ((this.beta + (s.WordTopic.cell w j : ℚ)) /
      ((s.WordTopicSum.cell j 0 : ℚ) + this.beta * (this.data.VocabSize : ℚ)))

/-- The sum of the weights of the topics `0, …, kidx`. -/
def prefixWeight (this : lda) (s : sstable) (doc w kidx : Nat) : ℚ :=
  ∑ j ∈ Finset.range (kidx + 1), weightValue this s doc w j

/-- An environment for `tinyCorpus` whose generator yields the seed itself at every draw and
whose clock reads `now`. -/
def clockEnv (now : Nat) : Env :=
  ⟨now, fun seed _ => seed, fun _ _ => 0, fun x => x, fun _ => [(0, [⟨0, 1⟩])]⟩

/-- A corpus of two documents with one token of word 0 each. -/
def twoDocCorpus : Corpus := ⟨1, 2, some [(0, [⟨0, 1⟩]), (1, [⟨0, 1⟩])]⟩

/-- An environment for `twoDocCorpus`: the `c`-th draw is `c`, and every `range` loop visits
document 0 first. -/
def forwardEnv : Env :=
  ⟨0, fun _ c => c, fun _ _ => 0, fun x => x, fun _ => [(0, [⟨0, 1⟩]), (1, [⟨0, 1⟩])]⟩

/-- The same environment as `forwardEnv`, except that every `range` loop visits document 1
first. -/
def backwardEnv : Env :=
  ⟨0, fun _ c => c, fun _ _ => 0, fun x => x, fun _ => [(1, [⟨0, 1⟩]), (0, [⟨0, 1⟩])]⟩

/-- The sample environment with a generator that behaves differently for seeds other than the
one in use. -/
def sampleEnvOtherSeeds : Env :=
  ⟨0, fun seed c => if seed = 0 then c else 7, fun seed _ => if seed = 0 then 1 / 2 else 0,
    fun x => x, fun _ => [(0, [⟨0, 2⟩, ⟨2, 1⟩]), (1, [⟨1, 1⟩])]⟩

/-- A document of `N + 1` tokens of word 0 followed by one token of word 1. -/
def wrapDoc (N : Nat) : List WordCount := [⟨0, N⟩, ⟨0, 1⟩, ⟨1, 1⟩]

/-- The corpus whose only document, id 0, is `wrapDoc N`, over two words. -/
def wrapCorpusOf (N : Nat) : Corpus := ⟨2, 1, some [(0, wrapDoc N)]⟩

/-- An environment for `wrapCorpusOf N`: the draws for the tokens of word 0 yield topic 0, every
later draw yields topic 1. -/
def wrapEnvOf (N : Nat) : Env :=
  ⟨0, fun _ c => if c ≤ N then 0 else 1, fun _ _ => 0, fun x => x, fun _ => [(0, wrapDoc N)]⟩

/-- The corpus `wrapCorpusOf N` whose last token has position `2^32`. -/
def wrapCorpus : Corpus := wrapCorpusOf 4294967295

/-- The environment that goes with `wrapCorpus`. -/
def wrapEnv : Env := wrapEnvOf 4294967295

/-- A corpus over four words: document 0 holds word 0 once, document 1 holds word 1 three
times. -/
def orderCorpus : Corpus := ⟨4, 2, some [(0, [⟨0, 1⟩]), (1, [⟨1, 3⟩])]⟩

/-- The `float64` value of `math.Log(0.5)`. -/
def logHalf : ℚ := -6243314768165359 / 9007199254740992

/-- An environment for `orderCorpus`: `math.Log` yields its `float64` values at 0.25 and 0.5,
which are `2 * logHalf` and `logHalf`; the `range` loop numbered 2 visits document 1 first,
every other loop document 0 first. -/
def orderEnv : Env :=
  ⟨0, fun _ _ => 0, fun _ _ => 0,
   fun x => if x = 1 / 4 then 2 * logHalf else if x = 1 / 2 then logHalf else 0,
   fun p => if p = 2 then [(1, [⟨1, 3⟩]), (0, [⟨0, 1⟩])] else [(0, [⟨0, 1⟩]), (1, [⟨1, 3⟩])]⟩

/-! ## The matrix primitives -/

theorem Incr_eq_some {m m1 : DenseMatrix Nat} {r c : Nat} :
    m.Incr r c 1 = some m1 ↔ (r < m.rowNum ∧ c < m.colNum) ∧ m1 = bump m r c := by
  unfold DenseMatrix.Incr DenseMatrix.Set DenseMatrix.inBounds bump
  by_cases h : r < m.rowNum ∧ c < m.colNum
  · simp only [h, and_self, if_true, Option.some.injEq, true_and]
    exact eq_comm
  · simp [h]

theorem Decr_eq_some {m m1 : DenseMatrix Nat} {r c : Nat} :
    m.Decr r c 1 = some m1 ↔ (r < m.rowNum ∧ c < m.colNum) ∧ 1 ≤ m.cell r c ∧ m1 = drop m r c := by
  unfold DenseMatrix.Decr DenseMatrix.Set DenseMatrix.inBounds drop
  by_cases h : r < m.rowNum ∧ c < m.colNum
  · by_cases h1 : 1 ≤ m.cell r c
    · simp only [h, h1, and_self, if_true, Option.some.injEq, true_and]
      exact eq_comm
    · simp [h, h1]
  · simp [h]

theorem Get_eq_some {α : Type} {m : DenseMatrix α} {r c : Nat} {x : α} :
    m.Get r c = some x ↔ (r < m.rowNum ∧ c < m.colNum) ∧ x = m.cell r c := by
  unfold DenseMatrix.Get DenseMatrix.inBounds
  by_cases h : r < m.rowNum ∧ c < m.colNum
  · simp only [h, and_self, if_true, Option.some.injEq, true_and]
    exact eq_comm
  · simp [h]

theorem sum_range_bump (f : Nat → Nat) (n r : Nat) (x : Nat) (hr : r < n) :
    ∑ i ∈ Finset.range n, (if i = r then x else f i) + f r = ∑ i ∈ Finset.range n, f i + x := by
  have hmem : r ∈ Finset.range n := Finset.mem_range.mpr hr
  rw [← Finset.add_sum_erase _ _ hmem, ← Finset.add_sum_erase _ f hmem]
  have : ∑ i ∈ (Finset.range n).erase r, (if i = r then x else f i)
      = ∑ i ∈ (Finset.range n).erase r, f i := by
    apply Finset.sum_congr rfl
    intro i hi
    have : i ≠ r := (Finset.mem_erase.mp hi).1
    simp [this]
  rw [this]
  simp only [if_true]
  omega

theorem colSum_bump (m : DenseMatrix Nat) (r c k : Nat) (hr : r < m.rowNum) :
    colSum (bump m r c) k = colSum m k + (if c = k then 1 else 0) := by
  unfold colSum bump
  by_cases hc : c = k
  · subst hc
    have := sum_range_bump (fun i => m.cell i c) m.rowNum r (m.cell r c + 1) hr
    simp only [and_true, if_true] at this ⊢
    omega
  · have : ∀ i, (if i = r ∧ k = c then m.cell r c + 1 else m.cell i k) = m.cell i k := by
      intro i
      have : ¬ (i = r ∧ k = c) := fun h => hc h.2.symm
      simp [this]
    simp [this, hc]

theorem colSum_drop (m : DenseMatrix Nat) (r c k : Nat) (hr : r < m.rowNum)
    (h1 : 1 ≤ m.cell r c) :
    colSum (drop m r c) k + (if c = k then 1 else 0) = colSum m k := by
  unfold colSum drop
  by_cases hc : c = k
  · subst hc
    have := sum_range_bump (fun i => m.cell i c) m.rowNum r (m.cell r c - 1) hr
    simp only [and_true, if_true] at this ⊢
    omega
  · have : ∀ i, (if i = r ∧ k = c then m.cell r c - 1 else m.cell i k) = m.cell i k := by
      intro i
      have : ¬ (i = r ∧ k = c) := fun h => hc h.2.symm
      simp [this]
    simp [this, hc]

theorem rowSum_bump (m : DenseMatrix Nat) (r c d : Nat) (hc : c < m.colNum) :
    rowSum (bump m r c) d = rowSum m d + (if r = d then 1 else 0) := by
  unfold rowSum bump
  by_cases hr : r = d
  · subst hr
    have := sum_range_bump (fun j => m.cell r j) m.colNum c (m.cell r c + 1) hc
    simp only [true_and, if_true] at this ⊢
    omega
  · have : ∀ j, (if d = r ∧ j = c then m.cell r c + 1 else m.cell d j) = m.cell d j := by
      intro j
      have : ¬ (d = r ∧ j = c) := fun h => hr h.1.symm
      simp [this]
    simp [this, hr]

theorem rowSum_drop (m : DenseMatrix Nat) (r c d : Nat) (hc : c < m.colNum)
    (h1 : 1 ≤ m.cell r c) :
    rowSum (drop m r c) d + (if r = d then 1 else 0) = rowSum m d := by
  unfold rowSum drop
  by_cases hr : r = d
  · subst hr
    have := sum_range_bump (fun j => m.cell r j) m.colNum c (m.cell r c - 1) hc
    simp only [true_and, if_true] at this ⊢
    omega
  · have : ∀ j, (if d = r ∧ j = c then m.cell r c - 1 else m.cell d j) = m.cell d j := by
      intro j
      have : ¬ (d = r ∧ j = c) := fun h => hr h.1.symm
      simp [this]
    simp [this, hr]

/-! ## The two loop bodies of `Run` -/

theorem initToken_eq_some {this : lda} {env : Env} {doc : Nat} {st st1 : RunState}
    {iw : Nat × Nat} :
    initToken this env doc st iw = some st1 ↔
      ∃ k, Int31n (env.rawInt31 env.now st.calls) (toInt32 this.topicNum) = some k ∧
        (iw.2 < st.tab.WordTopic.rowNum ∧ k < st.tab.WordTopic.colNum) ∧
        (doc < st.tab.DocTopic.rowNum ∧ k < st.tab.DocTopic.colNum) ∧
        (k < st.tab.WordTopicSum.rowNum ∧ 0 < st.tab.WordTopicSum.colNum) ∧
        st1 = ⟨⟨bump st.tab.WordTopic iw.2 k, bump st.tab.DocTopic doc k,
                bump st.tab.WordTopicSum k 0,
                mapSet st.tab.DocWordTopic ⟨doc, toUint32 iw.1⟩ k⟩, st.calls + 1⟩ := by
  simp only [initToken, bind, Option.bind_eq_some, pure, Option.some.injEq, Incr_eq_some]
  constructor
  · rintro ⟨k, hk, wt, ⟨hwt, rfl⟩, dt, ⟨hdt, rfl⟩, wts, ⟨hwts, rfl⟩, rfl⟩
    exact ⟨k, hk, hwt, hdt, hwts, rfl⟩
  · rintro ⟨k, hk, hwt, hdt, hwts, rfl⟩
    exact ⟨k, hk, _, ⟨hwt, rfl⟩, _, ⟨hdt, rfl⟩, _, ⟨hwts, rfl⟩, rfl⟩

theorem resampleToken_eq_some {this : lda} {env : Env} {doc : Nat} {st st1 : RunState}
    {iw : Nat × Nat} :
    resampleToken this env doc st iw = some st1 ↔
      ∃ k, k = mapGet st.tab.DocWordTopic ⟨doc, toUint32 iw.1⟩ ∧
        ((iw.2 < st.tab.WordTopic.rowNum ∧ k < st.tab.WordTopic.colNum) ∧
          1 ≤ st.tab.WordTopic.cell iw.2 k) ∧
        ((doc < st.tab.DocTopic.rowNum ∧ k < st.tab.DocTopic.colNum) ∧
          1 ≤ st.tab.DocTopic.cell doc k) ∧
        ((k < st.tab.WordTopicSum.rowNum ∧ 0 < st.tab.WordTopicSum.colNum) ∧
          1 ≤ st.tab.WordTopicSum.cell k 0) ∧
        ∃ cumsum last k1,
          fillCumsum this ⟨drop st.tab.WordTopic iw.2 k, drop st.tab.DocTopic doc k,
            drop st.tab.WordTopicSum k 0, st.tab.DocWordTopic⟩ doc iw.2 = some cumsum ∧
          cumsum.get? (toUint32 (this.topicNum + (uint32Size - 1))) = some last ∧
          k1 = selectTopic this.topicNum cumsum (env.rawFloat32 env.now st.calls * last) k ∧
          (iw.2 < st.tab.WordTopic.rowNum ∧ k1 < st.tab.WordTopic.colNum) ∧
          (doc < st.tab.DocTopic.rowNum ∧ k1 < st.tab.DocTopic.colNum) ∧
          (k1 < st.tab.WordTopicSum.rowNum ∧ 0 < st.tab.WordTopicSum.colNum) ∧
          st1 = ⟨⟨bump (drop st.tab.WordTopic iw.2 k) iw.2 k1,
                  bump (drop st.tab.DocTopic doc k) doc k1,
                  bump (drop st.tab.WordTopicSum k 0) k1 0,
                  mapSet st.tab.DocWordTopic ⟨doc, toUint32 iw.1⟩ k1⟩, st.calls + 1⟩ := by
  simp only [resampleToken, bind, Option.bind_eq_some, pure, Option.some.injEq, Incr_eq_some,
    Decr_eq_some]
  constructor
  · rintro ⟨wt, ⟨hwt, hwt1, rfl⟩, dt, ⟨hdt, hdt1, rfl⟩, wts, ⟨hwts, hwts1, rfl⟩, cumsum, hc,
      last, hl, wt1, ⟨hb1, rfl⟩, dt1, ⟨hb2, rfl⟩, wts1, ⟨hb3, rfl⟩, rfl⟩
    exact ⟨_, rfl, ⟨hwt, hwt1⟩, ⟨hdt, hdt1⟩, ⟨hwts, hwts1⟩, cumsum, last, _, hc, hl, rfl,
      hb1, hb2, hb3, rfl⟩
  · rintro ⟨k, rfl, ⟨hwt, hwt1⟩, ⟨hdt, hdt1⟩, ⟨hwts, hwts1⟩, cumsum, last, k1, hc, hl, rfl,
      hb1, hb2, hb3, rfl⟩
    exact ⟨_, ⟨hwt, hwt1, rfl⟩, _, ⟨hdt, hdt1, rfl⟩, _, ⟨hwts, hwts1, rfl⟩, cumsum, hc,
      last, hl, _, ⟨hb1, rfl⟩, _, ⟨hb2, rfl⟩, _, ⟨hb3, rfl⟩, rfl⟩

/-! ## Loops as folds over their atomic steps -/

theorem foldlM_preserves {σ α : Type} (f : σ → α → Option σ) (P : σ → Prop) (l : List α)
    (hstep : ∀ s a s1, a ∈ l → P s → f s a = some s1 → P s1) :
    ∀ s s1, P s → l.foldlM f s = some s1 → P s1 := by
  induction l with
  | nil =>
    intro s s1 hs h
    simp only [List.foldlM_nil, pure, Option.some.injEq] at h
    exact h ▸ hs
  | cons a l ih =>
    intro s s1 hs h
    simp only [List.foldlM_cons, bind, Option.bind_eq_some] at h
    obtain ⟨s2, h2, h3⟩ := h
    exact ih (fun s a s1 ha => hstep s a s1 (List.mem_cons_of_mem _ ha)) s2 s1
      (hstep s a s2 (List.mem_cons_self _ _) hs h2) h3

theorem foldlM_progress {σ α : Type} (f : σ → α → Option σ) (P : σ → Prop) (l : List α)
    (hstep : ∀ s a, a ∈ l → P s → ∃ s1, f s a = some s1 ∧ P s1) :
    ∀ s, P s → ∃ s1, l.foldlM f s = some s1 ∧ P s1 := by
  induction l with
  | nil =>
    intro s hs
    exact ⟨s, rfl, hs⟩
  | cons a l ih =>
    intro s hs
    obtain ⟨s2, h2, hP2⟩ := hstep s a (List.mem_cons_self _ _) hs
    obtain ⟨s3, h3, hP3⟩ := ih (fun s a ha => hstep s a (List.mem_cons_of_mem _ ha)) s2 hP2
    refine ⟨s3, ?_, hP3⟩
    simp only [List.foldlM_cons, bind, Option.bind_eq_some]
    exact ⟨s2, h2, h3⟩

theorem foldlM_flatMap {σ α β : Type} (f : σ → β → Option σ) (g : α → List β) (l : List α) :
    ∀ s, l.foldlM (fun st a => (g a).foldlM f st) s = (l.flatMap g).foldlM f s := by
  induction l with
  | nil => intro s; rfl
  | cons a l ih =>
    intro s
    simp only [List.foldlM_cons, List.flatMap_cons, List.foldlM_append]
    congr 1
    funext s2
    exact ih s2

theorem foldlM_tokensOf (f : Nat → RunState → Nat × Nat → Option RunState) (order : DocMap)
    (st : RunState) :
    order.foldlM (fun st d => (ExpandWords d.2).enum.foldlM (f d.1) st) st
      = (tokensOf order).foldlM (fun st t => f t.1 st t.2) st := by
  unfold tokensOf
  rw [← foldlM_flatMap]
  congr 1
  funext st d
  unfold docTokens
  rw [List.foldlM_map]

theorem initPass_eq (this : lda) (env : Env) (st : RunState) :
    initPass this env st
      = (tokensOf (env.order 0)).foldlM (fun st t => initToken this env t.1 st t.2) st :=
  foldlM_tokensOf (initToken this env) (env.order 0) st

theorem sweep_eq (this : lda) (env : Env) (iterIdx : Nat) (st : RunState) :
    sweep this env iterIdx st
      = ((tokensOf (env.order (2 * iterIdx + 2))).map Action.resample).foldlM
          (exec this env) st := by
  unfold sweep
  rw [foldlM_tokensOf (resampleToken this env), List.foldlM_map]
  rfl

theorem iteration_eq (this : lda) (env : Env) (st : RunState) (iterIdx : Nat) :
    iteration this env st iterIdx = (sweepActions env iterIdx).foldlM (exec this env) st := by
  unfold iteration sweepActions
  simp only [List.foldlM_cons, exec, bind]
  congr 1
  funext st1
  exact sweep_eq this env iterIdx st1

/-- The method `Run` performs exactly the atomic steps of `runActions`, in that order. -/
theorem Run_eq_RunUpTo (this : lda) (env : Env) (iter : Int) (s : sstable) :
    Run this env iter s = RunUpTo this env iter (runActions env iter).length s := by
  unfold Run RunUpTo runActions
  rw [List.take_length]
  congr 2
  funext st
  rw [← foldlM_flatMap]
  congr 1
  funext st1 it
  exact iteration_eq this env st1 it

/-! ## The estimators -/

theorem foldlM_range_eq {σ : Type} (f : σ → Nat → Option σ) (g : Nat → σ) (n : Nat)
    (hstep : ∀ i, i < n → f (g i) i = some (g (i + 1))) :
    (List.range n).foldlM f (g 0) = some (g n) := by
  induction n with
  | zero => rfl
  | succ n ih =>
    rw [List.range_succ, List.foldlM_append, ih (fun i hi => hstep i (Nat.lt_succ_of_lt hi))]
    simp only [bind, Option.some_bind, List.foldlM_cons, List.foldlM_nil]
    rw [hstep n (Nat.lt_succ_self n)]
    rfl

theorem list_sum_range (f : Nat → Nat) (n : Nat) :
    ((List.range n).map f).sum = ∑ i ∈ Finset.range n, f i := by
  induction n with
  | zero => rfl
  | succ n ih => simp [List.range_succ, Finset.sum_range_succ, ih]

theorem VectorSum_GetCol {m : DenseMatrix Nat} {k : Nat} {col : List Nat}
    (h : m.GetCol k = some col) : VectorSum col = colSum m k := by
  unfold DenseMatrix.GetCol at h
  split at h
  · simp only [Option.some.injEq] at h
    subst h
    exact list_sum_range _ _
  · exact absurd h (by simp)

theorem VectorSum_GetRow {m : DenseMatrix Nat} {d : Nat} {row : List Nat}
    (h : m.GetRow d = some row) : VectorSum row = rowSum m d := by
  unfold DenseMatrix.GetRow at h
  split at h
  · simp only [Option.some.injEq] at h
    subst h
    exact list_sum_range _ _
  · exact absurd h (by simp)

/-- A query hands on the tables it was given: the loop body of `Phi`. -/
theorem phiCol_frame (this : lda) (acc r : DenseMatrix ℚ × sstable) (k : Nat)
    (h : phiCol this acc k = some r) : r.2 = acc.2 := by
  simp only [phiCol, bind, Option.bind_eq_some] at h
  obtain ⟨col, -, h⟩ := h
  refine foldlM_preserves _ (fun a => a.2 = acc.2) _ ?_ acc r rfl h
  intro a v a1 _ ha h1
  simp only [bind, Option.bind_eq_some, pure, Option.some.injEq] at h1
  obtain ⟨x, -, phi, -, rfl⟩ := h1
  exact ha

theorem Phi_frame (this : lda) (s : sstable) (r : DenseMatrix ℚ × sstable)
    (h : Phi this s = some r) : r.2 = s := by
  refine foldlM_preserves _ (fun a => a.2 = s) _ ?_ _ r rfl h
  intro a k a1 _ ha h1
  rw [phiCol_frame this a a1 k h1]
  exact ha

theorem thetaRow_frame (this : lda) (acc r : DenseMatrix ℚ × sstable) (d : Nat)
    (h : thetaRow this acc d = some r) : r.2 = acc.2 := by
  simp only [thetaRow, bind, Option.bind_eq_some] at h
  obtain ⟨row, -, h⟩ := h
  refine foldlM_preserves _ (fun a => a.2 = acc.2) _ ?_ acc r rfl h
  intro a v a1 _ ha h1
  simp only [bind, Option.bind_eq_some, pure, Option.some.injEq] at h1
  obtain ⟨x, -, theta, -, rfl⟩ := h1
  exact ha

theorem Theta_frame (this : lda) (s : sstable) (r : DenseMatrix ℚ × sstable)
    (h : Theta this s = some r) : r.2 = s := by
  refine foldlM_preserves _ (fun a => a.2 = s) _ ?_ _ r rfl h
  intro a k a1 _ ha h1
  rw [thetaRow_frame this a a1 k h1]
  exact ha

theorem Likelihood_frame (this : lda) (env : Env) (p : Nat) (s : sstable) (r : ℚ × sstable)
    (h : Likelihood this env p s = some r) : r.2 = s := by
  simp only [Likelihood, bind, Option.bind_eq_some, pure, Option.some.injEq] at h
  obtain ⟨r1, h1, r2, h2, sum, -, rfl⟩ := h
  rw [Theta_frame this r1.2 r2 h2, Phi_frame this s r1 h1]

theorem phiPartial_zero (this : lda) (s : sstable) (k : Nat) :
    phiPartial this s k 0 = phiTable this s k := by
  unfold phiPartial phiTable
  congr 1
  funext v j
  simp

theorem phiPartial_full (this : lda) (s : sstable) (k : Nat) :
    phiPartial this s k this.data.VocabSize = phiTable this s (k + 1) := by
  unfold phiPartial phiTable
  congr 1
  funext v j
  by_cases hv : v < this.data.VocabSize
  · have : (j < k ∨ j = k) ↔ j < k + 1 := by omega
    simp [hv, this]
  · simp [hv]

theorem Phi_eq (this : lda) (s : sstable) (hr : this.data.VocabSize ≤ s.WordTopic.rowNum)
    (hc : this.topicNum ≤ s.WordTopic.colNum) :
    Phi this s = some (phiTable this s this.topicNum, s) := by
  unfold Phi
  have h0 : ((DenseMatrix.New this.data.VocabSize this.topicNum : DenseMatrix ℚ), s)
      = (fun k => (phiTable this s k, s)) 0 := by
    simp only [DenseMatrix.New, phiTable]
    congr 2
    funext v k
    simp
  rw [h0]
  apply foldlM_range_eq _ (fun k => (phiTable this s k, s))
  intro k hk
  have hkc : k < s.WordTopic.colNum := lt_of_lt_of_le hk hc
  simp only [phiCol, DenseMatrix.GetCol, hkc, if_true, bind, Option.some_bind]
  rw [← phiPartial_zero, ← phiPartial_full]
  apply foldlM_range_eq _ (fun i => (phiPartial this s k i, s))
  intro i hi
  have hir : i < s.WordTopic.rowNum := lt_of_lt_of_le hi hr
  have hsum : VectorSum ((List.range s.WordTopic.rowNum).map (fun r => s.WordTopic.cell r k))
      = colSum s.WordTopic k := list_sum_range _ _
  simp only [DenseMatrix.Get, DenseMatrix.Set, DenseMatrix.inBounds, hir, hkc, and_self, if_true,
    bind, Option.some_bind, pure, phiPartial, hi, hk, hsum, Option.some.injEq, Prod.mk.injEq,
    and_true]
  congr 1
  funext v j
  by_cases hv : v = i
  · subst hv
    by_cases hj : j = k
    · subst hj; simp [hi]
    · simp [hj, hi]
  · by_cases hj : j = k
    · subst hj
      have : v < i + 1 ↔ v < i := by omega
      simp [hv, this]
    · simp [hv, hj]

theorem thetaPartial_zero (this : lda) (s : sstable) (d : Nat) :
    thetaPartial this s d 0 = thetaTable this s d := by
  unfold thetaPartial thetaTable
  congr 1
  funext r k
  by_cases hk : k < this.topicNum
  · simp [hk]
  · simp [hk]

theorem thetaPartial_full (this : lda) (s : sstable) (d : Nat) :
    thetaPartial this s d this.topicNum = thetaTable this s (d + 1) := by
  unfold thetaPartial thetaTable
  congr 1
  funext r k
  by_cases hk : k < this.topicNum
  · have : (r < d ∨ r = d) ↔ r < d + 1 := by omega
    simp [hk, this]
  · simp [hk]

theorem Theta_eq (this : lda) (s : sstable) (hr : this.data.DocNum ≤ s.DocTopic.rowNum)
    (hc : this.topicNum ≤ s.DocTopic.colNum) :
    Theta this s = some (thetaTable this s this.data.DocNum, s) := by
  unfold Theta
  have h0 : ((DenseMatrix.New this.data.DocNum this.topicNum : DenseMatrix ℚ), s)
      = (fun d => (thetaTable this s d, s)) 0 := by
    simp only [DenseMatrix.New, thetaTable]
    congr 2
  rw [h0]
  apply foldlM_range_eq _ (fun d => (thetaTable this s d, s))
  intro d hd
  have hdr : d < s.DocTopic.rowNum := lt_of_lt_of_le hd hr
  simp only [thetaRow, DenseMatrix.GetRow, hdr, if_true, bind, Option.some_bind]
  rw [← thetaPartial_zero, ← thetaPartial_full]
  apply foldlM_range_eq _ (fun i => (thetaPartial this s d i, s))
  intro i hi
  have hic : i < s.DocTopic.colNum := lt_of_lt_of_le hi hc
  have hsum : VectorSum ((List.range s.DocTopic.colNum).map (fun c => s.DocTopic.cell d c))
      = rowSum s.DocTopic d := list_sum_range _ _
  simp only [DenseMatrix.Get, DenseMatrix.Set, DenseMatrix.inBounds, hdr, hic, and_self, if_true,
    bind, Option.some_bind, pure, thetaPartial, hi, hd, hsum, Option.some.injEq, Prod.mk.injEq,
    and_true]
  congr 1
  funext r k
  by_cases hr1 : r = d
  · subst hr1
    by_cases hk : k = i
    · subst hk; simp [hi]
    · have : k < i + 1 ↔ k < i := by omega
      simp [hk, this]
  · simp [hr1]

/-! ## Invariants of the sampler that hold along every execution -/

theorem Int31n_lt {raw K k : Nat} (h : Int31n raw (toInt32 K) = some k) : k < K := by
  unfold Int31n at h
  split at h
  · exact absurd h (by simp)
  · rename_i hpos
    simp only [Option.some.injEq] at h
    subst h
    have hle : (toInt32 K).toNat ≤ K := by
      unfold toInt32 uint32Size
      split
      · simp only [Int.toNat_ofNat]
        exact Nat.mod_le _ _
      · omega
    have hpos1 : 0 < (toInt32 K).toNat := by omega
    exact lt_of_lt_of_le (Nat.mod_lt _ hpos1) hle

theorem Int31n_some (raw K : Nat) (h1 : 1 ≤ K) (h2 : K < 2147483648) :
    Int31n raw (toInt32 K) = some (raw % K) := by
  have hK : toInt32 K = (K : Int) := by
    unfold toInt32 uint32Size
    have : K % 4294967296 = K := Nat.mod_eq_of_lt (by omega)
    simp [this, h2]
  unfold Int31n
  rw [hK]
  have : ¬ ((K : Int) ≤ 0) := by omega
  simp [this]

theorem selectTopic_cases (K : Nat) (cumsum : List ℚ) (u : ℚ) (k : Nat) :
    selectTopic K cumsum u k < K ∨ selectTopic K cumsum u k = k := by
  unfold selectTopic
  cases h : (List.range K).find? (fun kidx => decide (u < cumsum.getD kidx 0)) with
  | none => right; rfl
  | some k1 =>
    left
    have := List.mem_of_find?_eq_some h
    simpa using this

theorem mapSet_ValuesBelow {K : Nat} {m : TopicMap} (dw : DocWord) {k : Nat}
    (hm : ValuesBelow K m) (hk : k < K) : ValuesBelow K (mapSet m dw k) := by
  induction m with
  | nil =>
    intro e he
    simp only [mapSet, List.mem_singleton] at he
    subst he
    exact hk
  | cons a m ih =>
    obtain ⟨key, v⟩ := a
    intro e he
    unfold mapSet at he
    split at he
    · rcases List.mem_cons.mp he with h | h
      · subst h; exact hk
      · exact hm e (List.mem_cons_of_mem _ h)
    · rcases List.mem_cons.mp he with h | h
      · subst h; exact hm _ (List.mem_cons_self _ _)
      · exact ih (fun e he => hm e (List.mem_cons_of_mem _ he)) e h

theorem Sized_bump_drop {this : lda} {s : sstable} (h : Sized this s) (a b c d e f : Nat)
    (a1 b1 c1 d1 e1 f1 : Nat) (m : TopicMap) :
    Sized this ⟨bump (drop s.WordTopic a b) a1 b1, bump (drop s.DocTopic c d) c1 d1,
      bump (drop s.WordTopicSum e f) e1 f1, m⟩ := h

theorem Sized_bump {this : lda} {s : sstable} (h : Sized this s) (a b c d e f : Nat)
    (m : TopicMap) :
    Sized this ⟨bump s.WordTopic a b, bump s.DocTopic c d, bump s.WordTopicSum e f, m⟩ := h

theorem initToken_Sized {this : lda} {env : Env} {doc : Nat} {st st1 : RunState}
    {iw : Nat × Nat} (hs : Sized this st.tab) (h : initToken this env doc st iw = some st1) :
    Sized this st1.tab := by
  obtain ⟨k, -, -, -, -, rfl⟩ := initToken_eq_some.mp h
  exact Sized_bump hs _ _ _ _ _ _ _

theorem exec_Sized {this : lda} {env : Env} {st st1 : RunState} {a : Action}
    (hs : Sized this st.tab) (h : exec this env st a = some st1) : Sized this st1.tab := by
  cases a with
  | report iterIdx =>
    simp only [exec, logLikelihood] at h
    split at h
    · simp only [Option.map_eq_some'] at h
      obtain ⟨r, hr, rfl⟩ := h
      rw [Likelihood_frame this env _ _ r hr]
      exact hs
    · simp only [Option.some.injEq] at h
      exact h ▸ hs
  | resample t =>
    obtain ⟨k, -, -, -, -, cumsum, last, k1, -, -, -, -, -, -, rfl⟩ :=
      resampleToken_eq_some.mp h
    exact Sized_bump_drop hs _ _ _ _ _ _ _ _ _ _ _ _ _

theorem exec_report_tab {this : lda} {env : Env} {st st1 : RunState} {iterIdx : Nat}
    (h : exec this env st (Action.report iterIdx) = some st1) : st1 = st := by
  simp only [exec, logLikelihood] at h
  split at h
  · simp only [Option.map_eq_some'] at h
    obtain ⟨r, hr, rfl⟩ := h
    rw [Likelihood_frame this env _ _ r hr]
  · simp only [Option.some.injEq] at h
    exact h.symm

theorem TotalsOK_bump {s : sstable} (h : TotalsOK s) (w doc k : Nat) (m : TopicMap)
    (hw : w < s.WordTopic.rowNum) (hd : doc < s.DocTopic.rowNum) :
    TotalsOK ⟨bump s.WordTopic w k, bump s.DocTopic doc k, bump s.WordTopicSum k 0, m⟩ := by
  intro j
  have h1 := colSum_bump s.WordTopic w k j hw
  have h2 := colSum_bump s.DocTopic doc k j hd
  have h3 : (bump s.WordTopicSum k 0).cell j 0
      = s.WordTopicSum.cell j 0 + (if k = j then 1 else 0) := by
    unfold bump
    by_cases hkj : k = j
    · subst hkj; simp
    · have : ¬ (j = k) := fun h => hkj h.symm
      simp [hkj, this]
  have := h j
  simp only at h1 h2 h3 ⊢
  omega

theorem TotalsOK_drop {s : sstable} (h : TotalsOK s) (w doc k : Nat) (m : TopicMap)
    (hw : w < s.WordTopic.rowNum) (hd : doc < s.DocTopic.rowNum)
    (h1w : 1 ≤ s.WordTopic.cell w k) (h1d : 1 ≤ s.DocTopic.cell doc k)
    (h1s : 1 ≤ s.WordTopicSum.cell k 0) :
    TotalsOK ⟨drop s.WordTopic w k, drop s.DocTopic doc k, drop s.WordTopicSum k 0, m⟩ := by
  intro j
  have h1 := colSum_drop s.WordTopic w k j hw h1w
  have h2 := colSum_drop s.DocTopic doc k j hd h1d
  have h3 : (drop s.WordTopicSum k 0).cell j 0 + (if k = j then 1 else 0)
      = s.WordTopicSum.cell j 0 := by
    unfold drop
    by_cases hkj : k = j
    · subst hkj; simp; omega
    · have : ¬ (j = k) := fun h => hkj h.symm
      simp [hkj, this]
  have := h j
  simp only at h1 h2 h3 ⊢
  omega

theorem initToken_TotalsOK {this : lda} {env : Env} {doc : Nat} {st st1 : RunState}
    {iw : Nat × Nat} (hs : TotalsOK st.tab) (h : initToken this env doc st iw = some st1) :
    TotalsOK st1.tab := by
  obtain ⟨k, -, hw, hd, -, rfl⟩ := initToken_eq_some.mp h
  exact TotalsOK_bump hs _ _ _ _ hw.1 hd.1

theorem exec_TotalsOK {this : lda} {env : Env} {st st1 : RunState} {a : Action}
    (hs : TotalsOK st.tab) (h : exec this env st a = some st1) : TotalsOK st1.tab := by
  cases a with
  | report iterIdx => rw [exec_report_tab h]; exact hs
  | resample t =>
    obtain ⟨k, -, hw, hd, hws, cumsum, last, k1, -, -, -, hw1, hd1, -, rfl⟩ :=
      resampleToken_eq_some.mp h
    have hdrop := TotalsOK_drop hs t.2.2 t.1 k st.tab.DocWordTopic hw.1.1 hd.1.1 hw.2 hd.2 hws.2
    exact TotalsOK_bump hdrop t.2.2 t.1 k1 _ hw1.1 hd1.1

theorem initToken_ValuesBelow {this : lda} {env : Env} {doc : Nat} {st st1 : RunState}
    {iw : Nat × Nat} (hv : ValuesBelow this.topicNum st.tab.DocWordTopic)
    (h : initToken this env doc st iw = some st1) :
    ValuesBelow this.topicNum st1.tab.DocWordTopic := by
  obtain ⟨k, hk, -, -, -, rfl⟩ := initToken_eq_some.mp h
  exact mapSet_ValuesBelow _ hv (Int31n_lt hk)

theorem exec_ValuesBelow {this : lda} {env : Env} {st st1 : RunState} {a : Action}
    (hs : Sized this st.tab) (hv : ValuesBelow this.topicNum st.tab.DocWordTopic)
    (h : exec this env st a = some st1) :
    ValuesBelow this.topicNum st1.tab.DocWordTopic := by
  cases a with
  | report iterIdx => rw [exec_report_tab h]; exact hv
  | resample t =>
    obtain ⟨k, -, -, -, -, cumsum, last, k1, -, -, -, hw1, -, -, rfl⟩ :=
      resampleToken_eq_some.mp h
    exact mapSet_ValuesBelow _ hv (hs.2.1 ▸ hw1.2)

theorem exec_rowSum {this : lda} {env : Env} {st st1 : RunState} {a : Action}
    (h : exec this env st a = some st1) (d : Nat) :
    rowSum st1.tab.DocTopic d = rowSum st.tab.DocTopic d := by
  cases a with
  | report iterIdx => rw [exec_report_tab h]
  | resample t =>
    obtain ⟨k, -, -, hd, -, cumsum, last, k1, -, -, -, -, hd1, -, rfl⟩ :=
      resampleToken_eq_some.mp h
    have h1 := rowSum_bump (drop st.tab.DocTopic t.1 k) t.1 k1 d hd1.2
    have h2 := rowSum_drop st.tab.DocTopic t.1 k d hd.1.2 hd.2
    simp only at h1 h2 ⊢
    omega

theorem initTokens_rowSum (this : lda) (env : Env) (d : Nat) (ts : List Token) :
    ∀ st st1, ts.foldlM (fun st t => initToken this env t.1 st t.2) st = some st1 →
      rowSum st1.tab.DocTopic d
        = rowSum st.tab.DocTopic d + ts.countP (fun t => decide (t.1 = d)) := by
  induction ts with
  | nil =>
    intro st st1 h
    simp only [List.foldlM_nil, pure, Option.some.injEq] at h
    subst h
    simp
  | cons t ts ih =>
    intro st st1 h
    simp only [List.foldlM_cons, bind, Option.bind_eq_some] at h
    obtain ⟨st2, h2, h3⟩ := h
    rw [ih st2 st1 h3]
    obtain ⟨k, -, -, hd, -, rfl⟩ := initToken_eq_some.mp h2
    have h1 := rowSum_bump st.tab.DocTopic t.1 k d hd.2
    simp only [List.countP_cons, decide_eq_true_eq] at h1 ⊢
    omega

/-- What holds after the initialisation pass and is kept by every atomic step holds after
any number of steps of `Run`. -/
theorem RunUpTo_inv {this : lda} {env : Env} {iter : Int} {n : Nat} {s0 s : sstable}
    (Q : sstable → Prop)
    (hinit : ∀ st, initPass this env ⟨s0, 0⟩ = some st → Q st.tab)
    (hexec : ∀ st a st1, a ∈ runActions env iter → Q st.tab →
      exec this env st a = some st1 → Q st1.tab)
    (h : RunUpTo this env iter n s0 = some s) : Q s := by
  simp only [RunUpTo, Option.map_eq_some', Option.bind_eq_some] at h
  obtain ⟨st1, ⟨st, hst, hfold⟩, rfl⟩ := h
  exact foldlM_preserves (exec this env) (fun st => Q st.tab) _
    (fun st a st1 ha hq he => hexec st a st1 (List.mem_of_mem_take ha) hq he) st st1
    (hinit st hst) hfold

theorem initPass_inv {this : lda} {env : Env} {st0 st : RunState} (Q : sstable → Prop)
    (h0 : Q st0.tab)
    (hstep : ∀ doc st iw st1, Q st.tab → initToken this env doc st iw = some st1 → Q st1.tab)
    (h : initPass this env st0 = some st) : Q st.tab := by
  rw [initPass_eq] at h
  exact foldlM_preserves _ (fun st => Q st.tab) _
    (fun st t st1 _ hq he => hstep t.1 st t.2 st1 hq he) st0 st h0 h

/-- The tables `NewLDA` allocates have the sizes the model expects. -/
theorem NewLDA_Sized (dat : Corpus) (K : Nat) (alpha beta : ℚ) :
    Sized (NewLDA dat K alpha beta).1 (NewLDA dat K alpha beta).2 := by
  simp [NewLDA, Sized, DenseMatrix.New]

theorem NewLDA_TotalsOK (dat : Corpus) (K : Nat) (alpha beta : ℚ) :
    TotalsOK (NewLDA dat K alpha beta).2 := by
  intro k
  simp [NewLDA, colSum, DenseMatrix.New]

/-- The invariants shared by all reachable tables: sizes, agreeing totals, topics in range. -/
theorem RunUpTo_basic {dat : Corpus} {K : Nat} {alpha beta : ℚ} {env : Env} {iter : Int}
    {n : Nat} {s : sstable}
    (h : RunUpTo (NewLDA dat K alpha beta).1 env iter n (NewLDA dat K alpha beta).2 = some s) :
    Sized (NewLDA dat K alpha beta).1 s ∧ TotalsOK s ∧ ValuesBelow K s.DocWordTopic := by
  refine RunUpTo_inv
    (fun s => Sized (NewLDA dat K alpha beta).1 s ∧ TotalsOK s ∧ ValuesBelow K s.DocWordTopic)
    ?_ ?_ h
  · intro st hst
    refine initPass_inv
      (fun s => Sized (NewLDA dat K alpha beta).1 s ∧ TotalsOK s ∧
        ValuesBelow K s.DocWordTopic) ?_ ?_ hst
    · refine ⟨NewLDA_Sized dat K alpha beta, NewLDA_TotalsOK dat K alpha beta, ?_⟩
      intro e he
      simp [NewLDA] at he
    · intro doc st iw st1 hq he
      exact ⟨initToken_Sized hq.1 he, initToken_TotalsOK hq.2.1 he,
        initToken_ValuesBelow hq.2.2 he⟩
  · intro st a st1 _ hq he
    exact ⟨exec_Sized hq.1 he, exec_TotalsOK hq.2.1 he, exec_ValuesBelow hq.1 hq.2.2 he⟩

/-! ## Token instances of a corpus -/

theorem appendCopies_eq (words : List Nat) (w n : Nat) :
    appendCopies words w n = words ++ List.replicate n w := by
  induction n generalizing words with
  | zero => simp [appendCopies]
  | succ n ih =>
    rw [appendCopies, ih, List.replicate_succ]
    simp

theorem foldl_appendCopies (wcs : List WordCount) (words : List Nat) :
    wcs.foldl (fun words wc => appendCopies words wc.WordId wc.Count) words
      = words ++ wcs.flatMap (fun wc => List.replicate wc.Count wc.WordId) := by
  induction wcs generalizing words with
  | nil => simp
  | cons wc wcs ih =>
    simp only [List.foldl_cons, List.flatMap_cons]
    rw [ih, appendCopies_eq, List.append_assoc]

theorem ExpandWords_eq (wcs : List WordCount) :
    ExpandWords wcs = wcs.flatMap (fun wc => List.replicate wc.Count wc.WordId) := by
  unfold ExpandWords
  rw [foldl_appendCopies]
  simp

theorem ExpandWords_length (wcs : List WordCount) :
    (ExpandWords wcs).length = (wcs.map WordCount.Count).sum := by
  rw [ExpandWords_eq]
  induction wcs with
  | nil => rfl
  | cons wc wcs ih =>
    rw [List.flatMap_cons, List.length_append, List.length_replicate, ih]
    rfl

theorem mem_ExpandWords {wcs : List WordCount} {w : Nat} (h : w ∈ ExpandWords wcs) :
    ∃ wc ∈ wcs, wc.WordId = w := by
  rw [ExpandWords_eq, List.mem_flatMap] at h
  obtain ⟨wc, hwc, hw⟩ := h
  exact ⟨wc, hwc, (List.eq_of_mem_replicate hw).symm⟩

theorem mem_docTokens {d : Nat × List WordCount} {t : Token} :
    t ∈ docTokens d ↔ t.1 = d.1 ∧ (ExpandWords d.2)[t.2.1]? = some t.2.2 := by
  unfold docTokens
  simp only [List.mem_map]
  constructor
  · rintro ⟨iw, hiw, rfl⟩
    exact ⟨rfl, List.mem_enum_iff_getElem?.mp hiw⟩
  · rintro ⟨h1, h2⟩
    refine ⟨t.2, List.mem_enum_iff_getElem?.mpr h2, ?_⟩
    rw [← h1]

theorem docsGet_cons (d0 : Nat) (wcs : List WordCount) (rest : DocMap) (d : Nat) :
    docsGet ((d0, wcs) :: rest) d = if d0 = d then wcs else docsGet rest d := rfl

theorem docsGet_of_mem {docs : DocMap} (hok : DocMapOK docs) {d : Nat × List WordCount}
    (hd : d ∈ docs) : docsGet docs d.1 = d.2 := by
  induction docs with
  | nil => exact absurd hd (List.not_mem_nil _)
  | cons e rest ih =>
    obtain ⟨d0, wcs⟩ := e
    unfold DocMapOK at hok
    simp only [List.map_cons, List.nodup_cons] at hok
    unfold docsGet
    rcases List.mem_cons.mp hd with h | h
    · subst h; simp
    · have hne : d0 ≠ d.1 := by
        intro heq
        exact hok.1 (heq ▸ List.mem_map_of_mem Prod.fst h)
      simp only [hne, if_false]
      exact ih hok.2 h

theorem docsGet_of_not_mem {docs : DocMap} {d : Nat} (hd : d ∉ docs.map Prod.fst) :
    docsGet docs d = [] := by
  induction docs with
  | nil => rfl
  | cons e rest ih =>
    obtain ⟨d0, wcs⟩ := e
    simp only [List.map_cons, List.mem_cons, not_or] at hd
    unfold docsGet
    have hne : d0 ≠ d := fun h => hd.1 h.symm
    simp only [hne, if_false]
    exact ih hd.2

theorem countP_docTokens (e : Nat × List WordCount) (d : Nat) :
    (docTokens e).countP (fun t => decide (t.1 = d))
      = if e.1 = d then (ExpandWords e.2).length else 0 := by
  unfold docTokens
  rw [List.countP_map]
  by_cases h : e.1 = d
  · simp only [h, if_true]
    rw [List.countP_eq_length.mpr]
    · exact List.enum_length
    · intro a _
      simp [h]
  · simp only [h, if_false]
    rw [List.countP_eq_zero]
    intro a _
    simp [h]

theorem countP_tokensOf {docs : DocMap} (hok : DocMapOK docs) (d : Nat) :
    (tokensOf docs).countP (fun t => decide (t.1 = d)) = (ExpandWords (docsGet docs d)).length := by
  induction docs with
  | nil => simp [tokensOf, docsGet, ExpandWords]
  | cons e rest ih =>
    obtain ⟨d0, wcs⟩ := e
    unfold DocMapOK at hok
    simp only [List.map_cons, List.nodup_cons] at hok
    have ih1 := ih hok.2
    unfold tokensOf at ih1 ⊢
    rw [List.flatMap_cons, List.countP_append, countP_docTokens, ih1, docsGet_cons]
    by_cases h : d0 = d
    · subst h
      simp only [if_true]
      rw [docsGet_of_not_mem hok.1]
      simp [ExpandWords]
    · simp [h]

theorem tokensOf_perm {order docs : DocMap} (h : order.Perm docs) :
    (tokensOf order).Perm (tokensOf docs) :=
  List.Perm.flatMap_right docTokens h

theorem mem_tokensOf {docs : DocMap} {t : Token} :
    t ∈ tokensOf docs ↔ ∃ d ∈ docs, t.1 = d.1 ∧ (ExpandWords d.2)[t.2.1]? = some t.2.2 := by
  unfold tokensOf
  rw [List.mem_flatMap]
  constructor
  · rintro ⟨d, hd, ht⟩
    exact ⟨d, hd, mem_docTokens.mp ht⟩
  · rintro ⟨d, hd, ht⟩
    exact ⟨d, hd, mem_docTokens.mpr ht⟩

theorem toUint32_of_lt {i : Nat} (h : i < uint32Size) : toUint32 i = i :=
  Nat.mod_eq_of_lt h

/-- In a corpus of short documents the key of a token leads back to its word. -/
theorem wordAt_key {docs : DocMap} (hok : DocMapOK docs) (hshort : ShortDocs docs) {t : Token}
    (ht : t ∈ tokensOf docs) : wordAt docs (Token.key t) = some t.2.2 := by
  obtain ⟨d, hd, h1, h2⟩ := mem_tokensOf.mp ht
  have hlt : t.2.1 < (ExpandWords d.2).length := by
    obtain ⟨hlt, -⟩ := List.getElem?_eq_some.mp h2
    exact hlt
  have hi : toUint32 t.2.1 = t.2.1 := toUint32_of_lt (lt_of_lt_of_le hlt (hshort d hd))
  unfold wordAt Token.key
  simp only [hi, h1, docsGet_of_mem hok hd]
  exact h2

/-- Row `d` of `DocTopic` adds up to the token count of document `d` from the end of the
initialisation pass on. -/
theorem RunUpTo_rowSum {dat : Corpus} {K : Nat} {alpha beta : ℚ} {env : Env} {iter : Int}
    {n : Nat} {s : sstable} (hok : DocMapOK dat.entries) (hord : env.OrderOK dat)
    (h : RunUpTo (NewLDA dat K alpha beta).1 env iter n (NewLDA dat K alpha beta).2 = some s)
    (d : Nat) : rowSum s.DocTopic d = (ExpandWords (docsGet dat.entries d)).length := by
  refine RunUpTo_inv
    (fun s => rowSum s.DocTopic d = (ExpandWords (docsGet dat.entries d)).length) ?_ ?_ h
  · intro st hst
    rw [initPass_eq] at hst
    rw [initTokens_rowSum _ env d _ _ st hst, (tokensOf_perm (hord 0)).countP_eq,
      countP_tokensOf hok]
    simp [NewLDA, rowSum, DenseMatrix.New]
  · intro st a st1 _ hq he
    rw [exec_rowSum he d]
    exact hq

/-! ## The assignment table -/

theorem mapLookup_mem {m : TopicMap} {dw : DocWord} {k : Nat} (h : mapLookup m dw = some k) :
    (dw, k) ∈ m := by
  induction m with
  | nil => exact absurd h (by simp [mapLookup])
  | cons a m ih =>
    obtain ⟨key, v⟩ := a
    unfold mapLookup at h
    split at h
    · rename_i hk
      simp only [Option.some.injEq] at h
      subst hk; subst h
      exact List.mem_cons_self _ _
    · exact List.mem_cons_of_mem _ (ih h)

theorem mapLookup_mapSet (m : TopicMap) (dw dw1 : DocWord) (k : Nat) :
    mapLookup (mapSet m dw k) dw1 = if dw = dw1 then some k else mapLookup m dw1 := by
  induction m with
  | nil => simp [mapSet, mapLookup]
  | cons a m ih =>
    obtain ⟨key, v⟩ := a
    unfold mapSet
    by_cases hk : key = dw
    · subst hk
      by_cases h1 : key = dw1
      · simp [mapLookup, h1]
      · simp [mapLookup, h1]
    · simp only [hk, if_false]
      by_cases h1 : key = dw1
      · subst h1
        simp [mapLookup, Ne.symm hk]
      · simp only [mapLookup, h1, if_false]
        exact ih

theorem countP_mapSet_absent (m : TopicMap) (dw : DocWord) (k : Nat)
    (p : DocWord × Nat → Bool) (h : mapLookup m dw = none) :
    (mapSet m dw k).countP p = m.countP p + (if p (dw, k) then 1 else 0) := by
  induction m with
  | nil => simp [mapSet, List.countP_cons]
  | cons a m ih =>
    obtain ⟨key, v⟩ := a
    unfold mapLookup at h
    split at h
    · exact absurd h (by simp)
    · rename_i hk
      unfold mapSet
      simp only [hk, if_false, List.countP_cons]
      rw [ih h]
      omega

theorem countP_mapSet_present (m : TopicMap) (dw : DocWord) (k k0 : Nat)
    (p : DocWord × Nat → Bool) (h : mapLookup m dw = some k0) :
    (mapSet m dw k).countP p + (if p (dw, k0) then 1 else 0)
      = m.countP p + (if p (dw, k) then 1 else 0) := by
  induction m with
  | nil => exact absurd h (by simp [mapLookup])
  | cons a m ih =>
    obtain ⟨key, v⟩ := a
    unfold mapLookup at h
    split at h
    · rename_i hk
      simp only [Option.some.injEq] at h
      subst hk; subst h
      unfold mapSet
      simp only [if_true, List.countP_cons]
      omega
    · rename_i hk
      unfold mapSet
      simp only [hk, if_false, List.countP_cons]
      have := ih h
      omega

/-! ## Counts are derivable from the assignment table -/

theorem entriesWordTopic_pos {docs : DocMap} {m : TopicMap} {dw : DocWord} {w k : Nat}
    (hl : mapLookup m dw = some k) (hw : wordAt docs dw = some w) :
    1 ≤ entriesWordTopic docs m w k := by
  unfold entriesWordTopic
  apply List.countP_pos_iff.mpr
  exact ⟨(dw, k), mapLookup_mem hl, by simp [hw]⟩

theorem entriesDocTopic_pos {m : TopicMap} (dw : DocWord) {k : Nat}
    (hl : mapLookup m dw = some k) : 1 ≤ entriesDocTopic m dw.DocId k := by
  unfold entriesDocTopic
  apply List.countP_pos_iff.mpr
  exact ⟨(dw, k), mapLookup_mem hl, by simp⟩

theorem entriesTopic_pos {m : TopicMap} {dw : DocWord} {k : Nat}
    (hl : mapLookup m dw = some k) : 1 ≤ entriesTopic m k := by
  unfold entriesTopic
  apply List.countP_pos_iff.mpr
  exact ⟨(dw, k), mapLookup_mem hl, by simp⟩

theorem Derivable_init {docs : DocMap} {s : sstable} {dw : DocWord} {w k : Nat}
    (hder : Derivable docs s) (hl : mapLookup s.DocWordTopic dw = none)
    (hw : wordAt docs dw = some w) :
    Derivable docs ⟨bump s.WordTopic w k, bump s.DocTopic dw.DocId k,
      bump s.WordTopicSum k 0, mapSet s.DocWordTopic dw k⟩ := by
  refine ⟨?_, ?_, ?_⟩
  · intro w1 k1
    have hc := countP_mapSet_absent s.DocWordTopic dw k
      (fun e => decide (wordAt docs e.1 = some w1 ∧ e.2 = k1)) hl
    have h1 := hder.1 w1 k1
    have h2 := hder.1 w k
    simp only [entriesWordTopic, bump, hw, Option.some.injEq, decide_eq_true_eq] at hc h1 h2 ⊢
    rw [hc]
    by_cases ha : w1 = w ∧ k1 = k
    · obtain ⟨rfl, rfl⟩ := ha
      simp [h1]
    · have hb : ¬ (w = w1 ∧ k = k1) := fun h => ha ⟨h.1.symm, h.2.symm⟩
      simp [ha, hb, h1]
  · intro d1 k1
    have hc := countP_mapSet_absent s.DocWordTopic dw k
      (fun e => decide (e.1.DocId = d1 ∧ e.2 = k1)) hl
    have h1 := hder.2.1 d1 k1
    have h2 := hder.2.1 dw.DocId k
    simp only [entriesDocTopic, bump, decide_eq_true_eq] at hc h1 h2 ⊢
    rw [hc]
    by_cases ha : d1 = dw.DocId ∧ k1 = k
    · obtain ⟨rfl, rfl⟩ := ha
      simp [h1]
    · have hb : ¬ (dw.DocId = d1 ∧ k = k1) := fun h => ha ⟨h.1.symm, h.2.symm⟩
      simp [ha, hb, h1]
  · intro k1
    have hc := countP_mapSet_absent s.DocWordTopic dw k (fun e => decide (e.2 = k1)) hl
    have h1 := hder.2.2 k1
    have h2 := hder.2.2 k
    simp only [entriesTopic, bump, decide_eq_true_eq] at hc h1 h2 ⊢
    rw [hc]
    by_cases ha : k1 = k
    · subst ha
      simp [h1]
    · have hb : ¬ (k = k1) := fun h => ha h.symm
      simp [ha, hb, h1]

theorem move_cell (m : DenseMatrix Nat) (r0 c0 r1 c1 i j : Nat) (h : 1 ≤ m.cell r0 c0) :
    (bump (drop m r0 c0) r1 c1).cell i j + (if r0 = i ∧ c0 = j then 1 else 0)
      = m.cell i j + (if r1 = i ∧ c1 = j then 1 else 0) := by
  simp only [bump, drop]
  by_cases h1 : r1 = i ∧ c1 = j
  · obtain ⟨rfl, rfl⟩ := h1
    by_cases h0 : r0 = r1 ∧ c0 = c1
    · obtain ⟨rfl, rfl⟩ := h0
      simp
      omega
    · have h0s : ¬ (r1 = r0 ∧ c1 = c0) := fun h => h0 ⟨h.1.symm, h.2.symm⟩
      simp [h0, h0s]
  · have h1s : ¬ (i = r1 ∧ j = c1) := fun h => h1 ⟨h.1.symm, h.2.symm⟩
    by_cases h0 : r0 = i ∧ c0 = j
    · obtain ⟨rfl, rfl⟩ := h0
      simp [h1, h1s]
      omega
    · have h0s : ¬ (i = r0 ∧ j = c0) := fun h => h0 ⟨h.1.symm, h.2.symm⟩
      simp [h0, h0s, h1, h1s]

theorem Derivable_move {docs : DocMap} {s : sstable} {dw : DocWord} {w k0 k1 : Nat}
    (hder : Derivable docs s) (hl : mapLookup s.DocWordTopic dw = some k0)
    (hw : wordAt docs dw = some w) :
    Derivable docs ⟨bump (drop s.WordTopic w k0) w k1,
      bump (drop s.DocTopic dw.DocId k0) dw.DocId k1,
      bump (drop s.WordTopicSum k0 0) k1 0, mapSet s.DocWordTopic dw k1⟩ := by
  refine ⟨?_, ?_, ?_⟩
  · intro w1 j
    have hc := countP_mapSet_present s.DocWordTopic dw k1 k0
      (fun e => decide (wordAt docs e.1 = some w1 ∧ e.2 = j)) hl
    have h1 := hder.1 w1 j
    have hpos : 1 ≤ s.WordTopic.cell w k0 := by
      rw [hder.1 w k0]; exact entriesWordTopic_pos hl hw
    have hm := move_cell s.WordTopic w k0 w k1 w1 j hpos
    simp only [entriesWordTopic, hw, Option.some.injEq, decide_eq_true_eq] at hc h1 ⊢
    split_ifs at hc hm <;> omega
  · intro d1 j
    have hc := countP_mapSet_present s.DocWordTopic dw k1 k0
      (fun e => decide (e.1.DocId = d1 ∧ e.2 = j)) hl
    have h1 := hder.2.1 d1 j
    have hpos : 1 ≤ s.DocTopic.cell dw.DocId k0 := by
      rw [hder.2.1 dw.DocId k0]; exact entriesDocTopic_pos dw hl
    have hm := move_cell s.DocTopic dw.DocId k0 dw.DocId k1 d1 j hpos
    simp only [entriesDocTopic, decide_eq_true_eq] at hc h1 ⊢
    split_ifs at hc hm <;> omega
  · intro j
    have hc := countP_mapSet_present s.DocWordTopic dw k1 k0 (fun e => decide (e.2 = j)) hl
    have h1 := hder.2.2 j
    have hpos : 1 ≤ s.WordTopicSum.cell k0 0 := by
      rw [hder.2.2 k0]; exact entriesTopic_pos hl
    have hm := move_cell s.WordTopicSum k0 0 k1 0 j 0 hpos
    simp only [entriesTopic, decide_eq_true_eq, and_true] at hc h1 hm ⊢
    split_ifs at hc hm <;> omega

/-! ## Keys of the token instances -/

theorem docTokens_keys_nodup {d : Nat × List WordCount}
    (hlen : (ExpandWords d.2).length ≤ uint32Size) : ((docTokens d).map Token.key).Nodup := by
  unfold docTokens
  rw [List.map_map]
  apply List.Nodup.map_on
  · intro x hx y hy hxy
    have hx1 := List.mem_enum_iff_getElem?.mp hx
    have hy1 := List.mem_enum_iff_getElem?.mp hy
    obtain ⟨hxl, hxv⟩ := List.getElem?_eq_some.mp hx1
    obtain ⟨hyl, hyv⟩ := List.getElem?_eq_some.mp hy1
    simp only [Function.comp, Token.key, DocWord.mk.injEq, true_and] at hxy
    rw [toUint32_of_lt (lt_of_lt_of_le hxl hlen), toUint32_of_lt (lt_of_lt_of_le hyl hlen)] at hxy
    have h2 : x.2 = y.2 := by
      rw [← hxv, ← hyv]
      simp only [hxy]
    exact Prod.ext hxy h2
  · exact List.Nodup.of_map Prod.fst (List.nodup_enum_map_fst _)

theorem tokensOf_keys_nodup {docs : DocMap} (hok : DocMapOK docs) (hshort : ShortDocs docs) :
    ((tokensOf docs).map Token.key).Nodup := by
  unfold tokensOf
  rw [List.map_flatMap, List.nodup_flatMap]
  refine ⟨fun d hd => docTokens_keys_nodup (hshort d hd), ?_⟩
  unfold DocMapOK at hok
  have hpw : List.Pairwise (fun a b : Nat × List WordCount => a.1 ≠ b.1) docs :=
    List.pairwise_map.mp hok
  refine List.Pairwise.imp ?_ hpw
  intro a b hab
  simp only [Function.onFun]
  intro dw h1 h2
  obtain ⟨t1, ht1, rfl⟩ := List.mem_map.mp h1
  obtain ⟨t2, ht2, hkey⟩ := List.mem_map.mp h2
  have e1 := (mem_docTokens.mp ht1).1
  have e2 := (mem_docTokens.mp ht2).1
  have : t2.1 = t1.1 := congrArg DocWord.DocId hkey
  exact hab (by rw [← e1, ← e2, this])

theorem order_keys_nodup {order docs : DocMap} (hok : DocMapOK docs) (hshort : ShortDocs docs)
    (hperm : order.Perm docs) : ((tokensOf order).map Token.key).Nodup :=
  (((tokensOf_perm hperm).map Token.key).nodup_iff).mpr (tokensOf_keys_nodup hok hshort)

theorem mem_order_tokens {order docs : DocMap} (hperm : order.Perm docs) {t : Token} :
    t ∈ tokensOf order ↔ t ∈ tokensOf docs :=
  (tokensOf_perm hperm).mem_iff

theorem mem_runActions {env : Env} {iter : Int} {t : Token}
    (h : Action.resample t ∈ runActions env iter) : ∃ p, t ∈ tokensOf (env.order p) := by
  unfold runActions at h
  obtain ⟨it, -, hit⟩ := List.mem_flatMap.mp h
  unfold sweepActions at hit
  rcases List.mem_cons.mp hit with h1 | h1
  · exact absurd h1 (by simp)
  · obtain ⟨t1, ht1, heq⟩ := List.mem_map.mp h1
    have : t1 = t := by injection heq
    exact ⟨_, this ▸ ht1⟩

/-! ## The initialisation pass fills the assignment table -/

theorem initTokens_strong (this : lda) (env : Env) (docs : DocMap) (ts : List Token) :
    ∀ st st1, (ts.map Token.key).Nodup →
      (∀ t ∈ ts, mapLookup st.tab.DocWordTopic (Token.key t) = none) →
      (∀ t ∈ ts, wordAt docs (Token.key t) = some t.2.2) →
      Derivable docs st.tab →
      ts.foldlM (fun st t => initToken this env t.1 st t.2) st = some st1 →
      Derivable docs st1.tab ∧
        ∀ dw, mapLookup st1.tab.DocWordTopic dw ≠ none ↔
          (mapLookup st.tab.DocWordTopic dw ≠ none ∨ dw ∈ ts.map Token.key) := by
  induction ts with
  | nil =>
    intro st st1 _ _ _ hder h
    simp only [List.foldlM_nil, pure, Option.some.injEq] at h
    subst h
    exact ⟨hder, fun dw => by simp⟩
  | cons t ts ih =>
    intro st st1 hnd hfresh hword hder h
    simp only [List.foldlM_cons, bind, Option.bind_eq_some] at h
    obtain ⟨st2, h2, h3⟩ := h
    simp only [List.map_cons, List.nodup_cons] at hnd
    obtain ⟨k, -, -, -, -, rfl⟩ := initToken_eq_some.mp h2
    have hder2 := Derivable_init (k := k) hder (hfresh t (List.mem_cons_self _ _))
      (hword t (List.mem_cons_self _ _))
    have hfresh2 : ∀ t1 ∈ ts, mapLookup (mapSet st.tab.DocWordTopic (Token.key t) k)
        (Token.key t1) = none := by
      intro t1 ht1
      rw [mapLookup_mapSet]
      have hne : Token.key t ≠ Token.key t1 := by
        intro heq
        exact hnd.1 (heq ▸ List.mem_map_of_mem Token.key ht1)
      simp only [hne, if_false]
      exact hfresh t1 (List.mem_cons_of_mem _ ht1)
    obtain ⟨hder1, hkeys⟩ := ih _ st1 hnd.2 hfresh2
      (fun t1 ht1 => hword t1 (List.mem_cons_of_mem _ ht1)) hder2 h3
    refine ⟨hder1, ?_⟩
    intro dw
    have hk : mapLookup st1.tab.DocWordTopic dw ≠ none ↔
        (mapLookup (mapSet st.tab.DocWordTopic (Token.key t) k) dw ≠ none ∨
          dw ∈ ts.map Token.key) := hkeys dw
    rw [hk, mapLookup_mapSet, List.map_cons, List.mem_cons]
    by_cases hdw : Token.key t = dw
    · simp [hdw]
    · have hdw1 : ¬ (dw = Token.key t) := fun h => hdw h.symm
      simp [hdw, hdw1]

theorem Derivable_new (docs : DocMap) (dat : Corpus) (K : Nat) (alpha beta : ℚ) :
    Derivable docs (NewLDA dat K alpha beta).2 := by
  simp [Derivable, NewLDA, DenseMatrix.New, entriesWordTopic, entriesDocTopic, entriesTopic]

/-- After the initialisation pass of a fresh model the counts are derivable from the assignment
table, which has exactly the keys of the corpus. -/
theorem initPass_strong {dat : Corpus} {K : Nat} {alpha beta : ℚ} {env : Env} {st : RunState}
    (hok : DocMapOK dat.entries) (hshort : ShortDocs dat.entries) (hord : env.OrderOK dat)
    (h : initPass (NewLDA dat K alpha beta).1 env ⟨(NewLDA dat K alpha beta).2, 0⟩ = some st) :
    Derivable dat.entries st.tab ∧ KeysAre dat.entries st.tab.DocWordTopic := by
  rw [initPass_eq] at h
  obtain ⟨hder, hkeys⟩ := initTokens_strong _ env dat.entries _ _ st
    (order_keys_nodup hok hshort (hord 0))
    (fun t _ => by simp [NewLDA, mapLookup])
    (fun t ht => wordAt_key hok hshort ((mem_order_tokens (hord 0)).mp ht))
    (Derivable_new _ dat K alpha beta) h
  refine ⟨hder, ?_⟩
  intro dw
  rw [hkeys dw]
  have : mapLookup (NewLDA dat K alpha beta).2.DocWordTopic dw = none := by
    simp [NewLDA, mapLookup]
  simp only [this, ne_eq, not_true_eq_false, false_or]
  exact ((tokensOf_perm (hord 0)).map Token.key).mem_iff

/-! ## Every sampling step keeps the counts derivable -/

theorem mapGet_of_lookup {m : TopicMap} {dw : DocWord} {k : Nat}
    (h : mapLookup m dw = some k) : mapGet m dw = k := by
  simp [mapGet, h]

theorem exec_strong {this : lda} {env : Env} {docs : DocMap} (hok : DocMapOK docs)
    (hshort : ShortDocs docs) {st st1 : RunState} {a : Action}
    (hmem : ∀ t, a = Action.resample t → t ∈ tokensOf docs)
    (hq : Derivable docs st.tab ∧ KeysAre docs st.tab.DocWordTopic)
    (h : exec this env st a = some st1) :
    Derivable docs st1.tab ∧ KeysAre docs st1.tab.DocWordTopic := by
  cases a with
  | report iterIdx => rw [exec_report_tab h]; exact hq
  | resample t =>
    have ht := hmem t rfl
    have hpres : mapLookup st.tab.DocWordTopic (Token.key t) ≠ none :=
      (hq.2 _).mpr (List.mem_map_of_mem Token.key ht)
    obtain ⟨k0, hk0⟩ := Option.ne_none_iff_exists'.mp hpres
    obtain ⟨k, hk, -, -, -, cumsum, last, k1, -, -, -, -, -, -, rfl⟩ :=
      resampleToken_eq_some.mp h
    have hkk : k = k0 := by
      rw [hk]
      exact mapGet_of_lookup hk0
    subst hkk
    refine ⟨Derivable_move hq.1 hk0 (wordAt_key hok hshort ht), ?_⟩
    intro dw
    show mapLookup (mapSet st.tab.DocWordTopic (Token.key t) k1) dw ≠ none ↔ _
    rw [mapLookup_mapSet, ← hq.2 dw]
    by_cases hdw : Token.key t = dw
    · subst hdw
      simp [hk0]
    · simp [hdw]

/-- In a corpus of short documents, after the initialisation pass and after every atomic step
the counts are derivable from the assignment table and its keys are those of the corpus. -/
theorem RunUpTo_strong {dat : Corpus} {K : Nat} {alpha beta : ℚ} {env : Env} {iter : Int}
    {n : Nat} {s : sstable} (hok : DocMapOK dat.entries) (hshort : ShortDocs dat.entries)
    (hord : env.OrderOK dat)
    (h : RunUpTo (NewLDA dat K alpha beta).1 env iter n (NewLDA dat K alpha beta).2 = some s) :
    Derivable dat.entries s ∧ KeysAre dat.entries s.DocWordTopic := by
  refine RunUpTo_inv (fun s => Derivable dat.entries s ∧ KeysAre dat.entries s.DocWordTopic)
    ?_ ?_ h
  · intro st hst
    exact initPass_strong hok hshort hord hst
  · intro st a st1 ha hq he
    refine exec_strong hok hshort ?_ hq he
    intro t hat
    subst hat
    obtain ⟨p, hp⟩ := mem_runActions ha
    exact (mem_order_tokens (hord p)).mp hp

/-! ## Progress: the sampler does not panic -/

theorem token_inRange {dat : Corpus} (hin : InRange dat) {t : Token}
    (ht : t ∈ tokensOf dat.entries) : t.1 < dat.DocNum ∧ t.2.2 < dat.VocabSize := by
  obtain ⟨d, hd, h1, h2⟩ := mem_tokensOf.mp ht
  obtain ⟨hdoc, hwords⟩ := hin d hd
  refine ⟨h1 ▸ hdoc, ?_⟩
  obtain ⟨hlt, hget⟩ := List.getElem?_eq_some.mp h2
  have hmemw : t.2.2 ∈ ExpandWords d.2 := hget ▸ List.getElem_mem hlt
  obtain ⟨wc, hwc, hw⟩ := mem_ExpandWords hmemw
  exact hw ▸ hwords wc hwc

theorem weight_some {this : lda} {s : sstable} {doc w kidx : Nat} (hs : Sized this s)
    (hdoc : doc < this.data.DocNum) (hw : w < this.data.VocabSize) (hk : kidx < this.topicNum) :
    ∃ x, weight this s doc w kidx = some x := by
  obtain ⟨h1, h2, h3, h4, h5, h6⟩ := hs
  simp [weight, DenseMatrix.Get, DenseMatrix.inBounds, h1, h2, h3, h4, h5, h6, hdoc, hw, hk]

theorem fillCumsum_some (this : lda) (s : sstable) (doc w : Nat)
    (hw : ∀ kidx, kidx < this.topicNum → ∃ x, weight this s doc w kidx = some x) :
    ∃ c, fillCumsum this s doc w = some c ∧ c.length = this.topicNum := by
  unfold fillCumsum
  generalize this.topicNum = K at hw
  induction K with
  | zero => exact ⟨[], rfl, rfl⟩
  | succ n ih =>
    obtain ⟨c, hc, hlen⟩ := ih (fun kidx hk => hw kidx (Nat.lt_succ_of_lt hk))
    obtain ⟨x, hx⟩ := hw n (Nat.lt_succ_self n)
    rw [List.range_succ, List.foldlM_append, hc]
    simp only [bind, Option.some_bind, List.foldlM_cons, List.foldlM_nil, hx]
    by_cases hn : n = 0
    · exact ⟨c ++ [x], by simp [hn], by simp [hlen]⟩
    · exact ⟨c ++ [c.getD (n - 1) 0 + x], by simp [hn], by simp [hlen]⟩

theorem lastIndex_eq {K : Nat} (h1 : 1 ≤ K) (h2 : K ≤ uint32Size) :
    toUint32 (K + (uint32Size - 1)) = K - 1 := by
  unfold toUint32 uint32Size at *
  omega

theorem topicSum_some (this : lda) (phi theta : DenseMatrix ℚ) (doc w : Nat)
    (hphi : w < phi.rowNum ∧ this.topicNum ≤ phi.colNum)
    (htheta : doc < theta.rowNum ∧ this.topicNum ≤ theta.colNum) :
    ∃ x, topicSum this phi theta doc w = some x := by
  unfold topicSum
  obtain ⟨x, hx, -⟩ := foldlM_progress
    (fun (acc : ℚ) k => do
      let p ← phi.Get w k
      let t ← theta.Get doc k
      pure (acc + p * t)) (fun _ => True) (List.range this.topicNum)
    (by
      intro acc k hk _
      have hk1 : k < this.topicNum := List.mem_range.mp hk
      have h1 : k < phi.colNum := lt_of_lt_of_le hk1 hphi.2
      have h2 : k < theta.colNum := lt_of_lt_of_le hk1 htheta.2
      simp [DenseMatrix.Get, DenseMatrix.inBounds, hphi.1, htheta.1, h1, h2]) 0 trivial
  exact ⟨x, hx⟩

theorem Likelihood_some (this : lda) (env : Env) (p : Nat) (s : sstable) (hs : Sized this s)
    (hin : ∀ d ∈ env.order p, d.1 < this.data.DocNum ∧
      ∀ w ∈ ExpandWords d.2, w < this.data.VocabSize) :
    ∃ x, Likelihood this env p s = some (x, s) := by
  obtain ⟨h1, h2, h3, h4, -, -⟩ := hs
  unfold Likelihood
  rw [Phi_eq this s (le_of_eq h1.symm) (le_of_eq h2.symm)]
  simp only [bind, Option.some_bind]
  rw [Theta_eq this s (le_of_eq h3.symm) (le_of_eq h4.symm)]
  simp only [Option.some_bind]
  obtain ⟨x, hx, -⟩ := foldlM_progress
    (likelihoodDoc this env (phiTable this s this.topicNum)
      (thetaTable this s this.data.DocNum)) (fun _ => True) (env.order p)
    (by
      intro acc d hd _
      obtain ⟨hdoc, hwords⟩ := hin d hd
      unfold likelihoodDoc
      refine foldlM_progress _ (fun _ => True) (ExpandWords d.2) ?_ acc trivial
      intro acc1 w hw _
      obtain ⟨y, hy⟩ := topicSum_some this (phiTable this s this.topicNum)
        (thetaTable this s this.data.DocNum) d.1 w ⟨hwords w hw, le_refl _⟩ ⟨hdoc, le_refl _⟩
      exact ⟨addFloat64 acc1 (env.log y), by simp [hy], trivial⟩) 0 trivial
  exact ⟨x, by simp [hx]⟩

theorem order_inRange {dat : Corpus} {order : DocMap} (hin : InRange dat)
    (hperm : order.Perm dat.entries) :
    ∀ d ∈ order, d.1 < dat.DocNum ∧ ∀ w ∈ ExpandWords d.2, w < dat.VocabSize := by
  intro d hd
  obtain ⟨hdoc, hwords⟩ := hin d (hperm.mem_iff.mp hd)
  refine ⟨hdoc, ?_⟩
  intro w hw
  obtain ⟨wc, hwc, hweq⟩ := mem_ExpandWords hw
  exact hweq ▸ hwords wc hwc

/-- The conjunction of the invariants the progress argument rests on. -/
theorem exec_progress (this : lda) (env : Env) (st : RunState) (a : Action)
    (hok : DocMapOK this.data.entries) (hshort : ShortDocs this.data.entries)
    (hord : env.OrderOK this.data) (hin : InRange this.data)
    (hK1 : 1 ≤ this.topicNum) (hK2 : this.topicNum ≤ uint32Size)
    (hmem : ∀ t, a = Action.resample t → t ∈ tokensOf this.data.entries)
    (hs : Sized this st.tab) (hv : ValuesBelow this.topicNum st.tab.DocWordTopic)
    (hq : Derivable this.data.entries st.tab ∧ KeysAre this.data.entries st.tab.DocWordTopic) :
    ∃ st1, exec this env st a = some st1 := by
  cases a with
  | report iterIdx =>
    simp only [exec, logLikelihood]
    split
    · obtain ⟨x, hx⟩ := Likelihood_some this env (2 * iterIdx + 1) st.tab hs
        (order_inRange hin (hord _))
      exact ⟨_, by rw [hx]; rfl⟩
    · exact ⟨st, rfl⟩
  | resample t =>
    have ht := hmem t rfl
    obtain ⟨hdoc, hword⟩ := token_inRange hin ht
    have hpres : mapLookup st.tab.DocWordTopic (Token.key t) ≠ none :=
      (hq.2 _).mpr (List.mem_map_of_mem Token.key ht)
    obtain ⟨k0, hk0⟩ := Option.ne_none_iff_exists'.mp hpres
    have hk0K : k0 < this.topicNum := hv _ (mapLookup_mem hk0)
    have hwa := wordAt_key hok hshort ht
    obtain ⟨h1, h2, h3, h4, h5, h6⟩ := hs
    have hsd : Sized this ⟨drop st.tab.WordTopic t.2.2 k0, drop st.tab.DocTopic t.1 k0,
        drop st.tab.WordTopicSum k0 0, st.tab.DocWordTopic⟩ := ⟨h1, h2, h3, h4, h5, h6⟩
    obtain ⟨c, hc, hlen⟩ := fillCumsum_some this _ t.1 t.2.2
      (fun kidx hk => weight_some hsd hdoc hword hk)
    have hidx : toUint32 (this.topicNum + (uint32Size - 1)) < c.length := by
      rw [lastIndex_eq hK1 hK2, hlen]; omega
    obtain ⟨last, hlast⟩ : ∃ last,
        c.get? (toUint32 (this.topicNum + (uint32Size - 1))) = some last :=
      ⟨_, List.get?_eq_get hidx⟩
    have hk1K : selectTopic this.topicNum c (env.rawFloat32 env.now st.calls * last) k0
        < this.topicNum := by
      rcases selectTopic_cases this.topicNum c (env.rawFloat32 env.now st.calls * last) k0
        with h | h
      · exact h
      · rw [h]; exact hk0K
    refine ⟨_, resampleToken_eq_some.mpr ⟨k0, (mapGet_of_lookup hk0).symm, ?_, ?_, ?_, c,
      last, _, hc, hlast, rfl, ?_, ?_, ?_, rfl⟩⟩
    · exact ⟨⟨h1 ▸ hword, h2 ▸ hk0K⟩, by rw [hq.1.1]; exact entriesWordTopic_pos hk0 hwa⟩
    · exact ⟨⟨h3 ▸ hdoc, h4 ▸ hk0K⟩, by
        rw [hq.1.2.1]; exact entriesDocTopic_pos (Token.key t) hk0⟩
    · exact ⟨⟨h5 ▸ hk0K, by omega⟩, by rw [hq.1.2.2]; exact entriesTopic_pos hk0⟩
    · exact ⟨h1 ▸ hword, h2 ▸ hk1K⟩
    · exact ⟨h3 ▸ hdoc, h4 ▸ hk1K⟩
    · exact ⟨h5 ▸ hk1K, by omega⟩

theorem initPass_some (this : lda) (env : Env) (st0 : RunState) (hord : env.OrderOK this.data)
    (hin : InRange this.data) (hK1 : 1 ≤ this.topicNum) (hK2 : this.topicNum < 2147483648)
    (hs : Sized this st0.tab) : ∃ st, initPass this env st0 = some st := by
  rw [initPass_eq]
  obtain ⟨st, hst, -⟩ := foldlM_progress (fun st t => initToken this env t.1 st t.2)
    (fun st => Sized this st.tab) (tokensOf (env.order 0))
    (by
      intro st t ht hsz
      obtain ⟨hdoc, hword⟩ := token_inRange hin ((mem_order_tokens (hord 0)).mp ht)
      have hk : env.rawInt31 env.now st.calls % this.topicNum < this.topicNum :=
        Nat.mod_lt _ hK1
      obtain ⟨h1, h2, h3, h4, h5, h6⟩ := hsz
      have hex : initToken this env t.1 st t.2 = some _ :=
        initToken_eq_some.mpr ⟨_, Int31n_some _ _ hK1 hK2, ⟨h1 ▸ hword, h2 ▸ hk⟩,
          ⟨h3 ▸ hdoc, h4 ▸ hk⟩, ⟨h5 ▸ hk, by omega⟩, rfl⟩
      exact ⟨_, hex, initToken_Sized ⟨h1, h2, h3, h4, h5, h6⟩ hex⟩) st0 hs
  exact ⟨st, hst⟩

theorem RunUpTo_zero (this : lda) (env : Env) (iter : Int) (s : sstable) :
    RunUpTo this env iter 0 s = (initPass this env ⟨s, 0⟩).map RunState.tab := by
  unfold RunUpTo
  cases initPass this env ⟨s, 0⟩ with
  | none => rfl
  | some st => rfl

/-- For ids in range, `1 ≤ K < 2^31` and short documents, `Run` reaches every one of its
atomic steps without a panic. -/
theorem RunUpTo_some {dat : Corpus} {K : Nat} (alpha beta : ℚ) {env : Env} (iter : Int)
    (n : Nat) (hok : DocMapOK dat.entries) (hshort : ShortDocs dat.entries)
    (hord : env.OrderOK dat) (hin : InRange dat) (hK1 : 1 ≤ K) (hK2 : K < 2147483648) :
    ∃ s, RunUpTo (NewLDA dat K alpha beta).1 env iter n (NewLDA dat K alpha beta).2 = some s := by
  obtain ⟨st, hst⟩ := initPass_some (NewLDA dat K alpha beta).1 env
    ⟨(NewLDA dat K alpha beta).2, 0⟩ hord hin hK1 hK2 (NewLDA_Sized dat K alpha beta)
  have h0 : RunUpTo (NewLDA dat K alpha beta).1 env iter 0 (NewLDA dat K alpha beta).2
      = some st.tab := by
    rw [RunUpTo_zero, hst]; rfl
  have hbasic := RunUpTo_basic h0
  have hstrong := RunUpTo_strong hok hshort hord h0
  obtain ⟨st1, hst1, -⟩ := foldlM_progress (exec (NewLDA dat K alpha beta).1 env)
    (fun st => (Sized (NewLDA dat K alpha beta).1 st.tab ∧
      ValuesBelow K st.tab.DocWordTopic) ∧
      (Derivable dat.entries st.tab ∧ KeysAre dat.entries st.tab.DocWordTopic))
    ((runActions env iter).take n)
    (by
      intro st2 a ha hP
      have hmem : ∀ t, a = Action.resample t → t ∈ tokensOf dat.entries := by
        intro t hat
        subst hat
        obtain ⟨p, hp⟩ := mem_runActions (List.mem_of_mem_take ha)
        exact (mem_order_tokens (hord p)).mp hp
      obtain ⟨st3, hst3⟩ := exec_progress (NewLDA dat K alpha beta).1 env st2 a
        hok hshort hord hin hK1
        (by unfold uint32Size; exact le_of_lt (lt_trans hK2 (by norm_num))) hmem hP.1.1 hP.1.2
        hP.2
      exact ⟨st3, hst3, ⟨exec_Sized hP.1.1 hst3, exec_ValuesBelow hP.1.1 hP.1.2 hst3⟩,
        exec_strong hok hshort hmem hP.2 hst3⟩) st ⟨⟨hbasic.1, hbasic.2.2⟩, hstrong⟩
  refine ⟨st1.tab, ?_⟩
  unfold RunUpTo
  rw [hst]
  simp only [Option.some_bind, hst1, Option.map_some']

theorem Run_some {dat : Corpus} {K : Nat} (alpha beta : ℚ) {env : Env} (iter : Int)
    (hok : DocMapOK dat.entries) (hshort : ShortDocs dat.entries)
    (hord : env.OrderOK dat) (hin : InRange dat) (hK1 : 1 ≤ K) (hK2 : K < 2147483648) :
    ∃ s, Run (NewLDA dat K alpha beta).1 env iter (NewLDA dat K alpha beta).2 = some s := by
  rw [Run_eq_RunUpTo]
  exact RunUpTo_some alpha beta iter _ hok hshort hord hin hK1 hK2

/-! ## Size of the assignment table -/

theorem mem_mapSet {m : TopicMap} {dw : DocWord} {k : Nat} {e : DocWord × Nat}
    (h : e ∈ mapSet m dw k) : e = (dw, k) ∨ e ∈ m := by
  induction m with
  | nil =>
    simp only [mapSet, List.mem_singleton] at h
    exact Or.inl h
  | cons a m ih =>
    obtain ⟨key, v⟩ := a
    unfold mapSet at h
    split at h
    · rcases List.mem_cons.mp h with h1 | h1
      · exact Or.inl h1
      · exact Or.inr (List.mem_cons_of_mem _ h1)
    · rcases List.mem_cons.mp h with h1 | h1
      · exact Or.inr (h1 ▸ List.mem_cons_self _ _)
      · rcases ih h1 with h2 | h2
        · exact Or.inl h2
        · exact Or.inr (List.mem_cons_of_mem _ h2)

theorem mapSet_keys_nodup {m : TopicMap} (dw : DocWord) (k : Nat)
    (h : (m.map Prod.fst).Nodup) : ((mapSet m dw k).map Prod.fst).Nodup := by
  induction m with
  | nil => simp [mapSet]
  | cons a m ih =>
    obtain ⟨key, v⟩ := a
    simp only [List.map_cons, List.nodup_cons] at h
    unfold mapSet
    split
    · rename_i hk
      subst hk
      simp only [List.map_cons, List.nodup_cons]
      exact h
    · rename_i hk
      simp only [List.map_cons, List.nodup_cons]
      refine ⟨?_, ih h.2⟩
      intro hmem
      obtain ⟨e, he, hkey⟩ := List.mem_map.mp hmem
      rcases mem_mapSet he with h1 | h1
      · subst h1
        exact hk hkey.symm
      · exact h.1 (hkey ▸ List.mem_map_of_mem Prod.fst h1)

theorem initPass_KeysTidy (this : lda) (env : Env) (st0 : RunState) {st : RunState}
    (h0 : KeysTidy ((env.order 0).map Prod.fst) st0.tab.DocWordTopic)
    (h : initPass this env st0 = some st) :
    KeysTidy ((env.order 0).map Prod.fst) st.tab.DocWordTopic := by
  rw [initPass_eq] at h
  refine foldlM_preserves _
    (fun st => KeysTidy ((env.order 0).map Prod.fst) st.tab.DocWordTopic) _ ?_ st0 st h0 h
  intro st1 t st2 ht hq he
  obtain ⟨k, -, -, -, -, rfl⟩ := initToken_eq_some.mp he
  refine ⟨mapSet_keys_nodup _ _ hq.1, ?_⟩
  intro e hmem
  rcases mem_mapSet hmem with h1 | h1
  · subst h1
    obtain ⟨d, hd, hd1, -⟩ := mem_tokensOf.mp ht
    exact ⟨hd1 ▸ List.mem_map_of_mem Prod.fst hd, Nat.mod_lt _ (by decide)⟩
  · exact hq.2 e h1

theorem nodup_bounded_length {l : List Nat} {N : Nat} (hnd : l.Nodup) (hb : ∀ x ∈ l, x < N) :
    l.length ≤ N := by
  have hsub : l.toFinset ⊆ Finset.range N := by
    intro x hx
    exact Finset.mem_range.mpr (hb x (List.mem_toFinset.mp hx))
  have := Finset.card_le_card hsub
  rwa [List.toFinset_card_of_nodup hnd, Finset.card_range] at this

/-- An assignment table all of whose keys belong to one document has at most `2^32` entries. -/
theorem KeysTidy_length {d0 : Nat} {m : TopicMap} (h : KeysTidy [d0] m) :
    m.length ≤ uint32Size := by
  have hnd : (m.map (fun e => e.1.WordIdx)).Nodup := by
    have : m.map (fun e => e.1.WordIdx) = (m.map Prod.fst).map DocWord.WordIdx := by
      rw [List.map_map]; rfl
    rw [this]
    refine List.Nodup.map_on ?_ h.1
    intro x hx y hy hxy
    obtain ⟨e1, he1, rfl⟩ := List.mem_map.mp hx
    obtain ⟨e2, he2, rfl⟩ := List.mem_map.mp hy
    have hd1 : e1.1.DocId = d0 := List.mem_singleton.mp (h.2 e1 he1).1
    have hd2 : e2.1.DocId = d0 := List.mem_singleton.mp (h.2 e2 he2).1
    cases hx1 : e1.1
    cases hx2 : e2.1
    simp only [hx1, hx2] at hd1 hd2 hxy
    rw [hd1, hd2, hxy]
  have := nodup_bounded_length hnd (by
    intro x hx
    obtain ⟨e, he, rfl⟩ := List.mem_map.mp hx
    exact (h.2 e he).2)
  simpa using this

/-! ## Facts about the long corpus -/

theorem long_ok : DocMapOK longCorpus.entries := by
  simp [DocMapOK, longCorpus, Corpus.entries]

theorem long_order : longEnv.OrderOK longCorpus := fun _ => List.Perm.refl _

theorem long_inRange : InRange longCorpus := by
  simp [InRange, longCorpus, Corpus.entries]

theorem long_length : (ExpandWords (docsGet longCorpus.entries 0)).length = 4294967297 := by
  have h : docsGet longCorpus.entries 0 = [⟨0, 4294967295⟩, ⟨0, 2⟩] := rfl
  rw [h, ExpandWords_length]
  rfl

/-! ## Rounding to `float64` -/

theorem log2Aux_eq (fuel n : Nat) (h : n ≤ fuel) : log2Aux fuel n = Nat.log 2 n := by
  induction fuel generalizing n with
  | zero =>
    have : n = 0 := by omega
    subst this
    simp [log2Aux]
  | succ fuel ih =>
    unfold log2Aux
    split
    · rename_i hlt
      exact (Nat.log_of_lt hlt).symm
    · rename_i hlt
      rw [ih (n / 2) (by omega)]
      exact (Nat.log_of_one_lt_of_le (by decide) (by omega)).symm

/-- The function `floorLog2` is the floor of the binary logarithm. -/
theorem floorLog2_eq (n : Nat) : floorLog2 n = Nat.log 2 n := log2Aux_eq n n (le_refl n)

/-- The result of `roundHalfEven` is within one half of the quotient. -/
theorem roundHalfEven_near (n d : Nat) (hd : 0 < d) :
    2 * n ≤ (2 * roundHalfEven n d + 1) * d ∧ 2 * roundHalfEven n d * d ≤ 2 * n + d := by
  have hn := Nat.div_add_mod n d
  have hr := Nat.mod_lt n hd
  unfold roundHalfEven
  generalize n / d = q at *
  generalize n % d = r at *
  subst hn
  split_ifs <;> constructor <;> nlinarith

/-- The power `2^k` of an integer exponent as a quotient of two natural powers. -/
theorem zpow_two_split (k : Int) : (2 : ℚ) ^ k = (2 ^ k.toNat : Nat) / (2 ^ (-k).toNat : Nat) := by
  rcases Int.le_total 0 k with h | h
  · obtain ⟨j, rfl⟩ := Int.eq_ofNat_of_zero_le h
    simp
  · obtain ⟨j, hj⟩ := Int.eq_ofNat_of_zero_le (neg_nonneg.mpr h)
    have : k = -(j : Int) := by omega
    subst this
    simp

/-- The test `ulpExp` makes on the candidate exponent, read in the rationals. -/
theorem pow_test_iff (n d : Nat) (hd : 0 < d) (k : Int) :
    d * 2 ^ k.toNat ≤ n * 2 ^ (-k).toNat ↔ (2 : ℚ) ^ k ≤ (n : ℚ) / d := by
  have hd1 : (0 : ℚ) < d := by exact_mod_cast hd
  have hA : (0 : ℚ) < ((2 ^ (-k).toNat : Nat) : ℚ) := by positivity
  rw [zpow_two_split, div_le_div_iff₀ hA hd1]
  constructor
  · intro h
    have : ((d * 2 ^ k.toNat : Nat) : ℚ) ≤ ((n * 2 ^ (-k).toNat : Nat) : ℚ) := by exact_mod_cast h
    push_cast at this ⊢
    linarith
  · intro h
    have : ((d * 2 ^ k.toNat : Nat) : ℚ) ≤ ((n * 2 ^ (-k).toNat : Nat) : ℚ) := by
      push_cast at h ⊢
      linarith
    exact_mod_cast this


/-- The exponent `ulpExp` is 52 below the binary exponent of `n / d`, and at least `-1074`. -/
theorem ulpExp_eq (n d : Nat) (hn : 0 < n) (hd : 0 < d) :
    ulpExp n d = max (Int.log 2 ((n : ℚ) / d) - 52) (-1074) := by
  have hd1 : (0 : ℚ) < d := by exact_mod_cast hd
  have hn1 : (0 : ℚ) < n := by exact_mod_cast hn
  have hq : (0 : ℚ) < (n : ℚ) / d := div_pos hn1 hd1
  have ha1 : ((2 ^ Nat.log 2 n : Nat) : ℚ) ≤ n := by
    exact_mod_cast Nat.pow_log_le_self 2 (by omega)
  have ha2 : (n : ℚ) < ((2 ^ (Nat.log 2 n + 1) : Nat) : ℚ) := by
    exact_mod_cast Nat.lt_pow_succ_log_self (by decide) n
  have hb1 : ((2 ^ Nat.log 2 d : Nat) : ℚ) ≤ d := by
    exact_mod_cast Nat.pow_log_le_self 2 (by omega)
  have hb2 : (d : ℚ) < ((2 ^ (Nat.log 2 d + 1) : Nat) : ℚ) := by
    exact_mod_cast Nat.lt_pow_succ_log_self (by decide) d
  push_cast at ha1 ha2 hb1 hb2
  have key : ∀ e : Int, (2 : ℚ) ^ e ≤ (n : ℚ) / d → (n : ℚ) / d < (2 : ℚ) ^ (e + 1) →
      Int.log 2 ((n : ℚ) / d) = e := by
    intro e h1 h2
    have hle := (Int.zpow_le_iff_le_log (b := 2) (by decide) hq).mp (by exact_mod_cast h1)
    have hlt := (Int.lt_zpow_iff_log_lt (b := 2) (by decide) hq).mp (by exact_mod_cast h2)
    exact le_antisymm (Int.lt_add_one_iff.mp hlt) hle
  have hup : (n : ℚ) / d < (2 : ℚ) ^ ((Nat.log 2 n : Int) - (Nat.log 2 d : Int) + 1) := by
    rw [div_lt_iff₀ hd1]
    have h2 : (2 : ℚ) ^ ((Nat.log 2 n : Int) - (Nat.log 2 d : Int) + 1) * (2 : ℚ) ^ Nat.log 2 d
        = (2 : ℚ) ^ (Nat.log 2 n + 1) := by
      rw [← zpow_natCast, ← zpow_natCast, ← zpow_add₀ (by norm_num)]
      congr 1
      push_cast
      ring
    calc (n : ℚ) < (2 : ℚ) ^ (Nat.log 2 n + 1) := ha2
      _ = (2 : ℚ) ^ ((Nat.log 2 n : Int) - (Nat.log 2 d : Int) + 1) * (2 : ℚ) ^ Nat.log 2 d :=
          h2.symm
      _ ≤ (2 : ℚ) ^ ((Nat.log 2 n : Int) - (Nat.log 2 d : Int) + 1) * d :=
          mul_le_mul_of_nonneg_left hb1 (by positivity)
  have hlow : (2 : ℚ) ^ ((Nat.log 2 n : Int) - (Nat.log 2 d : Int) - 1) ≤ (n : ℚ) / d := by
    rw [le_div_iff₀ hd1]
    have h2 : (2 : ℚ) ^ ((Nat.log 2 n : Int) - (Nat.log 2 d : Int) - 1)
        * (2 : ℚ) ^ (Nat.log 2 d + 1) = (2 : ℚ) ^ Nat.log 2 n := by
      rw [← zpow_natCast, ← zpow_natCast, ← zpow_add₀ (by norm_num)]
      congr 1
      push_cast
      ring
    calc (2 : ℚ) ^ ((Nat.log 2 n : Int) - (Nat.log 2 d : Int) - 1) * d
        ≤ (2 : ℚ) ^ ((Nat.log 2 n : Int) - (Nat.log 2 d : Int) - 1)
            * (2 : ℚ) ^ (Nat.log 2 d + 1) :=
          mul_le_mul_of_nonneg_left hb2.le (by positivity)
      _ = (2 : ℚ) ^ Nat.log 2 n := h2
      _ ≤ n := ha1
  unfold ulpExp
  simp only [floorLog2_eq]
  split
  · rename_i ht
    rw [key _ ((pow_test_iff n d hd _).mp ht) hup]
  · rename_i ht
    have hlt : (n : ℚ) / d < (2 : ℚ) ^ ((Nat.log 2 n : Int) - (Nat.log 2 d : Int)) :=
      lt_of_not_le (fun h => ht ((pow_test_iff n d hd _).mpr h))
    rw [key _ hlow (by rwa [sub_add_cancel])]

/-- The value `roundFloat64 x` is a multiple of `2^u`, for `u` the exponent `ulpExp` of `x`,
and no further than half of `2^u` from `x`. -/
theorem roundFloat64_near (x : ℚ) :
    (∃ m : Int, roundFloat64 x = m * (2 : ℚ) ^ ulpExp x.num.natAbs x.den) ∧
    |roundFloat64 x - x| ≤ (2 : ℚ) ^ ulpExp x.num.natAbs x.den / 2 := by
  have hA : 0 < 2 ^ (-ulpExp x.num.natAbs x.den).toNat := by positivity
  have hB : 0 < 2 ^ (ulpExp x.num.natAbs x.den).toNat := by positivity
  have hd : 0 < x.den := x.den_pos
  obtain ⟨h1, h2⟩ := roundHalfEven_near
    (x.num.natAbs * 2 ^ (-ulpExp x.num.natAbs x.den).toNat)
    (x.den * 2 ^ (ulpExp x.num.natAbs x.den).toNat) (Nat.mul_pos hd hB)
  have hval : roundFloat64 x
      = ((x.num.sign * (roundHalfEven (x.num.natAbs * 2 ^ (-ulpExp x.num.natAbs x.den).toNat)
          (x.den * 2 ^ (ulpExp x.num.natAbs x.den).toNat) : Nat) : Int) : ℚ)
        * (2 : ℚ) ^ ulpExp x.num.natAbs x.den := by
    unfold roundFloat64
    simp only []
    rw [Rat.mkRat_eq_div, zpow_two_split (ulpExp x.num.natAbs x.den)]
    push_cast
    ring
  refine ⟨⟨_, hval⟩, ?_⟩
  have hx : x = (x.num.sign : ℚ) * ((x.num.natAbs : ℚ) / x.den) := by
    have h := Int.sign_mul_natAbs x.num
    have h3 : (x.num.sign : ℚ) * (x.num.natAbs : ℚ) = (x.num : ℚ) := by
      rw [← Int.cast_natCast (R := ℚ) x.num.natAbs, ← Int.cast_mul, h]
    rw [← mul_div_assoc, h3]
    exact (Rat.num_div_den x).symm
  generalize hm : roundHalfEven (x.num.natAbs * 2 ^ (-ulpExp x.num.natAbs x.den).toNat)
    (x.den * 2 ^ (ulpExp x.num.natAbs x.den).toNat) = m at h1 h2 hval
  generalize hu : ulpExp x.num.natAbs x.den = u at *
  have hsplit := zpow_two_split u
  have hA1 : (0 : ℚ) < ((2 ^ (-u).toNat : Nat) : ℚ) := by exact_mod_cast hA
  have hB1 : (0 : ℚ) < ((2 ^ u.toNat : Nat) : ℚ) := by exact_mod_cast hB
  have hd1 : (0 : ℚ) < x.den := by exact_mod_cast hd
  have h1q : (2 : ℚ) * (x.num.natAbs * (2 ^ (-u).toNat : Nat))
      ≤ (2 * m + 1) * (x.den * (2 ^ u.toNat : Nat)) := by exact_mod_cast h1
  have h2q : (2 : ℚ) * m * (x.den * (2 ^ u.toNat : Nat))
      ≤ 2 * (x.num.natAbs * (2 ^ (-u).toNat : Nat)) + x.den * (2 ^ u.toNat : Nat) := by
    exact_mod_cast h2
  have hcore : |(m : ℚ) * (2 : ℚ) ^ u - (x.num.natAbs : ℚ) / x.den| ≤ (2 : ℚ) ^ u / 2 := by
    rw [hsplit, abs_le]
    constructor
    · rw [← sub_nonneg]
      have : ((m : ℚ) * (((2 ^ u.toNat : Nat) : ℚ) / ((2 ^ (-u).toNat : Nat) : ℚ))
          - (x.num.natAbs : ℚ) / x.den - -(((2 ^ u.toNat : Nat) : ℚ)
            / ((2 ^ (-u).toNat : Nat) : ℚ) / 2))
          = ((2 * m + 1) * (x.den * ((2 ^ u.toNat : Nat) : ℚ))
              - 2 * (x.num.natAbs * ((2 ^ (-u).toNat : Nat) : ℚ)))
            / (2 * ((2 ^ (-u).toNat : Nat) : ℚ) * x.den) := by
        field_simp
        ring
      rw [this]
      apply div_nonneg _ (by positivity)
      linarith
    · rw [← sub_nonneg]
      have : (((2 ^ u.toNat : Nat) : ℚ) / ((2 ^ (-u).toNat : Nat) : ℚ) / 2
          - ((m : ℚ) * (((2 ^ u.toNat : Nat) : ℚ) / ((2 ^ (-u).toNat : Nat) : ℚ))
            - (x.num.natAbs : ℚ) / x.den))
          = (2 * (x.num.natAbs * ((2 ^ (-u).toNat : Nat) : ℚ))
              + x.den * ((2 ^ u.toNat : Nat) : ℚ)
              - 2 * m * (x.den * ((2 ^ u.toNat : Nat) : ℚ)))
            / (2 * ((2 ^ (-u).toNat : Nat) : ℚ) * x.den) := by
        field_simp
        ring
      rw [this]
      apply div_nonneg _ (by positivity)
      linarith
  have hs : |(x.num.sign : ℚ)| ≤ 1 := by
    rcases lt_trichotomy x.num 0 with h | h | h
    · rw [Int.sign_eq_neg_one_of_neg h]; norm_num
    · rw [h]; norm_num
    · rw [Int.sign_eq_one_of_pos h]; norm_num
  have hdiff : roundFloat64 x - x
      = (x.num.sign : ℚ) * ((m : ℚ) * (2 : ℚ) ^ u - (x.num.natAbs : ℚ) / x.den) := by
    have e1 : roundFloat64 x - x = ((x.num.sign * (m : Int) : Int) : ℚ) * (2 : ℚ) ^ u
        - (x.num.sign : ℚ) * ((x.num.natAbs : ℚ) / x.den) := by
      rw [hval, ← hx]
    rw [e1]
    push_cast
    ring
  rw [hdiff, abs_mul]
  calc |(x.num.sign : ℚ)| * |(m : ℚ) * (2 : ℚ) ^ u - (x.num.natAbs : ℚ) / x.den|
      ≤ 1 * |(m : ℚ) * (2 : ℚ) ^ u - (x.num.natAbs : ℚ) / x.den| :=
        mul_le_mul_of_nonneg_right hs (abs_nonneg _)
    _ = |(m : ℚ) * (2 : ℚ) ^ u - (x.num.natAbs : ℚ) / x.den| := one_mul _
    _ ≤ (2 : ℚ) ^ u / 2 := hcore

/-- Sample values of the rounding: exact on values a `float64` holds, to the nearest
neighbour on `1/3` and `1/10`, to the even neighbour on the ties `2^53 + 1` and `2^53 + 3`,
and to a multiple of `2^-1074` below the normal range. -/
theorem roundFloat64_samples :
    roundFloat64 0 = 0 ∧ roundFloat64 (3 / 8) = 3 / 8 ∧ roundFloat64 (-5) = -5 ∧
    roundFloat64 (1 / 3) = 6004799503160661 / 18014398509481984 ∧
    roundFloat64 (1 / 10) = 3602879701896397 / 36028797018963968 ∧
    roundFloat64 (-1 / 10) = -3602879701896397 / 36028797018963968 ∧
    roundFloat64 9007199254740993 = 9007199254740992 ∧
    roundFloat64 9007199254740995 = 9007199254740996 ∧
    roundFloat64 (3 / 2 ^ 1075) = 2 / 2 ^ 1074 ∧ roundFloat64 (1 / 2 ^ 1075) = 0 := by
  decide!

theorem addFloat64_comm (a b : ℚ) : addFloat64 a b = addFloat64 b a := by
  unfold addFloat64
  rw [add_comm]

/-! ## Order of the documents in `Likelihood` -/

theorem order_run_some :
    (Run (NewLDA orderCorpus 1 1 1).1 orderEnv 0 (NewLDA orderCorpus 1 1 1).2).isSome = true := by
  rfl

/-- The tables `Run(0)` leaves for `orderCorpus` give `Phi = [1/4, 1/2, 1/8, 1/8]`. -/
theorem order_phi :
    (Run (NewLDA orderCorpus 1 1 1).1 orderEnv 0 (NewLDA orderCorpus 1 1 1).2).bind
      (fun s => (Phi (NewLDA orderCorpus 1 1 1).1 s).map (fun r => r.1.toLists))
      = some [[1 / 4], [1 / 2], [1 / 8], [1 / 8]] := by
  decide!

/-- Document 0 first: `(((0 + log 0.25) + log 0.5) + log 0.5) + log 0.5` in `float64`. -/
theorem order_first :
    (Run (NewLDA orderCorpus 1 1 1).1 orderEnv 0 (NewLDA orderCorpus 1 1 1).2).bind
      (fun s => (Likelihood (NewLDA orderCorpus 1 1 1).1 orderEnv 1 s).map Prod.fst)
      = some (-7804143460206699 / 2251799813685248) := by
  decide!

/-- Document 1 first: `(((0 + log 0.5) + log 0.5) + log 0.5) + log 0.25` in `float64`. -/
theorem order_second :
    (Run (NewLDA orderCorpus 1 1 1).1 orderEnv 0 (NewLDA orderCorpus 1 1 1).2).bind
      (fun s => (Likelihood (NewLDA orderCorpus 1 1 1).1 orderEnv 2 s).map Prod.fst)
      = some (-3902071730103349 / 1125899906842624) := by
  decide!

theorem order_ne : (-7804143460206699 / 2251799813685248 : ℚ)
    ≠ -3902071730103349 / 1125899906842624 := by
  decide!

/-- Two `range` loops that visit the documents in the same order give `Likelihood` the same
value. -/
theorem Likelihood_same_order (this : lda) (env : Env) (p q : Nat) (s : sstable)
    (h : env.order p = env.order q) : Likelihood this env p s = Likelihood this env q s := by
  unfold Likelihood
  rw [h]

/-- A map of at most one entry has one iteration order. -/
theorem perm_short_eq {α : Type} {l1 l2 : List α} (h : l1.Perm l2) (hlen : l2.length ≤ 1) :
    l1 = l2 := by
  match l2, hlen, h with
  | [], _, h => exact h.eq_nil
  | [a], _, h => exact List.perm_singleton.mp h
  | _ :: _ :: _, hlen, _ => simp at hlen

/-! ## Facts about the sample corpus -/

theorem sample_ok : DocMapOK sampleCorpus.entries := by
  simp [DocMapOK, sampleCorpus, Corpus.entries]

theorem sample_short : ShortDocs sampleCorpus.entries := by
  simp [ShortDocs, sampleCorpus, Corpus.entries, ExpandWords, appendCopies, uint32Size]

theorem sample_order : sampleEnv.OrderOK sampleCorpus := fun _ => List.Perm.refl _

theorem sample_inRange : InRange sampleCorpus := by
  simp [InRange, sampleCorpus, Corpus.entries]

/-! ## The claims -/

/-- C1. Topic totals are consistent: for a model freshly built by `NewLDA`, whatever the draws
and the traversal orders, after the initialisation pass and after every atomic step of `Run`
(hence after every completed sweep) each topic `k < K` satisfies
`sum_v WordTopic[v,k] = WordTopicSum[k,0] = sum_d DocTopic[d,k]`; and for ids in range,
`1 ≤ K < 2^31` and documents of at most `2^32` tokens `Run` does complete, in such a state. -/
theorem topic_totals_consistent (dat : Corpus) (K : Nat) (alpha beta : ℚ) (env : Env)
    (iter : Int) :
    (∀ n s, RunUpTo (NewLDA dat K alpha beta).1 env iter n (NewLDA dat K alpha beta).2 = some s →
      ∀ k, k < K →
        ∑ v ∈ Finset.range dat.VocabSize, s.WordTopic.cell v k = s.WordTopicSum.cell k 0 ∧
        s.WordTopicSum.cell k 0 = ∑ d ∈ Finset.range dat.DocNum, s.DocTopic.cell d k) ∧
    (DocMapOK dat.entries → ShortDocs dat.entries → env.OrderOK dat → InRange dat →
      1 ≤ K → K < 2147483648 →
      ∃ s, Run (NewLDA dat K alpha beta).1 env iter (NewLDA dat K alpha beta).2 = some s ∧
        ∀ k, k < K →
          ∑ v ∈ Finset.range dat.VocabSize, s.WordTopic.cell v k = s.WordTopicSum.cell k 0 ∧
          s.WordTopicSum.cell k 0 = ∑ d ∈ Finset.range dat.DocNum, s.DocTopic.cell d k) := by
  have hA : ∀ n s,
      RunUpTo (NewLDA dat K alpha beta).1 env iter n (NewLDA dat K alpha beta).2 = some s →
      ∀ k, k < K →
        ∑ v ∈ Finset.range dat.VocabSize, s.WordTopic.cell v k = s.WordTopicSum.cell k 0 ∧
        s.WordTopicSum.cell k 0 = ∑ d ∈ Finset.range dat.DocNum, s.DocTopic.cell d k := by
    intro n s h k _
    obtain ⟨hsz, htot, -⟩ := RunUpTo_basic h
    have := htot k
    unfold colSum at this
    rw [hsz.1, hsz.2.2.1] at this
    exact this
  refine ⟨hA, ?_⟩
  intro hok hshort hord hin hK1 hK2
  obtain ⟨s, hs⟩ := Run_some alpha beta iter hok hshort hord hin hK1 hK2
  exact ⟨s, hs, hA _ s (Run_eq_RunUpTo _ env iter _ ▸ hs)⟩

/-- C1, instantiated: three sweeps over the sample corpus with two topics. -/
theorem topic_totals_consistent_witness :
    ∃ s, Run (NewLDA sampleCorpus 2 1 1).1 sampleEnv 3 (NewLDA sampleCorpus 2 1 1).2 = some s ∧
      ∑ v ∈ Finset.range 3, s.WordTopic.cell v 1 = s.WordTopicSum.cell 1 0 ∧
      s.WordTopicSum.cell 1 0 = ∑ d ∈ Finset.range 2, s.DocTopic.cell d 1 := by
  obtain ⟨s, hs, h⟩ := (topic_totals_consistent sampleCorpus 2 1 1 sampleEnv 3).2
    sample_ok sample_short sample_order sample_inRange (by decide) (by decide)
  exact ⟨s, hs, h 1 (by decide)⟩

/-- C2. Per-document token conservation: for a model freshly built by `NewLDA` over a corpus
(a map, each `range` loop visiting every document once), whatever the draws, after the
initialisation pass and after every per-token resample step, for every document `d` the sum
over `k < K` of `DocTopic[d,k]` is the length of `ExpandWords(Docs[d])`; and for ids in range,
`1 ≤ K < 2^31` and documents of at most `2^32` tokens every such step is reached. -/
theorem doc_token_conservation (dat : Corpus) (K : Nat) (alpha beta : ℚ) (env : Env)
    (iter : Int) (hok : DocMapOK dat.entries) (hord : env.OrderOK dat) :
    (∀ n s, RunUpTo (NewLDA dat K alpha beta).1 env iter n (NewLDA dat K alpha beta).2 = some s →
      ∀ d, ∑ k ∈ Finset.range K, s.DocTopic.cell d k
        = (ExpandWords (docsGet dat.entries d)).length) ∧
    (ShortDocs dat.entries → InRange dat → 1 ≤ K → K < 2147483648 →
      ∀ n, ∃ s,
        RunUpTo (NewLDA dat K alpha beta).1 env iter n (NewLDA dat K alpha beta).2 = some s) := by
  constructor
  · intro n s h d
    obtain ⟨hsz, -, -⟩ := RunUpTo_basic h
    have := RunUpTo_rowSum hok hord h d
    unfold rowSum at this
    rw [hsz.2.2.2.1] at this
    exact this
  · intro hshort hin hK1 hK2 n
    exact RunUpTo_some alpha beta iter n hok hshort hord hin hK1 hK2

/-- C2, instantiated: document 0 of the sample corpus has three tokens. -/
theorem doc_token_conservation_witness :
    ∃ s, RunUpTo (NewLDA sampleCorpus 2 1 1).1 sampleEnv 3 5 (NewLDA sampleCorpus 2 1 1).2
        = some s ∧
      ∑ k ∈ Finset.range 2, s.DocTopic.cell 0 k = 3 := by
  obtain ⟨hA, hB⟩ := doc_token_conservation sampleCorpus 2 1 1 sampleEnv 3 sample_ok sample_order
  obtain ⟨s, hs⟩ := hB sample_short sample_inRange (by decide) (by decide) 5
  exact ⟨s, hs, by rw [hA 5 s hs 0]; decide⟩

/-- C4. Assignment range: for every `K`, corpus, sequence of draws (a draw `u` that crosses no
threshold leaves the topic as it was) and number of iterations, every topic stored in
`DocWordTopic` after the initialisation pass and after every resample step is below `K`; and
for ids in range, `1 ≤ K < 2^31` and documents of at most `2^32` tokens every such step is
reached. -/
theorem assignment_range (dat : Corpus) (K : Nat) (alpha beta : ℚ) (env : Env) (iter : Int) :
    (∀ n s, RunUpTo (NewLDA dat K alpha beta).1 env iter n (NewLDA dat K alpha beta).2 = some s →
      ∀ e ∈ s.DocWordTopic, e.2 < K) ∧
    (∀ cumsum u k, (∀ kidx, kidx < K → ¬ u < cumsum.getD kidx 0) →
      selectTopic K cumsum u k = k) ∧
    (DocMapOK dat.entries → ShortDocs dat.entries → env.OrderOK dat → InRange dat →
      1 ≤ K → K < 2147483648 → ∀ n, ∃ s,
        RunUpTo (NewLDA dat K alpha beta).1 env iter n (NewLDA dat K alpha beta).2 = some s) := by
  refine ⟨?_, ?_, ?_⟩
  · intro n s h
    exact (RunUpTo_basic h).2.2
  · intro cumsum u k hno
    unfold selectTopic
    have : (List.range K).find? (fun kidx => decide (u < cumsum.getD kidx 0)) = none := by
      rw [List.find?_eq_none]
      intro kidx hk
      simpa using hno kidx (List.mem_range.mp hk)
    rw [this]
    rfl
  · intro hok hshort hord hin hK1 hK2 n
    exact RunUpTo_some alpha beta iter n hok hshort hord hin hK1 hK2

/-- C4, instantiated: after seven atomic steps over the sample corpus all topics are 0 or 1. -/
theorem assignment_range_witness :
    ∃ s, RunUpTo (NewLDA sampleCorpus 2 1 1).1 sampleEnv 3 7 (NewLDA sampleCorpus 2 1 1).2
        = some s ∧
      s.DocWordTopic.all (fun e => decide (e.2 < 2)) = true := by
  obtain ⟨hA, -, hB⟩ := assignment_range sampleCorpus 2 1 1 sampleEnv 3
  obtain ⟨s, hs⟩ := hB sample_ok sample_short sample_order sample_inRange (by decide)
    (by decide) 7
  refine ⟨s, hs, ?_⟩
  rw [List.all_eq_true]
  intro e he
  simpa using hA 7 s hs e he

/-- The column sums of a smoothed, normalised count table are 1. -/
theorem sum_smoothed_eq_one (f : Nat → Nat) (n : Nat) (c : ℚ) (hn : 1 ≤ n) (hc : 0 < c) :
    ∑ i ∈ Finset.range n,
      ((f i : ℚ) + c) / (((∑ j ∈ Finset.range n, f j : Nat) : ℚ) + (n : ℚ) * c) = 1 := by
  have hn0 : (0 : ℚ) < (n : ℚ) := by exact_mod_cast hn
  have hsum0 : (0 : ℚ) ≤ ((∑ j ∈ Finset.range n, f j : Nat) : ℚ) := Nat.cast_nonneg _
  have hden : ((∑ j ∈ Finset.range n, f j : Nat) : ℚ) + (n : ℚ) * c ≠ 0 := by
    have : 0 < (n : ℚ) * c := mul_pos hn0 hc
    linarith
  rw [← Finset.sum_div, Finset.sum_add_distrib, Finset.sum_const, Finset.card_range,
    nsmul_eq_mul, ← Nat.cast_sum]
  exact div_self hden

/-- What `Phi` returns on a table of the size the model expects. -/
theorem phi_table_facts (this : lda) (s : sstable) (hV : 1 ≤ this.data.VocabSize)
    (hbeta : 0 < this.beta) (hrows : s.WordTopic.rowNum = this.data.VocabSize)
    (hcols : s.WordTopic.colNum = this.topicNum) :
    ∃ phi, Phi this s = some (phi, s) ∧
      phi.rowNum = this.data.VocabSize ∧ phi.colNum = this.topicNum ∧
      (∀ v k, v < this.data.VocabSize → k < this.topicNum →
        phi.cell v k = ((s.WordTopic.cell v k : ℚ) + this.beta) /
          (((∑ v1 ∈ Finset.range this.data.VocabSize, s.WordTopic.cell v1 k : Nat) : ℚ)
            + (this.data.VocabSize : ℚ) * this.beta)) ∧
      ∀ k, k < this.topicNum → ∑ v ∈ Finset.range this.data.VocabSize, phi.cell v k = 1 := by
  refine ⟨phiTable this s this.topicNum,
    Phi_eq this s (le_of_eq hrows.symm) (le_of_eq hcols.symm), rfl, rfl, ?_, ?_⟩
  · intro v k hv hk
    simp only [phiTable, hv, hk, and_self, if_true, colSum, hrows]
  · intro k hk
    have hcell : ∀ v ∈ Finset.range this.data.VocabSize,
        (phiTable this s this.topicNum).cell v k
          = ((s.WordTopic.cell v k : ℚ) + this.beta) /
            (((∑ v1 ∈ Finset.range this.data.VocabSize, s.WordTopic.cell v1 k : Nat) : ℚ)
              + (this.data.VocabSize : ℚ) * this.beta) := by
      intro v hv
      simp only [phiTable, Finset.mem_range.mp hv, hk, and_self, if_true, colSum, hrows]
    rw [Finset.sum_congr rfl hcell]
    exact sum_smoothed_eq_one (fun v => s.WordTopic.cell v k) _ _ hV hbeta

/-- What `Theta` returns on a table of the size the model expects. -/
theorem theta_table_facts (this : lda) (s : sstable) (hK : 1 ≤ this.topicNum)
    (halpha : 0 < this.alpha) (hrows : s.DocTopic.rowNum = this.data.DocNum)
    (hcols : s.DocTopic.colNum = this.topicNum) :
    ∃ theta, Theta this s = some (theta, s) ∧
      theta.rowNum = this.data.DocNum ∧ theta.colNum = this.topicNum ∧
      (∀ d k, d < this.data.DocNum → k < this.topicNum →
        theta.cell d k = ((s.DocTopic.cell d k : ℚ) + this.alpha) /
          (((∑ k1 ∈ Finset.range this.topicNum, s.DocTopic.cell d k1 : Nat) : ℚ)
            + (this.topicNum : ℚ) * this.alpha)) ∧
      ∀ d, d < this.data.DocNum → ∑ k ∈ Finset.range this.topicNum, theta.cell d k = 1 := by
  refine ⟨thetaTable this s this.data.DocNum,
    Theta_eq this s (le_of_eq hrows.symm) (le_of_eq hcols.symm), rfl, rfl, ?_, ?_⟩
  · intro d k hd hk
    simp only [thetaTable, hd, hk, and_self, if_true, rowSum, hcols]
  · intro d hd
    have hcell : ∀ k ∈ Finset.range this.topicNum,
        (thetaTable this s this.data.DocNum).cell d k
          = ((s.DocTopic.cell d k : ℚ) + this.alpha) /
            (((∑ k1 ∈ Finset.range this.topicNum, s.DocTopic.cell d k1 : Nat) : ℚ)
              + (this.topicNum : ℚ) * this.alpha) := by
      intro k hk
      simp only [thetaTable, Finset.mem_range.mp hk, hd, and_self, if_true, rowSum, hcols]
    rw [Finset.sum_congr rfl hcell]
    exact sum_smoothed_eq_one (fun k => s.DocTopic.cell d k) _ _ hK halpha

/-- C5. `Phi` is column-stochastic: for every `V × K` word-topic count table with `V ≥ 1` and
`beta > 0`, `Phi()` returns the `V × K` table with
`Phi[v,k] = (WordTopic[v,k] + beta) / (sum_v' WordTopic[v',k] + V*beta)`, and in exact
arithmetic every column `k < K` of it sums to 1. -/
theorem phi_column_stochastic (this : lda) (s : sstable) (hV : 1 ≤ this.data.VocabSize)
    (hbeta : 0 < this.beta) (hrows : s.WordTopic.rowNum = this.data.VocabSize)
    (hcols : s.WordTopic.colNum = this.topicNum) :
    ∃ phi, Phi this s = some (phi, s) ∧
      phi.rowNum = this.data.VocabSize ∧ phi.colNum = this.topicNum ∧
      (∀ v k, v < this.data.VocabSize → k < this.topicNum →
        phi.cell v k = ((s.WordTopic.cell v k : ℚ) + this.beta) /
          (((∑ v1 ∈ Finset.range this.data.VocabSize, s.WordTopic.cell v1 k : Nat) : ℚ)
            + (this.data.VocabSize : ℚ) * this.beta)) ∧
      ∀ k, k < this.topicNum → ∑ v ∈ Finset.range this.data.VocabSize, phi.cell v k = 1 :=
  phi_table_facts this s hV hbeta hrows hcols

/-- C5, instantiated on the tables of a fresh model for the sample corpus. -/
theorem phi_column_stochastic_witness :
    ∃ phi, Phi (NewLDA sampleCorpus 2 1 (1 / 2)).1 (NewLDA sampleCorpus 2 1 (1 / 2)).2
        = some (phi, (NewLDA sampleCorpus 2 1 (1 / 2)).2) ∧
      ∑ v ∈ Finset.range 3, phi.cell v 0 = 1 := by
  obtain ⟨phi, h, -, -, -, hsum⟩ := phi_column_stochastic (NewLDA sampleCorpus 2 1 (1 / 2)).1
    (NewLDA sampleCorpus 2 1 (1 / 2)).2 (by decide) (by norm_num [NewLDA]) rfl rfl
  exact ⟨phi, h, hsum 0 (by decide)⟩

/-- C6. `Theta` is row-stochastic: for every `D × K` document-topic count table with `K ≥ 1`
and `alpha > 0`, `Theta()` returns the `D × K` table with
`Theta[d,k] = (DocTopic[d,k] + alpha) / (sum_k' DocTopic[d,k'] + K*alpha)`, and in exact
arithmetic every row `d < DocNum` of it sums to 1. -/
theorem theta_row_stochastic (this : lda) (s : sstable) (hK : 1 ≤ this.topicNum)
    (halpha : 0 < this.alpha) (hrows : s.DocTopic.rowNum = this.data.DocNum)
    (hcols : s.DocTopic.colNum = this.topicNum) :
    ∃ theta, Theta this s = some (theta, s) ∧
      theta.rowNum = this.data.DocNum ∧ theta.colNum = this.topicNum ∧
      (∀ d k, d < this.data.DocNum → k < this.topicNum →
        theta.cell d k = ((s.DocTopic.cell d k : ℚ) + this.alpha) /
          (((∑ k1 ∈ Finset.range this.topicNum, s.DocTopic.cell d k1 : Nat) : ℚ)
            + (this.topicNum : ℚ) * this.alpha)) ∧
      ∀ d, d < this.data.DocNum → ∑ k ∈ Finset.range this.topicNum, theta.cell d k = 1 :=
  theta_table_facts this s hK halpha hrows hcols

/-- C6, instantiated on the tables of a fresh model for the sample corpus. -/
theorem theta_row_stochastic_witness :
    ∃ theta, Theta (NewLDA sampleCorpus 2 (1 / 2) 1).1 (NewLDA sampleCorpus 2 (1 / 2) 1).2
        = some (theta, (NewLDA sampleCorpus 2 (1 / 2) 1).2) ∧
      ∑ k ∈ Finset.range 2, theta.cell 1 k = 1 := by
  obtain ⟨theta, h, -, -, -, hsum⟩ := theta_row_stochastic (NewLDA sampleCorpus 2 (1 / 2) 1).1
    (NewLDA sampleCorpus 2 (1 / 2) 1).2 (by decide) (by norm_num [NewLDA]) rfl rfl
  exact ⟨theta, h, hsum 1 (by decide)⟩

/-- C3, as stated, fails: for a document of `2^32 + 1` tokens the positions `0` and `2^32`
share the key `uint32(i)`, so after the initialisation pass `WordTopic[0,0]` is `2^32 + 1`
while the assignment table holds at most `2^32` entries. -/
theorem counts_not_derivable_long_document :
    ∃ s, Run (NewLDA longCorpus 1 1 1).1 longEnv 0 (NewLDA longCorpus 1 1 1).2 = some s ∧
      s.WordTopic.cell 0 0 = 4294967297 ∧
      entriesWordTopic longCorpus.entries s.DocWordTopic 0 0 ≤ 4294967296 ∧
      s.WordTopic.cell 0 0 ≠ entriesWordTopic longCorpus.entries s.DocWordTopic 0 0 := by
  obtain ⟨st, hst⟩ := initPass_some (NewLDA longCorpus 1 1 1).1 longEnv
    ⟨(NewLDA longCorpus 1 1 1).2, 0⟩ long_order long_inRange (by decide) (by decide)
    (NewLDA_Sized longCorpus 1 1 1)
  have h0 : RunUpTo (NewLDA longCorpus 1 1 1).1 longEnv 0 0 (NewLDA longCorpus 1 1 1).2
      = some st.tab := by
    rw [RunUpTo_zero, hst]; rfl
  have hrun : Run (NewLDA longCorpus 1 1 1).1 longEnv 0 (NewLDA longCorpus 1 1 1).2
      = some st.tab := by
    rw [Run_eq_RunUpTo]
    exact h0
  obtain ⟨hsz, htot, -⟩ := RunUpTo_basic h0
  have hrow := RunUpTo_rowSum long_ok long_order h0 0
  rw [long_length] at hrow
  have htidy : KeysTidy [0] st.tab.DocWordTopic :=
    initPass_KeysTidy (NewLDA longCorpus 1 1 1).1 longEnv ⟨(NewLDA longCorpus 1 1 1).2, 0⟩
      ⟨by simp [NewLDA], by simp [NewLDA]⟩ hst
  have hcell : st.tab.WordTopic.cell 0 0 = 4294967297 := by
    obtain ⟨h1, -, h3, h4, -, -⟩ := hsz
    have ht := htot 0
    unfold colSum at ht
    unfold rowSum at hrow
    rw [h1, h3] at ht
    rw [h4] at hrow
    simp only [NewLDA, longCorpus, Finset.sum_range_one] at ht hrow
    omega
  have hcount : entriesWordTopic longCorpus.entries st.tab.DocWordTopic 0 0 ≤ 4294967296 :=
    le_trans (List.countP_le_length _) (KeysTidy_length htidy)
  exact ⟨st.tab, hrun, hcell, hcount, by omega⟩

/-- C3, amended. Counts are derivable from the assignment table when no document has more
than `2^32` token instances: for a model freshly built by `NewLDA` and run once, after the
initialisation pass and after every per-token resample step, `WordTopic[w,k]` is the number of
entries whose token is word `w` and whose topic is `k`, `DocTopic[d,k]` the number of entries
of document `d` with topic `k`, and `WordTopicSum[k,0]` the number of entries with topic `k`;
and for ids in range and `1 ≤ K < 2^31` every such step is reached. -/
theorem counts_derivable (dat : Corpus) (K : Nat) (alpha beta : ℚ) (env : Env) (iter : Int)
    (hok : DocMapOK dat.entries) (hord : env.OrderOK dat) (hshort : ShortDocs dat.entries) :
    (∀ n s, RunUpTo (NewLDA dat K alpha beta).1 env iter n (NewLDA dat K alpha beta).2 = some s →
      (∀ w k, s.WordTopic.cell w k = entriesWordTopic dat.entries s.DocWordTopic w k) ∧
      (∀ d k, s.DocTopic.cell d k = entriesDocTopic s.DocWordTopic d k) ∧
      (∀ k, s.WordTopicSum.cell k 0 = entriesTopic s.DocWordTopic k)) ∧
    (InRange dat → 1 ≤ K → K < 2147483648 → ∀ n, ∃ s,
      RunUpTo (NewLDA dat K alpha beta).1 env iter n (NewLDA dat K alpha beta).2 = some s) := by
  constructor
  · intro n s h
    exact (RunUpTo_strong hok hshort hord h).1
  · intro hin hK1 hK2 n
    exact RunUpTo_some alpha beta iter n hok hshort hord hin hK1 hK2

/-- C3 amended, instantiated on the sample corpus after six atomic steps. -/
theorem counts_derivable_witness :
    ∃ s, RunUpTo (NewLDA sampleCorpus 2 1 1).1 sampleEnv 3 6 (NewLDA sampleCorpus 2 1 1).2
        = some s ∧
      s.WordTopic.cell 0 1 = entriesWordTopic sampleCorpus.entries s.DocWordTopic 0 1 ∧
      s.DocTopic.cell 1 0 = entriesDocTopic s.DocWordTopic 1 0 ∧
      s.WordTopicSum.cell 1 0 = entriesTopic s.DocWordTopic 1 := by
  obtain ⟨hA, hB⟩ := counts_derivable sampleCorpus 2 1 1 sampleEnv 3 sample_ok sample_order
    sample_short
  obtain ⟨s, hs⟩ := hB sample_inRange (by decide) (by decide) 6
  obtain ⟨h1, h2, h3⟩ := hA 6 s hs
  exact ⟨s, hs, h1 0 1, h2 1 0, h3 1⟩

/-- C7, evaluated at the failing input: for one document with one token and `K = 2`, `Run(0)`
followed by `Run(0)` draws the assignment again and adds the token to the counts a second
time: the row of `DocTopic` becomes `[1, 1]` (sum 2 for a single token) and the assignment
table holds the one entry `(0,0) ↦ 1`. -/
theorem rerun_repeats_initialisation :
    ((Run (NewLDA tinyCorpus 2 1 1).1 tinyEnv 0 (NewLDA tinyCorpus 2 1 1).2).bind
      (fun s1 => Run (NewLDA tinyCorpus 2 1 1).1 laterEnv 0 s1)).map
      (fun s => (s.DocTopic.cell 0 0, s.DocTopic.cell 0 1, s.WordTopicSum.cell 0 0,
        s.WordTopicSum.cell 1 0, s.DocWordTopic,
        (ExpandWords (docsGet tinyCorpus.entries 0)).length))
      = some (1, 1, 1, 1, [(⟨0, 0⟩, 1)], 1) := by
  rfl

/-- C8, as stated, fails: `NewLDA` returns a model for `alpha = -1` and `beta = 0`, and `Run`
completes a sweep on it. -/
theorem newLDA_accepts_nonpositive_alpha_beta :
    (NewLDA sampleCorpus 2 (-1) 0).1 = ⟨sampleCorpus, -1, 0, 2⟩ ∧
    ∃ s, Run (NewLDA sampleCorpus 2 (-1) 0).1 sampleEnv 1 (NewLDA sampleCorpus 2 (-1) 0).2
      = some s :=
  ⟨rfl, Run_some (-1) 0 1 sample_ok sample_short sample_order sample_inRange (by decide)
    (by decide)⟩

/-- C8, amended. `NewLDA` rejects nothing: for every corpus, `K`, `alpha` and `beta` it returns
the model with these fields, zeroed tables of sizes `VocabSize × K`, `DocNum × K` and `K × 1`
and an empty assignment table. The sign of `alpha` and `beta` never stops `Run`, which
completes for ids in range, `1 ≤ K < 2^31` and documents of at most `2^32` tokens; `K = 0` is
caught by `Run` alone, which panics at its first draw when the corpus has a token instance. -/
theorem newLDA_validates_nothing (dat : Corpus) (K : Nat) (alpha beta : ℚ) (env : Env)
    (iter : Int) :
    ((NewLDA dat K alpha beta).1 = ⟨dat, alpha, beta, K⟩ ∧
      Sized (NewLDA dat K alpha beta).1 (NewLDA dat K alpha beta).2 ∧
      (∀ i j, (NewLDA dat K alpha beta).2.WordTopic.cell i j = 0 ∧
        (NewLDA dat K alpha beta).2.DocTopic.cell i j = 0 ∧
        (NewLDA dat K alpha beta).2.WordTopicSum.cell i j = 0) ∧
      (NewLDA dat K alpha beta).2.DocWordTopic = []) ∧
    (DocMapOK dat.entries → ShortDocs dat.entries → env.OrderOK dat → InRange dat →
      1 ≤ K → K < 2147483648 →
      ∃ s, Run (NewLDA dat K alpha beta).1 env iter (NewLDA dat K alpha beta).2 = some s) ∧
    (K = 0 → env.OrderOK dat → tokensOf dat.entries ≠ [] →
      Run (NewLDA dat K alpha beta).1 env iter (NewLDA dat K alpha beta).2 = none) := by
  refine ⟨⟨rfl, NewLDA_Sized dat K alpha beta, fun i j => ⟨rfl, rfl, rfl⟩, rfl⟩, ?_, ?_⟩
  · intro hok hshort hord hin hK1 hK2
    exact Run_some alpha beta iter hok hshort hord hin hK1 hK2
  · intro hK hord hne
    subst hK
    have hne0 : tokensOf (env.order 0) ≠ [] := by
      intro h0
      have := (tokensOf_perm (hord 0)).length_eq
      rw [h0] at this
      exact hne (List.length_eq_zero.mp this.symm)
    have hinit : initPass (NewLDA dat 0 alpha beta).1 env ⟨(NewLDA dat 0 alpha beta).2, 0⟩
        = none := by
      rw [initPass_eq]
      cases hts : tokensOf (env.order 0) with
      | nil => exact absurd hts hne0
      | cons t ts =>
        simp only [List.foldlM_cons, bind]
        have : initToken (NewLDA dat 0 alpha beta).1 env t.1
            ⟨(NewLDA dat 0 alpha beta).2, 0⟩ t.2 = none := by
          simp [initToken, NewLDA, Int31n, toInt32]
        rw [this]
        rfl
    unfold Run
    rw [hinit]
    rfl

/-- C8 amended, instantiated: the sample corpus with `alpha = -1`, `beta = -1`. -/
theorem newLDA_validates_nothing_witness :
    ∃ s, Run (NewLDA sampleCorpus 2 (-1) (-1)).1 sampleEnv 2 (NewLDA sampleCorpus 2 (-1) (-1)).2
      = some s :=
  (newLDA_validates_nothing sampleCorpus 2 (-1) (-1) sampleEnv 2).2.1
    sample_ok sample_short sample_order sample_inRange (by decide) (by decide)

/-- C9. Degenerate single-topic case: for every `N < 2^32` (a `uint32` count; `N ≥ 1` is not
even needed) and every number of iterations, for the corpus of one document (id 0) holding word 0 `N` times,
`VocabSize = DocNum = 1`, `K = 1` and `alpha, beta > 0`, `Run` completes and afterwards `Phi()`
and `Theta()` are the 1×1 tables `[[1]]`. -/
theorem degenerate_single_topic (N : Nat) (alpha beta : ℚ) (env : Env) (iter : Int)
    (hN2 : N < uint32Size) (halpha : 0 < alpha) (hbeta : 0 < beta)
    (hord : env.OrderOK (oneWordCorpus N)) :
    ∃ s phi theta,
      Run (NewLDA (oneWordCorpus N) 1 alpha beta).1 env iter
        (NewLDA (oneWordCorpus N) 1 alpha beta).2 = some s ∧
      Phi (NewLDA (oneWordCorpus N) 1 alpha beta).1 s = some (phi, s) ∧
      Theta (NewLDA (oneWordCorpus N) 1 alpha beta).1 s = some (theta, s) ∧
      phi.toLists = [[1]] ∧ theta.toLists = [[1]] := by
  have hok : DocMapOK (oneWordCorpus N).entries := by
    simp [DocMapOK, oneWordCorpus, Corpus.entries]
  have hshort : ShortDocs (oneWordCorpus N).entries := by
    intro d hd
    have hd1 : d = (0, [⟨0, N⟩]) := by
      simpa [oneWordCorpus, Corpus.entries] using hd
    subst hd1
    rw [ExpandWords_length]
    simp only [List.map_cons, List.map_nil, List.sum_cons, List.sum_nil, add_zero]
    exact le_of_lt hN2
  have hin : InRange (oneWordCorpus N) := by
    simp [InRange, oneWordCorpus, Corpus.entries]
  obtain ⟨s, hs⟩ := Run_some alpha beta iter hok hshort hord hin
    (le_refl 1) (by decide)
  have hup := hs
  rw [Run_eq_RunUpTo] at hup
  obtain ⟨⟨h1, h2, h3, h4, -, -⟩, -, -⟩ := RunUpTo_basic hup
  obtain ⟨phi, hphi, hpr, hpc, -, hsum⟩ := phi_table_facts
    (NewLDA (oneWordCorpus N) 1 alpha beta).1 s (le_refl 1) hbeta h1 h2
  obtain ⟨theta, htheta, htr, htc, -, hsum2⟩ := theta_table_facts
    (NewLDA (oneWordCorpus N) 1 alpha beta).1 s (le_refl 1) halpha h3 h4
  have hp : phi.cell 0 0 = 1 := by
    have := hsum 0 Nat.zero_lt_one
    simpa [NewLDA, oneWordCorpus] using this
  have ht : theta.cell 0 0 = 1 := by
    have := hsum2 0 Nat.zero_lt_one
    simpa [NewLDA, oneWordCorpus] using this
  refine ⟨s, phi, theta, hs, hphi, htheta, ?_, ?_⟩
  · unfold DenseMatrix.toLists
    rw [hpr, hpc]
    show List.map (fun r => List.map (fun c => phi.cell r c) (List.range 1)) (List.range 1) = _
    have hr1 : List.range 1 = [0] := rfl
    simp only [hr1, List.map_cons, List.map_nil, hp]
  · unfold DenseMatrix.toLists
    rw [htr, htc]
    show List.map (fun r => List.map (fun c => theta.cell r c) (List.range 1)) (List.range 1) = _
    have hr1 : List.range 1 = [0] := rfl
    simp only [hr1, List.map_cons, List.map_nil, ht]

/-- C9, instantiated: five occurrences, four iterations, `alpha = 1/2`, `beta = 1/10`. -/
theorem degenerate_single_topic_witness :
    ∃ s phi theta,
      Run (NewLDA (oneWordCorpus 5) 1 (1 / 2) (1 / 10)).1
        ⟨0, fun _ c => c, fun _ _ => 1 / 3, fun x => x, fun _ => [(0, [⟨0, 5⟩])]⟩ 4
        (NewLDA (oneWordCorpus 5) 1 (1 / 2) (1 / 10)).2 = some s ∧
      Phi (NewLDA (oneWordCorpus 5) 1 (1 / 2) (1 / 10)).1 s = some (phi, s) ∧
      Theta (NewLDA (oneWordCorpus 5) 1 (1 / 2) (1 / 10)).1 s = some (theta, s) ∧
      phi.toLists = [[1]] ∧ theta.toLists = [[1]] :=
  degenerate_single_topic 5 (1 / 2) (1 / 10)
    ⟨0, fun _ c => c, fun _ _ => 1 / 3, fun x => x, fun _ => [(0, [⟨0, 5⟩])]⟩ 4
    (by decide) (by norm_num) (by norm_num) (fun _ => List.Perm.refl _)

/-- C10, as stated, fails: `Likelihood()` adds its `float64` terms in the order in which the
`range` loop visits the map `Docs`, an order Go changes from call to call. On the tables
`Run(0)` leaves for the documents `0: [w0]` and `1: [w1, w1, w1]` (four words, `K = 1`,
`alpha = beta = 1`), where the terms are `log 0.25` once and `log 0.5` three times, the call
that visits document 0 first returns `-3.4657359027997265` and the call that visits document 1
first returns `-3.465735902799726`; both leave the tables as they were. -/
theorem likelihood_depends_on_map_order :
    ∃ s, Run (NewLDA orderCorpus 1 1 1).1 orderEnv 0 (NewLDA orderCorpus 1 1 1).2 = some s ∧
      (orderEnv.order 1).Perm (orderEnv.order 2) ∧
      (Phi (NewLDA orderCorpus 1 1 1).1 s).map (fun r => r.1.toLists)
        = some [[1 / 4], [1 / 2], [1 / 8], [1 / 8]] ∧
      Likelihood (NewLDA orderCorpus 1 1 1).1 orderEnv 1 s
        = some (-7804143460206699 / 2251799813685248, s) ∧
      Likelihood (NewLDA orderCorpus 1 1 1).1 orderEnv 2 s
        = some (-3902071730103349 / 1125899906842624, s) ∧
      (-7804143460206699 / 2251799813685248 : ℚ) ≠ -3902071730103349 / 1125899906842624 := by
  obtain ⟨s, hs⟩ := Option.isSome_iff_exists.mp order_run_some
  have h1 := order_first
  have h2 := order_second
  have h3 := order_phi
  rw [hs] at h1 h2 h3
  simp only [Option.some_bind] at h1 h2 h3
  obtain ⟨r1, hr1, hv1⟩ := Option.map_eq_some'.mp h1
  obtain ⟨r2, hr2, hv2⟩ := Option.map_eq_some'.mp h2
  have hf1 := Likelihood_frame _ _ _ _ r1 hr1
  have hf2 := Likelihood_frame _ _ _ _ r2 hr2
  refine ⟨s, hs, List.Perm.swap _ _ _, h3, ?_, ?_, order_ne⟩
  · rw [hr1, ← hv1, ← hf1]
  · rw [hr2, ← hv2, ← hf2]

/-- C10, amended. Queries are pure reads: `Phi()`, `Theta()` and `Likelihood()` hand back the
tables `WordTopic`, `DocTopic`, `WordTopicSum` and `DocWordTopic` exactly as they found them;
`Phi()` and `Theta()` asked again of the tables they left return the same result, and so does
`Likelihood()` when its two `range` loops visit the documents in the same order, which is
the case whenever the corpus holds at most one document. -/
theorem queries_are_pure_reads (this : lda) (env : Env) (s : sstable) :
    (∀ r, Phi this s = some r → r.2 = s ∧ Phi this r.2 = some r) ∧
    (∀ r, Theta this s = some r → r.2 = s ∧ Theta this r.2 = some r) ∧
    (∀ p r, Likelihood this env p s = some r → r.2 = s) ∧
    (∀ p q r, env.order p = env.order q → Likelihood this env p s = some r →
      Likelihood this env q r.2 = some r) ∧
    (env.OrderOK this.data → this.data.entries.length ≤ 1 → ∀ p q r,
      Likelihood this env p s = some r → Likelihood this env q r.2 = some r) := by
  refine ⟨?_, ?_, ?_, ?_, ?_⟩
  · intro r h
    have hr := Phi_frame this s r h
    exact ⟨hr, by rw [hr]; exact h⟩
  · intro r h
    have hr := Theta_frame this s r h
    exact ⟨hr, by rw [hr]; exact h⟩
  · intro p r h
    exact Likelihood_frame this env p s r h
  · intro p q r hpq h
    rw [Likelihood_frame this env p s r h, ← Likelihood_same_order this env p q s hpq]
    exact h
  · intro hord hlen p q r h
    have hpq : env.order p = env.order q :=
      (perm_short_eq (hord p) hlen).trans (perm_short_eq (hord q) hlen).symm
    rw [Likelihood_frame this env p s r h, ← Likelihood_same_order this env p q s hpq]
    exact h

/-- C10 amended, instantiated: `Likelihood` on the fresh tables of the sample corpus, asked
twice by loops that visit the documents in the same order. -/
theorem queries_are_pure_reads_witness :
    ∃ x, Likelihood (NewLDA sampleCorpus 2 1 1).1 sampleEnv 0 (NewLDA sampleCorpus 2 1 1).2
        = some (x, (NewLDA sampleCorpus 2 1 1).2) ∧
      Likelihood (NewLDA sampleCorpus 2 1 1).1 sampleEnv 1 (NewLDA sampleCorpus 2 1 1).2
        = some (x, (NewLDA sampleCorpus 2 1 1).2) := by
  obtain ⟨x, hx⟩ := Likelihood_some (NewLDA sampleCorpus 2 1 1).1 sampleEnv 0
    (NewLDA sampleCorpus 2 1 1).2 (NewLDA_Sized sampleCorpus 2 1 1)
    (order_inRange sample_inRange (sample_order 0))
  exact ⟨x, hx, (queries_are_pure_reads (NewLDA sampleCorpus 2 1 1).1 sampleEnv
    (NewLDA sampleCorpus 2 1 1).2).2.2.2.1 0 1 _ rfl hx⟩

/-! ## Package corpus: `ExpandWords`, `AddDoc`, `Load` -/

theorem ExpandWords_filter_count (wcs : List WordCount) :
    ExpandWords (wcs.filter (fun wc => decide (wc.Count ≠ 0))) = ExpandWords wcs := by
  rw [ExpandWords_eq, ExpandWords_eq]
  induction wcs with
  | nil => rfl
  | cons wc wcs ih =>
    simp only [ne_eq, decide_not] at ih ⊢
    by_cases h : wc.Count = 0
    · simp [List.filter_cons, h, ih]
    · simp [List.filter_cons, h, ih]

theorem ExpandWords_count (wcs : List WordCount) (w : Nat) :
    (ExpandWords wcs).count w
      = ((wcs.filter (fun wc => decide (wc.WordId = w))).map WordCount.Count).sum := by
  rw [ExpandWords_eq]
  induction wcs with
  | nil => rfl
  | cons wc wcs ih =>
    rw [List.flatMap_cons, List.count_append, ih, List.count_replicate]
    by_cases h : wc.WordId = w
    · simp [List.filter_cons, h]
    · simp [List.filter_cons, h]

theorem docsGet_docsSet (docs : DocMap) (docId d : Nat) (wcs : List WordCount) :
    docsGet (docsSet docs docId wcs) d = if docId = d then wcs else docsGet docs d := by
  induction docs with
  | nil => simp [docsSet, docsGet]
  | cons e rest ih =>
    obtain ⟨d0, old⟩ := e
    unfold docsSet
    by_cases h0 : d0 = docId
    · subst h0
      by_cases h1 : d0 = d
      · simp [docsGet_cons, h1]
      · simp [docsGet_cons, h1]
    · simp only [h0, if_false, docsGet_cons]
      by_cases h1 : d0 = d
      · subst h1
        simp [Ne.symm h0]
      · simp only [h1, if_false]
        exact ih

theorem keys_docsSet (docs : DocMap) (docId d : Nat) (wcs : List WordCount) :
    d ∈ (docsSet docs docId wcs).map Prod.fst ↔ d = docId ∨ d ∈ docs.map Prod.fst := by
  induction docs with
  | nil => simp [docsSet]
  | cons e rest ih =>
    obtain ⟨d0, old⟩ := e
    unfold docsSet
    by_cases h0 : d0 = docId
    · subst h0
      simp
    · simp only [h0, if_false, List.map_cons, List.mem_cons, ih]
      constructor
      · rintro (h | h | h)
        · exact Or.inr (Or.inl h)
        · exact Or.inl h
        · exact Or.inr (Or.inr h)
      · rintro (h | h | h)
        · exact Or.inr (Or.inl h)
        · exact Or.inl h
        · exact Or.inr (Or.inr h)

theorem docsSet_ok {docs : DocMap} (docId : Nat) (wcs : List WordCount) (h : DocMapOK docs) :
    DocMapOK (docsSet docs docId wcs) := by
  induction docs with
  | nil => simp [docsSet, DocMapOK]
  | cons e rest ih =>
    obtain ⟨d0, old⟩ := e
    unfold DocMapOK at h ih ⊢
    simp only [List.map_cons, List.nodup_cons] at h
    unfold docsSet
    by_cases h0 : d0 = docId
    · subst h0
      simp only [if_true, List.map_cons, List.nodup_cons]
      exact h
    · simp only [h0, if_false, List.map_cons, List.nodup_cons]
      refine ⟨?_, ih h.2⟩
      intro hmem
      rcases (keys_docsSet rest docId d0 wcs).mp hmem with h1 | h1
      · exact h0 h1
      · exact h.1 h1

/-- C12. `ExpandWords` expands counts in order: for every list of `(WordId, Count)` pairs the
result is the concatenation, in list order, of `Count` copies of `WordId` for each pair; its
length is the sum of the counts, pairs with `Count = 0` contribute nothing, and a word id `w`
occurs as often as the counts of the pairs with `WordId = w` add up to. -/
theorem expandWords_in_order (wcs : List WordCount) :
    ExpandWords wcs = wcs.flatMap (fun wc => List.replicate wc.Count wc.WordId) ∧
    (ExpandWords wcs).length = (wcs.map WordCount.Count).sum ∧
    ExpandWords (wcs.filter (fun wc => decide (wc.Count ≠ 0))) = ExpandWords wcs ∧
    ∀ w, (ExpandWords wcs).count w
      = ((wcs.filter (fun wc => decide (wc.WordId = w))).map WordCount.Count).sum :=
  ⟨ExpandWords_eq wcs, ExpandWords_length wcs, ExpandWords_filter_count wcs,
    ExpandWords_count wcs⟩

/-- C14, evaluated at the failing input: loading the one line `0 4294967295:1` into an empty
corpus stores word id `4294967295` and leaves `VocabSize = 0`, since `vocabMaxId + 1` wraps
around in `uint32`; the claim asks for `max(wordId) + 1 = 4294967296` and for every stored
word id to be below `VocabSize`. -/
theorem load_vocabSize_wraps :
    (Load emptyCorpus ["0 4294967295:1"]).map (fun c => (c.VocabSize, c.DocNum, c.Docs))
      = some (0, 1, some [(0, [⟨4294967295, 1⟩])]) := by
  rfl

/-- C15, evaluated at two failing inputs: a document id on two lines is counted twice
(`DocNum = 2` for a single entry of `Docs`), and a line whose only field is malformed is counted
although it adds no entry (`DocNum = 1` for an empty `Docs`). -/
theorem load_docNum_counts_lines :
    (Load emptyCorpus ["0 1:1", "0 2:3"]).map (fun c => (c.DocNum, c.Docs))
      = some (2, some [(0, [⟨1, 1⟩, ⟨2, 3⟩])]) ∧
    (Load emptyCorpus ["7 x"]).map (fun c => (c.DocNum, c.Docs)) = some (1, some []) := by
  exact ⟨rfl, rfl⟩

/-- C16. `AddDoc` stores and overwrites: for every corpus (its `Docs` map may be nil), every
`docId` and every list `wcs`, afterwards `Docs[docId]` is `wcs` whether or not `docId` was a
key before, the map is not nil, its keys are the old ones and `docId`, every other document
keeps its entry, the keys stay pairwise distinct, and `VocabSize` and `DocNum` are untouched. -/
theorem addDoc_stores_and_overwrites (this : Corpus) (docId : Nat) (wcs : List WordCount) :
    docsGet (AddDoc this docId wcs).entries docId = wcs ∧
    (AddDoc this docId wcs).Docs ≠ none ∧
    (∀ d, d ∈ (AddDoc this docId wcs).entries.map Prod.fst ↔
      d = docId ∨ d ∈ this.entries.map Prod.fst) ∧
    (∀ d, d ≠ docId → docsGet (AddDoc this docId wcs).entries d = docsGet this.entries d) ∧
    (DocMapOK this.entries → DocMapOK (AddDoc this docId wcs).entries) ∧
    (AddDoc this docId wcs).VocabSize = this.VocabSize ∧
    (AddDoc this docId wcs).DocNum = this.DocNum := by
  have hent : (AddDoc this docId wcs).entries = docsSet this.entries docId wcs := by
    unfold AddDoc Corpus.entries
    cases this.Docs with
    | none => rfl
    | some m => rfl
  refine ⟨?_, ?_, ?_, ?_, ?_, rfl, rfl⟩
  · rw [hent, docsGet_docsSet]
    simp
  · simp [AddDoc]
  · intro d
    rw [hent]
    exact keys_docsSet _ _ _ _
  · intro d hd
    rw [hent, docsGet_docsSet]
    simp [Ne.symm hd]
  · intro hok
    rw [hent]
    exact docsSet_ok docId wcs hok

/-- C16, instantiated: replacing document 0 of the sample corpus keeps the keys distinct. -/
theorem addDoc_stores_and_overwrites_witness :
    docsGet (AddDoc sampleCorpus 0 [⟨1, 4⟩]).entries 0 = [⟨1, 4⟩] ∧
    DocMapOK (AddDoc sampleCorpus 0 [⟨1, 4⟩]).entries :=
  ⟨(addDoc_stores_and_overwrites sampleCorpus 0 [⟨1, 4⟩]).1,
    (addDoc_stores_and_overwrites sampleCorpus 0 [⟨1, 4⟩]).2.2.2.2.1 sample_ok⟩

/-! ## The cumulative weights of a resample step -/

theorem weight_eq {this : lda} {s : sstable} {doc w kidx : Nat} (hs : Sized this s)
    (hdoc : doc < this.data.DocNum) (hw : w < this.data.VocabSize) (hk : kidx < this.topicNum) :
    weight this s doc w kidx = some (weightValue this s doc w kidx) := by
  obtain ⟨h1, h2, h3, h4, h5, h6⟩ := hs
  simp [weight, weightValue, DenseMatrix.Get, DenseMatrix.inBounds, h1, h2, h3, h4, h5, h6,
    hdoc, hw, hk]

theorem weight_value {this : lda} {s : sstable} {doc w kidx : Nat} {x : ℚ}
    (h : weight this s doc w kidx = some x) : x = weightValue this s doc w kidx := by
  simp only [weight, bind, Option.bind_eq_some, pure, Option.some.injEq, Get_eq_some] at h
  obtain ⟨dt, ⟨-, rfl⟩, wt, ⟨-, rfl⟩, wts, ⟨-, rfl⟩, rfl⟩ := h
  rfl

theorem getD_map_range (f : Nat → ℚ) (n i : Nat) (hi : i < n) :
    ((List.range n).map f).getD i 0 = f i := by
  rw [List.getD_eq_getElem?_getD, List.getElem?_map, List.getElem?_range hi]
  rfl

/-- The slice `cumsum` holds the running sums of the weights. -/
theorem fillCumsum_eq (this : lda) (s : sstable) (doc w : Nat)
    (hw : ∀ kidx, kidx < this.topicNum →
      weight this s doc w kidx = some (weightValue this s doc w kidx)) :
    fillCumsum this s doc w
      = some ((List.range this.topicNum).map (prefixWeight this s doc w)) := by
  unfold fillCumsum
  generalize this.topicNum = K at hw
  induction K with
  | zero => rfl
  | succ n ih =>
    rw [List.range_succ, List.foldlM_append, ih (fun kidx hk => hw kidx (Nat.lt_succ_of_lt hk))]
    simp only [bind, Option.some_bind, List.foldlM_cons, List.foldlM_nil, List.map_append,
      List.map_cons, List.map_nil, hw n (Nat.lt_succ_self n), pure]
    by_cases hn : n = 0
    · subst hn
      simp [prefixWeight]
    · have hn1 : n - 1 < n := by omega
      have hp : prefixWeight this s doc w (n - 1) + weightValue this s doc w n
          = prefixWeight this s doc w n := by
        unfold prefixWeight
        rw [show n - 1 + 1 = n by omega, Finset.sum_range_succ]
      simp only [hn, if_false]
      rw [getD_map_range _ _ _ hn1, hp]
      rfl

/-- What `fillCumsum` returns is of this form whenever it returns. -/
theorem fillCumsum_value {this : lda} {s : sstable} {doc w : Nat} {c : List ℚ}
    (h : fillCumsum this s doc w = some c) :
    c = (List.range this.topicNum).map (prefixWeight this s doc w) := by
  have hall : ∀ kidx, kidx < this.topicNum →
      weight this s doc w kidx = some (weightValue this s doc w kidx) := by
    unfold fillCumsum at h
    generalize this.topicNum = K at h
    induction K generalizing c with
    | zero => intro kidx hk; omega
    | succ n ih =>
      rw [List.range_succ, List.foldlM_append] at h
      simp only [bind, Option.bind_eq_some, List.foldlM_cons, List.foldlM_nil] at h
      obtain ⟨c1, hc1, c2, hstep, -⟩ := h
      intro kidx hk
      by_cases hkn : kidx = n
      · subst hkn
        cases hx : weight this s doc w kidx with
        | none => simp [hx] at hstep
        | some x => rw [weight_value hx]
      · exact ih hc1 kidx (by omega)
  rw [fillCumsum_eq this s doc w hall] at h
  exact (Option.some.inj h).symm

theorem find_range_least (p : Nat → Bool) (K : Nat) :
    (∀ k1, (List.range K).find? p = some k1 →
      k1 < K ∧ p k1 = true ∧ ∀ j, j < k1 → p j = false) ∧
    ((List.range K).find? p = none → ∀ j, j < K → p j = false) := by
  induction K with
  | zero =>
    refine ⟨?_, ?_⟩
    · intro k1 h; simp at h
    · intro _ j hj; omega
  | succ n ih =>
    rw [List.range_succ, List.find?_append]
    cases hf : (List.range n).find? p with
    | some k0 =>
      obtain ⟨h1, h2, h3⟩ := ih.1 k0 hf
      refine ⟨?_, ?_⟩
      · intro k1 hk1
        have hk : k0 = k1 := Option.some.inj hk1
        subst hk
        exact ⟨Nat.lt_succ_of_lt h1, h2, h3⟩
      · intro h
        exact absurd h (by simp [Option.or])
    | none =>
      have hnone := ih.2 hf
      show (∀ k1, List.find? p [n] = some k1 → _) ∧ (List.find? p [n] = none → _)
      by_cases hp : p n = true
      · refine ⟨?_, ?_⟩
        · intro k1 hk1
          simp only [List.find?_cons, hp, Option.some.injEq] at hk1
          subst hk1
          exact ⟨Nat.lt_succ_self _, hp, hnone⟩
        · intro h; simp [List.find?_cons, hp] at h
      · have hp1 : p n = false := by simpa using hp
        refine ⟨?_, ?_⟩
        · intro k1 hk1
          simp [List.find?_cons, hp1] at hk1
        · intro _ j hj
          by_cases hjn : j = n
          · subst hjn; exact hp1
          · exact hnone j (by omega)

/-- The selection loop returns the first index whose threshold lies above `u`, if any. -/
theorem selectTopic_least (K : Nat) (cumsum : List ℚ) (u : ℚ) (k j0 : Nat) (hj0 : j0 < K)
    (hu : u < cumsum.getD j0 0) :
    selectTopic K cumsum u k < K ∧ u < cumsum.getD (selectTopic K cumsum u k) 0 ∧
      ∀ j, j < selectTopic K cumsum u k → ¬ u < cumsum.getD j 0 := by
  unfold selectTopic
  obtain ⟨hsome, hnone⟩ := find_range_least (fun kidx => decide (u < cumsum.getD kidx 0)) K
  cases hf : (List.range K).find? (fun kidx => decide (u < cumsum.getD kidx 0)) with
  | none =>
    have := hnone hf j0 hj0
    simp only [decide_eq_false_iff_not] at this
    exact absurd hu this
  | some k1 =>
    obtain ⟨h1, h2, h3⟩ := hsome k1 hf
    refine ⟨h1, by simpa using h2, ?_⟩
    intro j hj
    simpa using h3 j hj

theorem weightValue_pos (this : lda) (s : sstable) (doc w j : Nat) (halpha : 0 < this.alpha)
    (hbeta : 0 < this.beta) (hV : 1 ≤ this.data.VocabSize) :
    0 < weightValue this s doc w j := by
  unfold weightValue
  have h1 : (0 : ℚ) ≤ (s.DocTopic.cell doc j : ℚ) := Nat.cast_nonneg _
  have h2 : (0 : ℚ) ≤ (s.WordTopic.cell w j : ℚ) := Nat.cast_nonneg _
  have h3 : (0 : ℚ) ≤ (s.WordTopicSum.cell j 0 : ℚ) := Nat.cast_nonneg _
  have hV0 : (0 : ℚ) < (this.data.VocabSize : ℚ) := by exact_mod_cast hV
  have h4 : 0 < this.beta * (this.data.VocabSize : ℚ) := mul_pos hbeta hV0
  exact mul_pos (by linarith) (div_pos (by linarith) (by linarith))

theorem prefixWeight_succ (this : lda) (s : sstable) (doc w kidx : Nat) :
    prefixWeight this s doc w (kidx + 1)
      = prefixWeight this s doc w kidx + weightValue this s doc w (kidx + 1) := by
  unfold prefixWeight
  rw [Finset.sum_range_succ]

theorem prefixWeight_strictMono (this : lda) (s : sstable) (doc w : Nat)
    (halpha : 0 < this.alpha) (hbeta : 0 < this.beta) (hV : 1 ≤ this.data.VocabSize) :
    StrictMono (prefixWeight this s doc w) := by
  apply strictMono_nat_of_lt_succ
  intro n
  rw [prefixWeight_succ]
  have := weightValue_pos this s doc w (n + 1) halpha hbeta hV
  linarith

theorem prefixWeight_pos (this : lda) (s : sstable) (doc w kidx : Nat)
    (halpha : 0 < this.alpha) (hbeta : 0 < this.beta) (hV : 1 ≤ this.data.VocabSize) :
    0 < prefixWeight this s doc w kidx := by
  unfold prefixWeight
  apply Finset.sum_pos
  · intro j _
    exact weightValue_pos this s doc w j halpha hbeta hV
  · exact ⟨0, Finset.mem_range.mpr (Nat.succ_pos _)⟩

/-- The cumulative weights under positive smoothing: all weights positive, `cumsum` strictly
increasing, its last entry positive. -/
theorem cumsum_facts (this : lda) (s : sstable) (doc w : Nat) (halpha : 0 < this.alpha)
    (hbeta : 0 < this.beta) (hs : Sized this s) (hdoc : doc < this.data.DocNum)
    (hw : w < this.data.VocabSize) :
    ∃ c, fillCumsum this s doc w = some c ∧ c.length = this.topicNum ∧
      (∀ kidx, kidx < this.topicNum →
        ∃ x, weight this s doc w kidx = some x ∧ 0 < x) ∧
      (∀ i j, i < j → j < this.topicNum → c.getD i 0 < c.getD j 0) ∧
      (1 ≤ this.topicNum → 0 < c.getD (this.topicNum - 1) 0) := by
  have hV : 1 ≤ this.data.VocabSize := by omega
  refine ⟨_, fillCumsum_eq this s doc w (fun kidx hk => weight_eq hs hdoc hw hk), by simp,
    ?_, ?_, ?_⟩
  · intro kidx hk
    exact ⟨_, weight_eq hs hdoc hw hk, weightValue_pos this s doc w kidx halpha hbeta hV⟩
  · intro i j hij hj
    rw [getD_map_range _ _ _ (lt_trans hij hj), getD_map_range _ _ _ hj]
    exact prefixWeight_strictMono this s doc w halpha hbeta hV hij
  · intro hK
    rw [getD_map_range _ _ _ (by omega)]
    exact prefixWeight_pos this s doc w _ halpha hbeta hV

/-- C17. The resample step draws from the collapsed conditional: whenever the step for a
token `(doc, word)` with current topic `k` goes through (with `K` a `uint32`), `cumsum` has
`K ≥ 1` entries, `cumsum[kidx]` is the sum for `j = 0..kidx` of
`(alpha + DocTopic[doc,j]) * (beta + WordTopic[word,j]) / (WordTopicSum[j,0] + V*beta)` over
the decremented tables, the step re-adds the token at the selected topic `k1`, and for every
`u < cumsum[K-1]` — in particular for the `u` drawn, if it is below `cumsum[K-1]` — the
selected topic is the smallest `kidx` with `u < cumsum[kidx]`. -/
theorem resample_draws_from_conditional (this : lda) (env : Env) (doc : Nat)
    (st st1 : RunState) (iw : Nat × Nat) (hK : this.topicNum ≤ uint32Size)
    (h : resampleToken this env doc st iw = some st1) :
    ∃ (k k1 : Nat) (cumsum : List ℚ),
      k = mapGet st.tab.DocWordTopic ⟨doc, toUint32 iw.1⟩ ∧
      cumsum.length = this.topicNum ∧ 1 ≤ this.topicNum ∧
      (∀ kidx, kidx < this.topicNum →
        cumsum.getD kidx 0 = ∑ j ∈ Finset.range (kidx + 1),
          (this.alpha + ((drop st.tab.DocTopic doc k).cell doc j : ℚ)) *
            (this.beta + ((drop st.tab.WordTopic iw.2 k).cell iw.2 j : ℚ)) /
            (((drop st.tab.WordTopicSum k 0).cell j 0 : ℚ)
              + (this.data.VocabSize : ℚ) * this.beta)) ∧
      st1.tab = ⟨bump (drop st.tab.WordTopic iw.2 k) iw.2 k1,
        bump (drop st.tab.DocTopic doc k) doc k1,
        bump (drop st.tab.WordTopicSum k 0) k1 0,
        mapSet st.tab.DocWordTopic ⟨doc, toUint32 iw.1⟩ k1⟩ ∧
      k1 = selectTopic this.topicNum cumsum
        (env.rawFloat32 env.now st.calls * cumsum.getD (this.topicNum - 1) 0) k ∧
      ∀ u, u < cumsum.getD (this.topicNum - 1) 0 →
        selectTopic this.topicNum cumsum u k < this.topicNum ∧
        u < cumsum.getD (selectTopic this.topicNum cumsum u k) 0 ∧
        ∀ j, j < selectTopic this.topicNum cumsum u k → ¬ u < cumsum.getD j 0 := by
  obtain ⟨k, hk, -, -, -, cumsum, last, k1, hc, hlast, hk1, -, -, -, rfl⟩ :=
    resampleToken_eq_some.mp h
  have hval := fillCumsum_value hc
  have hlen : cumsum.length = this.topicNum := by rw [hval]; simp
  have hidx : toUint32 (this.topicNum + (uint32Size - 1)) < cumsum.length := by
    rw [List.get?_eq_getElem?] at hlast
    exact (List.getElem?_eq_some.mp hlast).1
  have hK1 : 1 ≤ this.topicNum := by
    rw [hlen] at hidx
    omega
  have hlastEq : last = cumsum.getD (this.topicNum - 1) 0 := by
    rw [lastIndex_eq hK1 hK, List.get?_eq_getElem?] at hlast
    rw [List.getD_eq_getElem?_getD, hlast]
    rfl
  refine ⟨k, k1, cumsum, hk, hlen, hK1, ?_, rfl, by rw [hk1, hlastEq], ?_⟩
  · intro kidx hkidx
    rw [hval, getD_map_range _ _ _ hkidx]
    unfold prefixWeight
    apply Finset.sum_congr rfl
    intro j _
    unfold weightValue
    rw [mul_div_assoc, mul_comm this.beta]
  · intro u hu
    exact selectTopic_least this.topicNum cumsum u k (this.topicNum - 1) (by omega) hu

/-- C17, instantiated: the first resample step after the initialisation of the sample corpus. -/
theorem resample_draws_from_conditional_witness :
    ∃ (st st1 : RunState) (k1 : Nat) (cumsum : List ℚ),
      initPass (NewLDA sampleCorpus 2 1 1).1 sampleEnv ⟨(NewLDA sampleCorpus 2 1 1).2, 0⟩
        = some st ∧
      resampleToken (NewLDA sampleCorpus 2 1 1).1 sampleEnv 0 st (0, 0) = some st1 ∧
      cumsum.length = 2 ∧
      st1.tab.DocWordTopic = mapSet st.tab.DocWordTopic ⟨0, toUint32 0⟩ k1 := by
  obtain ⟨st, hst⟩ := initPass_some (NewLDA sampleCorpus 2 1 1).1 sampleEnv
    ⟨(NewLDA sampleCorpus 2 1 1).2, 0⟩ sample_order sample_inRange (by decide) (by decide)
    (NewLDA_Sized sampleCorpus 2 1 1)
  have h0 : RunUpTo (NewLDA sampleCorpus 2 1 1).1 sampleEnv 0 0 (NewLDA sampleCorpus 2 1 1).2
      = some st.tab := by
    rw [RunUpTo_zero, hst]; rfl
  have hbasic := RunUpTo_basic h0
  have hstrong := RunUpTo_strong sample_ok sample_short sample_order h0
  obtain ⟨st1, hst1⟩ := exec_progress (NewLDA sampleCorpus 2 1 1).1 sampleEnv st
    (Action.resample (0, (0, 0))) sample_ok sample_short sample_order sample_inRange
    (by decide) (by decide)
    (by
      intro t ht
      have : t = (0, (0, 0)) := by injection ht with h1; exact h1.symm
      subst this
      decide)
    hbasic.1 hbasic.2.2 hstrong
  obtain ⟨k, k1, cumsum, -, hlen, -, -, htab, -, -⟩ :=
    resample_draws_from_conditional (NewLDA sampleCorpus 2 1 1).1 sampleEnv 0 st st1 (0, 0)
      (by decide) hst1
  exact ⟨st, st1, k1, cumsum, hst, hst1, hlen, by rw [htab]⟩

/-- C18. No degenerate distribution: for `alpha > 0`, `beta > 0`, count tables (of natural
numbers) of the sizes of the model and a token `(doc, w)` with `doc < DocNum`, `w < VocabSize`
(so `V ≥ 1`), the loop filling `cumsum` goes through, every weight it computes is strictly
positive, `cumsum` is strictly increasing in `kidx`, and for `K ≥ 1` its last entry
`cumsum[K-1]` is strictly positive (exact arithmetic). -/
theorem no_degenerate_distribution (this : lda) (s : sstable) (doc w : Nat)
    (halpha : 0 < this.alpha) (hbeta : 0 < this.beta) (hs : Sized this s)
    (hdoc : doc < this.data.DocNum) (hw : w < this.data.VocabSize) :
    ∃ c, fillCumsum this s doc w = some c ∧ c.length = this.topicNum ∧
      (∀ kidx, kidx < this.topicNum →
        ∃ x, weight this s doc w kidx = some x ∧ 0 < x) ∧
      (∀ i j, i < j → j < this.topicNum → c.getD i 0 < c.getD j 0) ∧
      (1 ≤ this.topicNum → 0 < c.getD (this.topicNum - 1) 0) :=
  cumsum_facts this s doc w halpha hbeta hs hdoc hw

/-- C18, instantiated on the fresh tables of the sample corpus with `alpha = beta = 1/2`. -/
theorem no_degenerate_distribution_witness :
    ∃ c, fillCumsum (NewLDA sampleCorpus 2 (1 / 2) (1 / 2)).1
        (NewLDA sampleCorpus 2 (1 / 2) (1 / 2)).2 1 2 = some c ∧
      c.getD 0 0 < c.getD 1 0 ∧ 0 < c.getD 1 0 := by
  obtain ⟨c, hc, -, -, hmono, hpos⟩ := no_degenerate_distribution
    (NewLDA sampleCorpus 2 (1 / 2) (1 / 2)).1 (NewLDA sampleCorpus 2 (1 / 2) (1 / 2)).2 1 2
    (by norm_num [NewLDA]) (by norm_num [NewLDA]) (NewLDA_Sized sampleCorpus 2 (1 / 2) (1 / 2))
    (by decide) (by decide)
  exact ⟨c, hc, hmono 0 1 (by decide) (by decide), hpos (by decide)⟩

/-! ## The terms of the likelihood -/

theorem topicSum_eq (this : lda) (phi theta : DenseMatrix ℚ) (doc w : Nat)
    (hphi : w < phi.rowNum ∧ this.topicNum ≤ phi.colNum)
    (htheta : doc < theta.rowNum ∧ this.topicNum ≤ theta.colNum) :
    topicSum this phi theta doc w
      = some (∑ k ∈ Finset.range this.topicNum, phi.cell w k * theta.cell doc k) := by
  unfold topicSum
  have h0 : (0 : ℚ) = (fun i => ∑ k ∈ Finset.range i, phi.cell w k * theta.cell doc k) 0 := by
    simp
  rw [h0]
  apply foldlM_range_eq _ (fun i => ∑ k ∈ Finset.range i, phi.cell w k * theta.cell doc k)
  intro i hi
  have h1 : i < phi.colNum := lt_of_lt_of_le hi hphi.2
  have h2 : i < theta.colNum := lt_of_lt_of_le hi htheta.2
  simp [DenseMatrix.Get, DenseMatrix.inBounds, hphi.1, htheta.1, h1, h2, Finset.sum_range_succ]

theorem smoothed_cell_bounds (f : Nat → Nat) (n i : Nat) (c : ℚ) (hi : i < n) (hc : 0 < c) :
    0 < ((f i : ℚ) + c) / (((∑ j ∈ Finset.range n, f j : Nat) : ℚ) + (n : ℚ) * c) ∧
    ((f i : ℚ) + c) / (((∑ j ∈ Finset.range n, f j : Nat) : ℚ) + (n : ℚ) * c) ≤ 1 := by
  have hn1 : (1 : ℚ) ≤ (n : ℚ) := by exact_mod_cast (show 1 ≤ n by omega)
  have hfi : (0 : ℚ) ≤ (f i : ℚ) := Nat.cast_nonneg _
  have hle : (f i : ℚ) ≤ ((∑ j ∈ Finset.range n, f j : Nat) : ℚ) := by
    exact_mod_cast Finset.single_le_sum (f := f) (fun j _ => Nat.zero_le _)
      (Finset.mem_range.mpr hi)
  have hnc : c ≤ (n : ℚ) * c := by nlinarith
  have hden : 0 < ((∑ j ∈ Finset.range n, f j : Nat) : ℚ) + (n : ℚ) * c := by linarith
  refine ⟨div_pos (by linarith) hden, ?_⟩
  rw [div_le_one hden]
  linarith

/-- Each term `topicSum` of the likelihood lies in `(0, 1]`. -/
theorem topicSum_facts (this : lda) (s : sstable) (d w : Nat) (hK : 1 ≤ this.topicNum)
    (halpha : 0 < this.alpha) (hbeta : 0 < this.beta) (hs : Sized this s)
    (hd : d < this.data.DocNum) (hw : w < this.data.VocabSize) :
    ∃ phi theta ts, Phi this s = some (phi, s) ∧ Theta this s = some (theta, s) ∧
      topicSum this phi theta d w = some ts ∧
      ts = ∑ k ∈ Finset.range this.topicNum, phi.cell w k * theta.cell d k ∧
      0 < ts ∧ ts ≤ 1 := by
  obtain ⟨h1, h2, h3, h4, -, -⟩ := hs
  obtain ⟨phi, hphi, hpr, hpc, hpcell, -⟩ := phi_table_facts this s (by omega) hbeta h1 h2
  obtain ⟨theta, htheta, htr, htc, htcell, htsum⟩ := theta_table_facts this s hK halpha h3 h4
  have hts := topicSum_eq this phi theta d w ⟨hpr ▸ hw, le_of_eq hpc.symm⟩
    ⟨htr ▸ hd, le_of_eq htc.symm⟩
  have hphib : ∀ k, k < this.topicNum → 0 < phi.cell w k ∧ phi.cell w k ≤ 1 := by
    intro k hk
    rw [hpcell w k hw hk]
    exact smoothed_cell_bounds (fun v => s.WordTopic.cell v k) _ w _ hw hbeta
  have hthetab : ∀ k, k < this.topicNum → 0 < theta.cell d k := by
    intro k hk
    rw [htcell d k hd hk]
    exact (smoothed_cell_bounds (fun k1 => s.DocTopic.cell d k1) _ k _ hk halpha).1
  refine ⟨phi, theta, _, hphi, htheta, hts, rfl, ?_, ?_⟩
  · apply Finset.sum_pos
    · intro k hk
      have hk1 := Finset.mem_range.mp hk
      exact mul_pos (hphib k hk1).1 (hthetab k hk1)
    · exact ⟨0, Finset.mem_range.mpr hK⟩
  · rw [← htsum d hd]
    apply Finset.sum_le_sum
    intro k hk
    have hk1 := Finset.mem_range.mp hk
    have := (hphib k hk1).2
    have := hthetab k hk1
    nlinarith

/-- C20. Likelihood terms are probabilities: for count tables of the sizes of the model,
`K ≥ 1`, `alpha > 0`, `beta > 0` and a token of document `d < DocNum` and word `w < VocabSize`
(so `V ≥ 1`), `Phi()` and `Theta()` return and the quantity `topicSum` that `Likelihood()`
takes the logarithm of is `sum_k Phi[w,k] * Theta[d,k]` with `0 < topicSum ≤ 1` in exact
arithmetic. -/
theorem likelihood_terms_are_probabilities (this : lda) (s : sstable) (d w : Nat)
    (hK : 1 ≤ this.topicNum) (halpha : 0 < this.alpha) (hbeta : 0 < this.beta)
    (hs : Sized this s) (hd : d < this.data.DocNum) (hw : w < this.data.VocabSize) :
    ∃ phi theta ts, Phi this s = some (phi, s) ∧ Theta this s = some (theta, s) ∧
      topicSum this phi theta d w = some ts ∧
      ts = ∑ k ∈ Finset.range this.topicNum, phi.cell w k * theta.cell d k ∧
      0 < ts ∧ ts ≤ 1 :=
  topicSum_facts this s d w hK halpha hbeta hs hd hw

/-- C20, instantiated on the fresh tables of the sample corpus. -/
theorem likelihood_terms_are_probabilities_witness :
    ∃ phi theta ts,
      Phi (NewLDA sampleCorpus 2 (1 / 2) (1 / 3)).1 (NewLDA sampleCorpus 2 (1 / 2) (1 / 3)).2
        = some (phi, (NewLDA sampleCorpus 2 (1 / 2) (1 / 3)).2) ∧
      Theta (NewLDA sampleCorpus 2 (1 / 2) (1 / 3)).1 (NewLDA sampleCorpus 2 (1 / 2) (1 / 3)).2
        = some (theta, (NewLDA sampleCorpus 2 (1 / 2) (1 / 3)).2) ∧
      topicSum (NewLDA sampleCorpus 2 (1 / 2) (1 / 3)).1 phi theta 1 2 = some ts ∧
      0 < ts ∧ ts ≤ 1 := by
  obtain ⟨phi, theta, ts, h1, h2, h3, -, h4, h5⟩ := likelihood_terms_are_probabilities
    (NewLDA sampleCorpus 2 (1 / 2) (1 / 3)).1 (NewLDA sampleCorpus 2 (1 / 2) (1 / 3)).2 1 2
    (by decide) (by norm_num [NewLDA]) (by norm_num [NewLDA])
    (NewLDA_Sized sampleCorpus 2 (1 / 2) (1 / 3)) (by decide) (by decide)
  exact ⟨phi, theta, ts, h1, h2, h3, h4, h5⟩

/-! ## The key set of the assignment table -/

theorem mapLookup_ne_none_iff (m : TopicMap) (dw : DocWord) :
    mapLookup m dw ≠ none ↔ dw ∈ m.map Prod.fst := by
  induction m with
  | nil => simp [mapLookup]
  | cons a m ih =>
    obtain ⟨key, v⟩ := a
    unfold mapLookup
    by_cases hk : key = dw
    · simp [hk]
    · have hk1 : ¬ (dw = key) := fun h => hk h.symm
      simp only [hk, if_false, List.map_cons, List.mem_cons, hk1, false_or]
      exact ih

theorem exec_keys_nodup {this : lda} {env : Env} {st st1 : RunState} {a : Action}
    (hq : (st.tab.DocWordTopic.map Prod.fst).Nodup) (h : exec this env st a = some st1) :
    (st1.tab.DocWordTopic.map Prod.fst).Nodup := by
  cases a with
  | report iterIdx => rw [exec_report_tab h]; exact hq
  | resample t =>
    obtain ⟨k, -, -, -, -, cumsum, last, k1, -, -, -, -, -, -, rfl⟩ :=
      resampleToken_eq_some.mp h
    exact mapSet_keys_nodup _ _ hq

theorem RunUpTo_keys_nodup {dat : Corpus} {K : Nat} {alpha beta : ℚ} {env : Env} {iter : Int}
    {n : Nat} {s : sstable}
    (h : RunUpTo (NewLDA dat K alpha beta).1 env iter n (NewLDA dat K alpha beta).2 = some s) :
    (s.DocWordTopic.map Prod.fst).Nodup := by
  refine RunUpTo_inv (fun s => (s.DocWordTopic.map Prod.fst).Nodup) ?_ ?_ h
  · intro st hst
    refine initPass_inv (fun s => (s.DocWordTopic.map Prod.fst).Nodup) ?_ ?_ hst
    · simp [NewLDA]
    · intro doc st2 iw st3 hq he
      obtain ⟨k, -, -, -, -, rfl⟩ := initToken_eq_some.mp he
      exact mapSet_keys_nodup _ _ hq
  · intro st a st1 _ hq he
    exact exec_keys_nodup hq he

theorem length_docTokens (d : Nat × List WordCount) :
    (docTokens d).length = (ExpandWords d.2).length := by
  unfold docTokens
  rw [List.length_map, List.enum_length]

theorem length_tokensOf (docs : DocMap) :
    (tokensOf docs).length = (docs.map (fun d => (ExpandWords d.2).length)).sum := by
  induction docs with
  | nil => rfl
  | cons d rest ih =>
    unfold tokensOf at ih ⊢
    rw [List.flatMap_cons, List.length_append, ih, length_docTokens]
    rfl

/-- In a corpus of short documents the keys of the tokens are the pairs `(d, i)` with `d` a
document id and `i` a position of that document. -/
theorem mem_token_keys {docs : DocMap} (hshort : ShortDocs docs) (dw : DocWord) :
    dw ∈ (tokensOf docs).map Token.key ↔
      ∃ d ∈ docs, dw.DocId = d.1 ∧ dw.WordIdx < (ExpandWords d.2).length := by
  constructor
  · intro h
    obtain ⟨t, ht, rfl⟩ := List.mem_map.mp h
    obtain ⟨d, hd, h1, h2⟩ := mem_tokensOf.mp ht
    obtain ⟨hlt, -⟩ := List.getElem?_eq_some.mp h2
    refine ⟨d, hd, h1, ?_⟩
    show toUint32 t.2.1 < _
    rw [toUint32_of_lt (lt_of_lt_of_le hlt (hshort d hd))]
    exact hlt
  · rintro ⟨d, hd, h1, h2⟩
    refine List.mem_map.mpr ⟨(d.1, (dw.WordIdx, (ExpandWords d.2).get ⟨dw.WordIdx, h2⟩)), ?_, ?_⟩
    · exact mem_tokensOf.mpr ⟨d, hd, rfl, List.getElem?_eq_getElem h2⟩
    · cases dw with
      | mk di wi =>
        simp only at h1 h2
        unfold Token.key
        simp only [DocWord.mk.injEq]
        exact ⟨h1.symm, toUint32_of_lt (lt_of_lt_of_le h2 (hshort d hd))⟩

/-- The assignment table of a corpus of short documents has one entry per token instance. -/
theorem RunUpTo_table_size {dat : Corpus} {K : Nat} {alpha beta : ℚ} {env : Env} {iter : Int}
    {n : Nat} {s : sstable} (hok : DocMapOK dat.entries) (hshort : ShortDocs dat.entries)
    (hord : env.OrderOK dat)
    (h : RunUpTo (NewLDA dat K alpha beta).1 env iter n (NewLDA dat K alpha beta).2 = some s) :
    s.DocWordTopic.length = (dat.entries.map (fun d => (ExpandWords d.2).length)).sum := by
  have hkeys := (RunUpTo_strong hok hshort hord h).2
  have hnd := RunUpTo_keys_nodup h
  have hperm : (s.DocWordTopic.map Prod.fst).Perm ((tokensOf dat.entries).map Token.key) := by
    rw [List.perm_ext_iff_of_nodup hnd (tokensOf_keys_nodup hok hshort)]
    intro dw
    rw [← mapLookup_ne_none_iff]
    exact hkeys dw
  have := hperm.length_eq
  rw [List.length_map, List.length_map, length_tokensOf] at this
  exact this

/-- In a corpus of one document the total number of tokens is the length of that document. -/
theorem single_doc_total (d : Nat) (ws : List WordCount) :
    (ExpandWords (docsGet [(d, ws)] d)).length
      = ([(d, ws)].map (fun e => (ExpandWords e.2).length)).sum := by
  simp [docsGet]

theorem long_short_fails : (ExpandWords (docsGet longCorpus.entries 0)).length
    = (longCorpus.entries.map (fun d => (ExpandWords d.2).length)).sum :=
  single_doc_total 0 [⟨0, 4294967295⟩, ⟨0, 2⟩]

/-- C13, as stated, fails: for a document of `2^32 + 1` tokens the position `2^32` has no key
of its own (it is filed under `uint32(2^32) = 0`), and after the initialisation pass the
assignment table has at most `2^32` entries for `2^32 + 1` token instances. -/
theorem assignment_table_misses_long_document :
    ∃ s, Run (NewLDA longCorpus 1 1 1).1 longEnv 0 (NewLDA longCorpus 1 1 1).2 = some s ∧
      4294967296 < (ExpandWords (docsGet longCorpus.entries 0)).length ∧
      mapLookup s.DocWordTopic ⟨0, 4294967296⟩ = none ∧
      s.DocWordTopic.length
        < (longCorpus.entries.map (fun d => (ExpandWords d.2).length)).sum := by
  obtain ⟨st, hst⟩ := initPass_some (NewLDA longCorpus 1 1 1).1 longEnv
    ⟨(NewLDA longCorpus 1 1 1).2, 0⟩ long_order long_inRange (by decide) (by decide)
    (NewLDA_Sized longCorpus 1 1 1)
  have h0 : RunUpTo (NewLDA longCorpus 1 1 1).1 longEnv 0 0 (NewLDA longCorpus 1 1 1).2
      = some st.tab := by
    rw [RunUpTo_zero, hst]; rfl
  have hrun : Run (NewLDA longCorpus 1 1 1).1 longEnv 0 (NewLDA longCorpus 1 1 1).2
      = some st.tab := by
    rw [Run_eq_RunUpTo]
    exact h0
  have htidy : KeysTidy [0] st.tab.DocWordTopic :=
    initPass_KeysTidy (NewLDA longCorpus 1 1 1).1 longEnv ⟨(NewLDA longCorpus 1 1 1).2, 0⟩
      ⟨by simp [NewLDA], by simp [NewLDA]⟩ hst
  refine ⟨st.tab, hrun, by rw [long_length]; decide, ?_, ?_⟩
  · cases hl : mapLookup st.tab.DocWordTopic ⟨0, 4294967296⟩ with
    | none => rfl
    | some k =>
      have hlt : (4294967296 : Nat) < uint32Size := (htidy.2 _ (mapLookup_mem hl)).2
      exact absurd hlt (by decide)
  · rw [← long_short_fails, long_length]
    have := KeysTidy_length htidy
    unfold uint32Size at this
    omega

/-- C13, amended. The assignment table covers exactly the token instances when no document
has more than `2^32` of them: for a model freshly built by `NewLDA`, after the initialisation
pass and after every atomic step of every sweep the keys of `DocWordTopic` are pairwise
distinct and are exactly the pairs `(d, i)` with `d` a document id of the corpus and
`i < len(ExpandWords(Docs[d]))`, so the number of entries is the sum of the per-document
token counts; and for ids in range and `1 ≤ K < 2^31` every such step is reached. -/
theorem assignment_table_covers_tokens (dat : Corpus) (K : Nat) (alpha beta : ℚ) (env : Env)
    (iter : Int) (hok : DocMapOK dat.entries) (hord : env.OrderOK dat)
    (hshort : ShortDocs dat.entries) :
    (∀ n s, RunUpTo (NewLDA dat K alpha beta).1 env iter n (NewLDA dat K alpha beta).2 = some s →
      (∀ dw, mapLookup s.DocWordTopic dw ≠ none ↔
        ∃ d ∈ dat.entries, dw.DocId = d.1 ∧ dw.WordIdx < (ExpandWords d.2).length) ∧
      (s.DocWordTopic.map Prod.fst).Nodup ∧
      s.DocWordTopic.length = (dat.entries.map (fun d => (ExpandWords d.2).length)).sum) ∧
    (InRange dat → 1 ≤ K → K < 2147483648 → ∀ n, ∃ s,
      RunUpTo (NewLDA dat K alpha beta).1 env iter n (NewLDA dat K alpha beta).2 = some s) := by
  constructor
  · intro n s h
    refine ⟨?_, RunUpTo_keys_nodup h, RunUpTo_table_size hok hshort hord h⟩
    intro dw
    rw [(RunUpTo_strong hok hshort hord h).2 dw]
    exact mem_token_keys hshort dw
  · intro hin hK1 hK2 n
    exact RunUpTo_some alpha beta iter n hok hshort hord hin hK1 hK2

/-- C13 amended, instantiated: the sample corpus has four token instances. -/
theorem assignment_table_covers_tokens_witness :
    ∃ s, RunUpTo (NewLDA sampleCorpus 2 1 1).1 sampleEnv 3 4 (NewLDA sampleCorpus 2 1 1).2
        = some s ∧
      s.DocWordTopic.length = 4 ∧ mapLookup s.DocWordTopic ⟨0, 2⟩ ≠ none := by
  obtain ⟨hA, hB⟩ := assignment_table_covers_tokens sampleCorpus 2 1 1 sampleEnv 3 sample_ok
    sample_order sample_short
  obtain ⟨s, hs⟩ := hB sample_inRange (by decide) (by decide) 4
  obtain ⟨h1, -, h3⟩ := hA 4 s hs
  refine ⟨s, hs, by rw [h3]; decide, (h1 ⟨0, 2⟩).mpr ?_⟩
  exact ⟨(0, [⟨0, 2⟩, ⟨2, 1⟩]), by decide, rfl, by decide⟩

/-! ## What a run depends on -/

theorem initToken_env (this : lda) (env1 env2 : Env)
    (hint : ∀ c, env1.rawInt31 env1.now c = env2.rawInt31 env2.now c) :
    initToken this env1 = initToken this env2 := by
  funext doc st iw
  simp only [initToken, hint]

theorem resampleToken_env (this : lda) (env1 env2 : Env)
    (hfloat : ∀ c, env1.rawFloat32 env1.now c = env2.rawFloat32 env2.now c) :
    resampleToken this env1 = resampleToken this env2 := by
  funext doc st iw
  simp only [resampleToken, hfloat]

theorem Likelihood_env (this : lda) (env1 env2 : Env) (hlog : env1.log = env2.log)
    (horder : ∀ p, env1.order p = env2.order p) (p : Nat) (s : sstable) :
    Likelihood this env1 p s = Likelihood this env2 p s := by
  have hdoc : likelihoodDoc this env1 = likelihoodDoc this env2 := by
    funext phi theta sum d
    simp only [likelihoodDoc, hlog]
  simp only [Likelihood, hdoc, horder]

theorem exec_env (this : lda) (env1 env2 : Env)
    (hfloat : ∀ c, env1.rawFloat32 env1.now c = env2.rawFloat32 env2.now c)
    (hlog : env1.log = env2.log) (horder : ∀ p, env1.order p = env2.order p) :
    exec this env1 = exec this env2 := by
  funext st a
  cases a with
  | report iterIdx =>
    simp only [exec, logLikelihood, Likelihood_env this env1 env2 hlog horder]
  | resample t =>
    simp only [exec, resampleToken_env this env1 env2 hfloat]

/-- The tables `Run` leaves are determined by the model, the number of iterations, the stream
of the generator for the seed in use, and the orders of the `range` loops. -/
theorem RunUpTo_env (this : lda) (env1 env2 : Env) (iter : Int) (s : sstable)
    (hint : ∀ c, env1.rawInt31 env1.now c = env2.rawInt31 env2.now c)
    (hfloat : ∀ c, env1.rawFloat32 env1.now c = env2.rawFloat32 env2.now c)
    (hlog : env1.log = env2.log) (horder : ∀ p, env1.order p = env2.order p) (n : Nat) :
    RunUpTo this env1 iter n s = RunUpTo this env2 iter n s := by
  have hacts : runActions env1 iter = runActions env2 iter := by
    have : sweepActions env1 = sweepActions env2 := by
      funext it
      simp only [sweepActions, horder]
    simp only [runActions, this]
  have hinit : initPass this env1 = initPass this env2 := by
    funext st
    simp only [initPass, initToken_env this env1 env2 hint, horder]
  simp only [RunUpTo, hacts, hinit, exec_env this env1 env2 hfloat hlog horder]

/-- C11, as stated, fails. The seed is the wall clock: with one and the same generator, a run
started at second 0 assigns topic 0 to the token of `tinyCorpus` and a run started at second 1
assigns topic 1. And with the same clock and generator, visiting the two documents of
`twoDocCorpus` in the other order swaps their topics and the rows of `DocTopic`. -/
theorem run_depends_on_clock_and_map_order :
    (Run (NewLDA tinyCorpus 2 1 1).1 (clockEnv 0) 0 (NewLDA tinyCorpus 2 1 1).2).map
        (fun s => s.DocWordTopic) = some [(⟨0, 0⟩, 0)] ∧
    (Run (NewLDA tinyCorpus 2 1 1).1 (clockEnv 1) 0 (NewLDA tinyCorpus 2 1 1).2).map
        (fun s => s.DocWordTopic) = some [(⟨0, 0⟩, 1)] ∧
    (Run (NewLDA twoDocCorpus 2 1 1).1 forwardEnv 0 (NewLDA twoDocCorpus 2 1 1).2).map
        (fun s => (mapGet s.DocWordTopic ⟨0, 0⟩, mapGet s.DocWordTopic ⟨1, 0⟩,
          s.DocTopic.cell 0 0, s.DocTopic.cell 0 1)) = some (0, 1, 1, 0) ∧
    (Run (NewLDA twoDocCorpus 2 1 1).1 backwardEnv 0 (NewLDA twoDocCorpus 2 1 1).2).map
        (fun s => (mapGet s.DocWordTopic ⟨0, 0⟩, mapGet s.DocWordTopic ⟨1, 0⟩,
          s.DocTopic.cell 0 0, s.DocTopic.cell 0 1)) = some (1, 0, 0, 1) := by
  exact ⟨rfl, rfl, rfl, rfl⟩

/-- C11, amended. `Run` is deterministic in what it takes from outside: two runs over the same
model (corpus, `K`, `alpha`, `beta`), the same tables and the same number of iterations whose
generators yield the same stream for the seed `time.Now().Unix()` of each run and whose `range`
loops visit the documents in the same orders pass through identical tables after the
initialisation pass and after every atomic step, end in identical tables, and have identical
`Phi` and `Theta`. -/
theorem run_deterministic (this : lda) (env1 env2 : Env) (iter : Int) (s : sstable)
    (hint : ∀ c, env1.rawInt31 env1.now c = env2.rawInt31 env2.now c)
    (hfloat : ∀ c, env1.rawFloat32 env1.now c = env2.rawFloat32 env2.now c)
    (hlog : env1.log = env2.log) (horder : ∀ p, env1.order p = env2.order p) :
    (∀ n, RunUpTo this env1 iter n s = RunUpTo this env2 iter n s) ∧
    Run this env1 iter s = Run this env2 iter s ∧
    (Run this env1 iter s).bind (Phi this) = (Run this env2 iter s).bind (Phi this) ∧
    (Run this env1 iter s).bind (Theta this) = (Run this env2 iter s).bind (Theta this) := by
  have hup := RunUpTo_env this env1 env2 iter s hint hfloat hlog horder
  have hacts : (runActions env1 iter).length = (runActions env2 iter).length := by
    have : sweepActions env1 = sweepActions env2 := by
      funext it
      simp only [sweepActions, horder]
    simp only [runActions, this]
  have hrun : Run this env1 iter s = Run this env2 iter s := by
    rw [Run_eq_RunUpTo, Run_eq_RunUpTo, hacts]
    exact hup _
  exact ⟨hup, hrun, by rw [hrun], by rw [hrun]⟩

/-- C11 amended, instantiated: the sample run does not notice what the generator would yield
for other seeds. -/
theorem run_deterministic_witness :
    Run (NewLDA sampleCorpus 2 1 1).1 sampleEnv 3 (NewLDA sampleCorpus 2 1 1).2
      = Run (NewLDA sampleCorpus 2 1 1).1 sampleEnvOtherSeeds 3 (NewLDA sampleCorpus 2 1 1).2 :=
  (run_deterministic (NewLDA sampleCorpus 2 1 1).1 sampleEnv sampleEnvOtherSeeds 3
    (NewLDA sampleCorpus 2 1 1).2 (fun _ => rfl) (fun _ => rfl) rfl (fun _ => rfl)).2.1

/-! ## Decrements (C19) -/

/-! ## A document longer than the positions a key can hold -/

theorem wrap_expand (N : Nat) : ExpandWords (wrapDoc N) = List.replicate (N + 1) 0 ++ [1] := by
  rw [ExpandWords_eq, List.replicate_succ']
  simp [wrapDoc, List.flatMap_cons]

theorem wrap_tokens (N : Nat) :
    tokensOf [(0, wrapDoc N)]
      = ((List.replicate (N + 1) 0).enum.map (fun iw => ((0 : Nat), iw))) ++ [(0, (N + 1, 1))] := by
  unfold tokensOf docTokens
  simp only [List.flatMap_cons, List.flatMap_nil, List.append_nil, wrap_expand, List.enum_append,
    List.map_append, List.enumFrom_singleton, List.length_replicate, List.map_cons, List.map_nil]

theorem wrap_head (N : Nat) : ∃ rest, tokensOf [(0, wrapDoc N)] = (0, (0, 0)) :: rest := by
  rw [wrap_tokens, List.replicate_succ, List.enum_cons]
  exact ⟨_, rfl⟩

/-- While every draw yields topic 0, the initialisation loop leaves column 1 of `WordTopic`
as it is and counts its draws. -/
theorem initTokens_column (this : lda) (env : Env) (M : Nat)
    (hdraw : ∀ c k, c < M →
      Int31n (env.rawInt31 env.now c) (toInt32 this.topicNum) = some k → k = 0)
    (ts : List Token) :
    ∀ st st1, st.calls + ts.length ≤ M →
      ts.foldlM (fun st t => initToken this env t.1 st t.2) st = some st1 →
      st1.calls = st.calls + ts.length ∧
        ∀ w, st1.tab.WordTopic.cell w 1 = st.tab.WordTopic.cell w 1 := by
  induction ts with
  | nil =>
    intro st st1 _ h
    simp only [List.foldlM_nil, pure, Option.some.injEq] at h
    subst h
    exact ⟨rfl, fun _ => rfl⟩
  | cons t ts ih =>
    intro st st1 hlen h
    simp only [List.foldlM_cons, bind, Option.bind_eq_some] at h
    obtain ⟨st2, h2, h3⟩ := h
    simp only [List.length_cons] at hlen
    obtain ⟨k, hk, -, -, -, rfl⟩ := initToken_eq_some.mp h2
    have hk0 : k = 0 := hdraw st.calls k (by omega) hk
    subst hk0
    obtain ⟨hc, hw⟩ := ih _ st1 (by simp only; omega) h3
    refine ⟨by rw [hc]; simp only [List.length_cons]; omega, ?_⟩
    intro w
    rw [hw w]
    simp [bump]

theorem wrap_order (N : Nat) : (wrapEnvOf N).OrderOK (wrapCorpusOf N) :=
  fun _ => List.Perm.refl _

theorem wrap_inRange (N : Nat) : InRange (wrapCorpusOf N) := by
  simp [InRange, wrapCorpusOf, Corpus.entries, wrapDoc]

/-- When position `N + 1` wraps to 0, the token at position 0 (word 0) is looked up under the
topic of the last token (word 1), whose cell `WordTopic[0,1]` is 0: the first resample step
fails. -/
theorem wrap_facts (N : Nat) (hwrap : toUint32 (N + 1) = 0) :
    ∃ st, initPass (NewLDA (wrapCorpusOf N) 2 1 1).1 (wrapEnvOf N)
        ⟨(NewLDA (wrapCorpusOf N) 2 1 1).2, 0⟩ = some st ∧
      mapLookup st.tab.DocWordTopic ⟨0, 0⟩ = some 1 ∧
      st.tab.WordTopic.cell 0 1 = 0 ∧
      resampleToken (NewLDA (wrapCorpusOf N) 2 1 1).1 (wrapEnvOf N) 0 st (0, 0) = none ∧
      Run (NewLDA (wrapCorpusOf N) 2 1 1).1 (wrapEnvOf N) 1 (NewLDA (wrapCorpusOf N) 2 1 1).2
        = none := by
  obtain ⟨st, hst⟩ := initPass_some (NewLDA (wrapCorpusOf N) 2 1 1).1 (wrapEnvOf N)
    ⟨(NewLDA (wrapCorpusOf N) 2 1 1).2, 0⟩ (wrap_order N) (wrap_inRange N)
    (le_of_lt Nat.one_lt_two) (by show 2 < 2147483648; omega)
    (NewLDA_Sized (wrapCorpusOf N) 2 1 1)
  have hsized : Sized (NewLDA (wrapCorpusOf N) 2 1 1).1 st.tab :=
    initPass_inv (fun s => Sized (NewLDA (wrapCorpusOf N) 2 1 1).1 s)
      (NewLDA_Sized (wrapCorpusOf N) 2 1 1) (fun _ _ _ _ hq he => initToken_Sized hq he) hst
  have hfold := hst
  rw [initPass_eq] at hfold
  have hord0 : (wrapEnvOf N).order 0 = [(0, wrapDoc N)] := rfl
  rw [hord0, wrap_tokens, List.foldlM_append] at hfold
  simp only [bind, Option.bind_eq_some, List.foldlM_cons, List.foldlM_nil, pure] at hfold
  obtain ⟨stA, hA, st', hlast, hst'⟩ := hfold
  have hst'' : st' = st := Option.some.inj hst'
  rw [hst''] at hlast
  have h2 : toInt32 (NewLDA (wrapCorpusOf N) 2 1 1).1.topicNum = 2 := by
    show toInt32 2 = 2
    decide
  have hdraw : ∀ c k, c < N + 1 →
      Int31n ((wrapEnvOf N).rawInt31 (wrapEnvOf N).now c)
        (toInt32 (NewLDA (wrapCorpusOf N) 2 1 1).1.topicNum) = some k → k = 0 := by
    intro c k hc hk
    have hraw : (wrapEnvOf N).rawInt31 (wrapEnvOf N).now c = 0 := by
      show (if c ≤ N then 0 else 1) = 0
      rw [if_pos (by omega)]
    rw [hraw, h2] at hk
    simp [Int31n] at hk
    exact hk.symm
  obtain ⟨hcalls, hcol⟩ := initTokens_column (NewLDA (wrapCorpusOf N) 2 1 1).1 (wrapEnvOf N)
    (N + 1) hdraw _ ⟨(NewLDA (wrapCorpusOf N) 2 1 1).2, 0⟩ stA
    (by simp [List.enum_length]) hA
  have hcallsA : stA.calls = N + 1 := by
    rw [hcalls]
    simp [List.enum_length]
  obtain ⟨k, hk, -, -, -, hst_eq⟩ := initToken_eq_some.mp hlast
  have hk1 : k = 1 := by
    have hraw : (wrapEnvOf N).rawInt31 (wrapEnvOf N).now stA.calls = 1 := by
      show (if stA.calls ≤ N then 0 else 1) = 1
      rw [if_neg (by omega)]
    rw [hraw, h2] at hk
    simp [Int31n] at hk
    exact hk.symm
  subst hk1
  have hlook : mapLookup st.tab.DocWordTopic ⟨0, 0⟩ = some 1 := by
    rw [hst_eq]
    show mapLookup (mapSet stA.tab.DocWordTopic ⟨0, toUint32 (N + 1)⟩ 1) ⟨0, 0⟩ = some 1
    rw [hwrap, mapLookup_mapSet]
    simp
  have hcell : st.tab.WordTopic.cell 0 1 = 0 := by
    rw [hst_eq]
    show (bump stA.tab.WordTopic 1 1).cell 0 1 = 0
    have : (bump stA.tab.WordTopic 1 1).cell 0 1 = stA.tab.WordTopic.cell 0 1 := by
      simp [bump]
    rw [this, hcol 0]
    rfl
  have hres : resampleToken (NewLDA (wrapCorpusOf N) 2 1 1).1 (wrapEnvOf N) 0 st (0, 0)
      = none := by
    cases hr : resampleToken (NewLDA (wrapCorpusOf N) 2 1 1).1 (wrapEnvOf N) 0 st (0, 0) with
    | none => rfl
    | some st1 =>
      obtain ⟨k, hk, ⟨-, hpos⟩, -⟩ := resampleToken_eq_some.mp hr
      have hk1 : k = 1 := by
        rw [hk]
        exact mapGet_of_lookup hlook
      subst hk1
      have hpos' : 1 ≤ st.tab.WordTopic.cell 0 1 := hpos
      omega
  refine ⟨st, hst, hlook, hcell, hres, ?_⟩
  obtain ⟨x, hx⟩ := Likelihood_some (NewLDA (wrapCorpusOf N) 2 1 1).1 (wrapEnvOf N) 1 st.tab
    hsized (order_inRange (wrap_inRange N) (wrap_order N 1))
  obtain ⟨rest, hrest⟩ := wrap_head N
  have hsweep : sweep (NewLDA (wrapCorpusOf N) 2 1 1).1 (wrapEnvOf N) 0 st = none := by
    unfold sweep
    rw [foldlM_tokensOf (resampleToken (NewLDA (wrapCorpusOf N) 2 1 1).1 (wrapEnvOf N))]
    have hord2 : (wrapEnvOf N).order (2 * 0 + 2) = [(0, wrapDoc N)] := rfl
    rw [hord2, hrest]
    simp only [List.foldlM_cons, bind]
    rw [hres]
    rfl
  have hiter : iteration (NewLDA (wrapCorpusOf N) 2 1 1).1 (wrapEnvOf N) st 0 = none := by
    unfold iteration logLikelihood
    have h10 : 0 % 10 = 0 := rfl
    simp only [h10, if_true]
    have h21 : 2 * 0 + 1 = 1 := rfl
    rw [h21, hx]
    exact hsweep
  unfold Run
  rw [hst]
  have hr1 : List.range (1 : Int).toNat = [0] := rfl
  simp only [Option.some_bind, hr1, List.foldlM_cons, bind]
  rw [hiter]
  rfl

theorem wrap_mod : toUint32 (4294967295 + 1) = 0 := by decide

/-- C19, as stated, fails: in a document whose last token (word 1) has position `2^32`, that
token is filed under the key of position 0. With `K = 2` and draws giving topic 0 to the
tokens of word 0 and topic 1 to the last one, the first resample step of the first sweep, the
token of word 0 at position 0, looks up topic 1 while `WordTopic[0,1]` is 0, so the decrement
underflows and `Run(1)` does not complete. -/
theorem decrement_underflows_long_document :
    (tokensOf (wrapEnv.order 2)).head? = some (0, (0, 0)) ∧
    ∃ st, initPass (NewLDA wrapCorpus 2 1 1).1 wrapEnv ⟨(NewLDA wrapCorpus 2 1 1).2, 0⟩
        = some st ∧
      mapLookup st.tab.DocWordTopic ⟨0, 0⟩ = some 1 ∧
      st.tab.WordTopic.cell 0 1 = 0 ∧
      resampleToken (NewLDA wrapCorpus 2 1 1).1 wrapEnv 0 st (0, 0) = none ∧
      Run (NewLDA wrapCorpus 2 1 1).1 wrapEnv 1 (NewLDA wrapCorpus 2 1 1).2 = none := by
  refine ⟨?_, wrap_facts 4294967295 wrap_mod⟩
  obtain ⟨rest, hrest⟩ := wrap_head 4294967295
  have hord : wrapEnv.order 2 = [(0, wrapDoc 4294967295)] := rfl
  rw [hord, hrest]
  rfl

/-- C19, amended. Decrements never underflow when no document has more than `2^32` token
instances: for a model freshly built by `NewLDA` and run once, whatever the draws and orders,
whenever the next atomic step is the resample step of a token, the lookup of its key finds an
entry, with topic `k` say, and `WordTopic[word,k]`, `DocTopic[doc,k]` and `WordTopicSum[k,0]`
are each at least 1; and for ids in range and `1 ≤ K < 2^31` every step is reached. -/
theorem decrements_never_underflow (dat : Corpus) (K : Nat) (alpha beta : ℚ) (env : Env)
    (iter : Int) (hok : DocMapOK dat.entries) (hord : env.OrderOK dat)
    (hshort : ShortDocs dat.entries) :
    (∀ n s t,
      RunUpTo (NewLDA dat K alpha beta).1 env iter n (NewLDA dat K alpha beta).2 = some s →
      (runActions env iter).get? n = some (Action.resample t) →
      ∃ k, mapLookup s.DocWordTopic (Token.key t) = some k ∧
        1 ≤ s.WordTopic.cell t.2.2 k ∧ 1 ≤ s.DocTopic.cell t.1 k ∧
        1 ≤ s.WordTopicSum.cell k 0) ∧
    (InRange dat → 1 ≤ K → K < 2147483648 → ∀ n, ∃ s,
      RunUpTo (NewLDA dat K alpha beta).1 env iter n (NewLDA dat K alpha beta).2 = some s) := by
  constructor
  · intro n s t h hact
    obtain ⟨hder, hkeys⟩ := RunUpTo_strong hok hshort hord h
    obtain ⟨p, hp⟩ := mem_runActions (List.get?_mem hact)
    have ht : t ∈ tokensOf dat.entries := (mem_order_tokens (hord p)).mp hp
    have hpres : mapLookup s.DocWordTopic (Token.key t) ≠ none :=
      (hkeys _).mpr (List.mem_map_of_mem Token.key ht)
    obtain ⟨k, hk⟩ := Option.ne_none_iff_exists'.mp hpres
    refine ⟨k, hk, ?_, ?_, ?_⟩
    · rw [hder.1]
      exact entriesWordTopic_pos hk (wordAt_key hok hshort ht)
    · rw [hder.2.1]
      exact entriesDocTopic_pos (Token.key t) hk
    · rw [hder.2.2]
      exact entriesTopic_pos hk
  · intro hin hK1 hK2 n
    exact RunUpTo_some alpha beta iter n hok hshort hord hin hK1 hK2

/-- C19 amended, instantiated: the first resample step of the sample run. -/
theorem decrements_never_underflow_witness :
    ∃ s k, RunUpTo (NewLDA sampleCorpus 2 1 1).1 sampleEnv 3 1 (NewLDA sampleCorpus 2 1 1).2
        = some s ∧
      mapLookup s.DocWordTopic (Token.key (0, (0, 0))) = some k ∧ 1 ≤ s.WordTopic.cell 0 k ∧
      1 ≤ s.DocTopic.cell 0 k ∧ 1 ≤ s.WordTopicSum.cell k 0 := by
  obtain ⟨hA, hB⟩ := decrements_never_underflow sampleCorpus 2 1 1 sampleEnv 3 sample_ok
    sample_order sample_short
  obtain ⟨s, hs⟩ := hB sample_inRange (by decide) (by decide) 1
  obtain ⟨k, h1, h2, h3, h4⟩ := hA 1 s (0, (0, 0)) hs rfl
  exact ⟨s, k, hs, h1, h2, h3, h4⟩

end Gotm
